import Mathlib

/-!
Shallow embedding of the Minesweeper solver core (`src/minesweeper/`) and
proofs about the claims of its specification.

Conventions of the embedding:
* grid coordinates are natural numbers `(i, j)`; Python's bounds checks
  `0 ≤ i < rows` become `i < rows`;
* tile values follow `TileState` in `core/board.py`: `-1` UNKNOWN, `-2` FLAGGED,
  `0`–`8` revealed counts, `9` a revealed mine;
* Python sets of cells become `Finset (Nat × Nat)`; functions that iterate a
  set of cells iterate the row-major list of matching cells;
* the board RNG's `sample` is an explicit `Sampler` argument; theorems about
  random placement quantify over any sampler that returns the requested number
  of distinct elements of its input (which `random.Random.sample` does);
* `ValueError` raising code returns `Except String`.
-/

namespace MS

abbrev Cell := Nat × Nat

/-- Linear key used only to iterate finite sets of cells in a fixed order
(Python's set iteration order is arbitrary; no result below depends on it). -/
def cellR (a b : Cell) : Prop := Nat.pair a.1 a.2 ≤ Nat.pair b.1 b.2

instance : DecidableRel cellR := fun a b => by unfold cellR; infer_instance

instance : IsTrans Cell cellR := ⟨fun _ _ _ h1 h2 => le_trans h1 h2⟩

instance : IsAntisymm Cell cellR := ⟨fun a b h1 h2 => by
  have h := le_antisymm h1 h2
  have := Nat.pair_eq_pair.mp h
  exact Prod.ext this.1 this.2⟩

instance : IsTotal Cell cellR := ⟨fun _ _ => le_total _ _⟩

/-- Executable, order-canonical list of a finite set of cells (an insertion
sort, so that it also reduces inside the kernel). -/
def toCellList (s : Finset Cell) : List Cell :=
  Quotient.liftOn s.val (List.insertionSort cellR) (fun l1 l2 h =>
    List.eq_of_perm_of_sorted
      ((List.perm_insertionSort cellR l1).trans
        (h.trans (List.perm_insertionSort cellR l2).symm))
      (List.sorted_insertionSort cellR l1) (List.sorted_insertionSort cellR l2))

theorem toCellList_perm (s : Finset Cell) : (toCellList s : Multiset Cell) = s.val := by
  obtain ⟨m, hm⟩ := s
  induction m using Quotient.inductionOn with
  | h l => exact Quotient.sound (List.perm_insertionSort cellR l)

theorem mem_toCellList {s : Finset Cell} {c : Cell} : c ∈ toCellList s ↔ c ∈ s := by
  have h := toCellList_perm s
  constructor
  · intro hc
    have : c ∈ (toCellList s : Multiset Cell) := by simpa using hc
    rw [h] at this
    exact this
  · intro hc
    have : c ∈ (s.val : Multiset Cell) := hc
    rw [← h] at this
    simpa using this

theorem toCellList_nodup (s : Finset Cell) : (toCellList s).Nodup := by
  have h := toCellList_perm s
  have := s.nodup
  rw [← h] at this
  exact this

theorem toCellList_length (s : Finset Cell) : (toCellList s).length = s.card := by
  have h := toCellList_perm s
  have := congrArg Multiset.card h
  simpa using this

/-- `TileState.UNKNOWN` -/
def UNKNOWN : Int := -1

/-- `TileState.FLAGGED` -/
def FLAGGED : Int := -2

/-- The state of `Board` in `core/board.py` (its `__slots__`-level attributes).
`grid` is `_board`, `bombs` is `_bombs`. -/
structure Board where
  rows : Nat
  cols : Nat
  grid : List (List Int)
  bombs : Finset Cell
  revealed_count : Int
  flagged_count : Int
  game_over : Bool
  hit_mine_at : Option Cell
  first_click_zero : Bool
  first_reveal_done : Bool
  total_mines : Option Int
  deferred_generation : Bool
  mines_initialized : Bool
deriving DecidableEq

/-- `Board.__init__(rows, cols, bombs, total_mines, ensure_first_click_zero, rng_seed)`.
The RNG seed is not part of the state here; sampling is passed explicitly. -/
def mkBoard (rows cols : Nat) (bombs : Option (Finset Cell)) (total_mines : Option Int)
    (ensure_first_click_zero : Bool) : Board :=
  let bs := bombs.getD ∅
  let tm : Option Int :=
    if bombs = none ∧ total_mines = none then none
    else if total_mines ≠ none then total_mines
    else some (bs.card : Int)
  let deferred : Bool := bombs = none ∧ 0 < tm.getD 0
  { rows := rows
    cols := cols
    grid := List.replicate rows (List.replicate cols UNKNOWN)
    bombs := bs
    revealed_count := 0
    flagged_count := 0
    game_over := false
    hit_mine_at := none
    first_click_zero := ensure_first_click_zero
    first_reveal_done := false
    total_mines := tm
    deferred_generation := deferred
    mines_initialized := !deferred }

/-- `Board.neighbors`: the up-to-8 in-bounds neighbours, in the Python
iteration order of `di, dj ∈ {-1, 0, 1}`. -/
def Board.neighbors (b : Board) (i j : Nat) : List Cell :=
  (([-1, 0, 1] : List Int).map (fun di =>
    ([-1, 0, 1] : List Int).filterMap (fun dj =>
      if di = 0 ∧ dj = 0 then none
      else
        let ni := (i : Int) + di
        let nj := (j : Int) + dj
        if 0 ≤ ni ∧ ni < (b.rows : Int) ∧ 0 ≤ nj ∧ nj < (b.cols : Int) then
          some (ni.toNat, nj.toNat)
        else none))).flatten

/-- Row-major list of all grid positions (Python `for i in range(rows) for j in range(cols)`). -/
def Board.allCells (b : Board) : List Cell :=
  ((List.range b.rows).map (fun i => (List.range b.cols).map (fun j => (i, j)))).flatten

/-- `Board.get_tile`. -/
def Board.get_tile (b : Board) (i j : Nat) : Int :=
  if i < b.rows ∧ j < b.cols then (b.grid.getD i []).getD j UNKNOWN else UNKNOWN

/-- The assignment `self._board[i][j] = v`. -/
def Board.setTile (b : Board) (i j : Nat) (v : Int) : Board :=
  { b with grid := b.grid.set i ((b.grid.getD i []).set j v) }

/-- `Board.is_revealed`. -/
def Board.is_revealed (b : Board) (i j : Nat) : Bool :=
  0 ≤ b.get_tile i j ∧ b.get_tile i j ≠ FLAGGED

/-- `Board.is_flagged`. -/
def Board.is_flagged (b : Board) (i j : Nat) : Bool :=
  b.get_tile i j = FLAGGED

/-- `Board.is_unknown`. -/
def Board.is_unknown (b : Board) (i j : Nat) : Bool :=
  b.get_tile i j = UNKNOWN

/-- `Board.unknown_cells` (as the row-major list of the Python set). -/
def Board.unknown_cells (b : Board) : List Cell :=
  b.allCells.filter (fun c => b.is_unknown c.1 c.2)

/-- `Board.revealed_cells` (as the row-major list of the Python set). -/
def Board.revealed_cells (b : Board) : List Cell :=
  b.allCells.filter (fun c => b.is_revealed c.1 c.2)

/-- `Board.count_adjacent_mines`. -/
def Board.count_adjacent_mines (b : Board) (i j : Nat) : Nat :=
  (b.neighbors i j).countP (fun c => decide (c ∈ b.bombs))

/-- `Board.remaining_mines`. -/
def Board.remaining_mines (b : Board) : Option Int :=
  b.total_mines.map (fun t => max 0 (t - b.flagged_count))

/-- `Board.is_finished`: note the Python code compares only
`revealed_count + len(bombs)` with the cell count. -/
def Board.is_finished (b : Board) : Bool :=
  b.revealed_count + (b.bombs.card : Int) = (b.rows : Int) * (b.cols : Int)

/-- A model of `random.Random.sample`: a function choosing `k` elements from a list. -/
def Sampler := List Cell → Nat → List Cell

/-- The properties `random.Random.sample(population, k)` guarantees when
`k ≤ len(population)`: `k` results, all drawn from the population (the
results are drawn at distinct positions; only these two facts are used). -/
def ValidSampler (smp : Sampler) : Prop :=
  ∀ l k, k ≤ l.length →
    (smp l k).length = k ∧ ∀ c ∈ smp l k, c ∈ l

/-- A concrete valid sampler: take the first `k` candidates. -/
def takeSampler : Sampler := fun l k => l.take k

theorem takeSampler_valid : ValidSampler takeSampler := by
  intro l k hk
  refine ⟨by simpa [takeSampler] using hk, fun c hc => List.mem_of_mem_take hc⟩

/-- The safe zone used by deferred placement and relocation: the clicked cell,
plus its neighbours when `first_click_zero` is set. -/
def Board.safeZone (b : Board) (start_i start_j : Nat) : Finset Cell :=
  if b.first_click_zero then
    insert (start_i, start_j) (b.neighbors start_i start_j).toFinset
  else {(start_i, start_j)}

/-- `Board._initialize_mines`: lazily place mines, keeping the safe zone free;
relax the zone to the clicked cell if too dense; raise if still infeasible. -/
def Board.initialize_mines (smp : Sampler) (b : Board) (start_i start_j : Nat) :
    Except String Board :=
  if b.mines_initialized then .ok b
  else match b.total_mines with
    | none => .error "total_mines must be provided for deferred generation"
    | some m =>
      let zone0 := b.safeZone start_i start_j
      let cand0 := b.allCells.filter (fun c => decide (c ∉ zone0))
      let cand1 :=
        if (cand0.length : Int) < m then
          b.allCells.filter (fun c => decide (c ∉ ({(start_i, start_j)} : Finset Cell)))
        else cand0
      if (cand1.length : Int) < m then
        .error "Not enough cells to place mines while respecting the first-click guarantee"
      else
        .ok { b with bombs := (smp cand1 m.toNat).toFinset, mines_initialized := true }

/-- `Board._relocate_first_click_bombs`. -/
def Board.relocate_first_click_bombs (smp : Sampler) (b : Board) (start_i start_j : Nat) :
    Bool × Board :=
  let zone0 := b.safeZone start_i start_j
  let inZone0 := b.bombs ∩ zone0
  if inZone0 = ∅ then (true, b)
  else
    let cand0 := b.allCells.filter (fun c => decide (c ∉ b.bombs ∧ c ∉ zone0))
    let (inZone1, cand1) :=
      if cand0.length < inZone0.card then
        let z : Finset Cell := {(start_i, start_j)}
        (b.bombs ∩ z, b.allCells.filter (fun c => decide (c ∉ b.bombs ∧ c ∉ z)))
      else (inZone0, cand0)
    if cand1.length < inZone1.card then (false, b)
    else
      let replacements := smp cand1 inZone1.card
      (true, { b with bombs := (b.bombs \ inZone1) ∪ replacements.toFinset })

/-- The tail of `Board.reveal` once mines are in place: write the sentinel 9
(ending the game) or the adjacent-mine count, bump the revealed counter, and
mark the first reveal done. -/
def Board.revealWrite (b : Board) (i j : Nat) : Bool × Board :=
  if (i, j) ∈ b.bombs then
    let b' := b.setTile i j 9
    (true, { b' with revealed_count := b'.revealed_count + 1, game_over := true,
                     hit_mine_at := some (i, j), first_reveal_done := true })
  else
    let cnt := b.count_adjacent_mines i j
    let b' := b.setTile i j (cnt : Int)
    (true, { b' with revealed_count := b'.revealed_count + 1,
                     first_reveal_done := true })

/-- `Board.reveal`. -/
def Board.reveal (smp : Sampler) (b : Board) (i j : Nat) : Except String (Bool × Board) :=
  if ¬(i < b.rows ∧ j < b.cols) then .ok (false, b)
  else if b.get_tile i j ≠ UNKNOWN then .ok (false, b)
  else do
    let b ← if ¬b.mines_initialized then b.initialize_mines smp i j else pure b
    let first_action := !b.first_reveal_done
    let b :=
      if first_action ∧ b.first_click_zero ∧ (i, j) ∈ b.bombs then
        (b.relocate_first_click_bombs smp i j).2
      else b
    pure (b.revealWrite i j)

/-- `Board.flag`. -/
def Board.flag (b : Board) (i j : Nat) : Bool × Board :=
  if ¬(i < b.rows ∧ j < b.cols) then (false, b)
  else if b.get_tile i j ≠ UNKNOWN then (false, b)
  else (true, { b.setTile i j FLAGGED with flagged_count := b.flagged_count + 1 })

/-- `Board.unflag`. -/
def Board.unflag (b : Board) (i j : Nat) : Bool × Board :=
  if ¬(i < b.rows ∧ j < b.cols) then (false, b)
  else if b.get_tile i j ≠ FLAGGED then (false, b)
  else (true, { b.setTile i j UNKNOWN with flagged_count := b.flagged_count - 1 })

namespace csp

/-- `csp.Constraint`: its constructor clamps `required_mines` into `[0, |U|]`. -/
structure Constraint where
  center : Cell
  unknown_neighbors : Finset Cell
  required_mines : Int
deriving DecidableEq

/-- `Constraint.__init__`, including its clamp of the requirement. -/
def mkConstraint (center : Cell) (required : Int) (unknowns : Finset Cell) : Constraint :=
  { center := center
    unknown_neighbors := unknowns
    required_mines := max 0 (min required (unknowns.card : Int)) }

/-- `CSPEngine.extract_constraints`: one constraint per revealed tile with
value not negative and not 9 that has unknown neighbours (a revealed 0 with
unknown neighbours is *not* skipped by this engine). -/
def extract_constraints (b : Board) : List Constraint :=
  b.revealed_cells.filterMap (fun c =>
    let tile_value := b.get_tile c.1 c.2
    if tile_value < 0 ∨ tile_value = 9 then none
    else
      let nbrs := b.neighbors c.1 c.2
      let flagged : Int := (nbrs.countP (fun n => b.is_flagged n.1 n.2) : Nat)
      let unknowns := (nbrs.filter (fun n => b.is_unknown n.1 n.2)).toFinset
      let required := max 0 (min (tile_value - flagged) (unknowns.card : Int))
      if unknowns ≠ ∅ then some (mkConstraint c required unknowns) else none)

/-- `CSPEngine._subset_implications`. -/
def subset_implications (smaller larger : Constraint) : Finset Cell × Finset Cell :=
  let small_cells := smaller.unknown_neighbors
  let large_cells := larger.unknown_neighbors
  if small_cells = ∅ ∨ large_cells = ∅ ∨ small_cells = large_cells then (∅, ∅)
  else if small_cells ⊆ large_cells then
    let extra_cells := large_cells \ small_cells
    if extra_cells = ∅ then (∅, ∅)
    else
      let required_diff := larger.required_mines - smaller.required_mines
      if required_diff < 0 ∨ (extra_cells.card : Int) < required_diff then (∅, ∅)
      else if required_diff = 0 then (extra_cells, ∅)
      else if required_diff = (extra_cells.card : Int) then (∅, extra_cells)
      else (∅, ∅)
  else (∅, ∅)

/-- `CSPEngine._infer_from_subset_relationships`.  The Python loop visits each
unordered pair of distinct positions and applies `_subset_implications` in both
directions; since a pair with equal cell sets (in particular a pair of one
constraint with itself) contributes nothing by the `small_cells == large_cells`
guard, the union over all ordered pairs is the same set. -/
def infer_from_subset_relationships (constraints : List Constraint) :
    Finset Cell × Finset Cell :=
  let cs := constraints.filter (fun c => c.unknown_neighbors ≠ ∅)
  (cs.flatMap (fun p => cs.map (fun q => subset_implications p q))).foldl
    (fun acc pr => (acc.1 ∪ pr.1, acc.2 ∪ pr.2)) (∅, ∅)

/-- `CSPEngine.infer` (also the module-level `csp.infer`): unit rules plus the
subset rule, then deduplication. -/
def infer (b : Board) : List Cell × List Cell :=
  let constraints := extract_constraints b
  let safe_cells := constraints.flatMap (fun c =>
    if c.unknown_neighbors = ∅ then []
    else if c.required_mines = 0 then toCellList c.unknown_neighbors
    else [])
  let mine_cells := constraints.flatMap (fun c =>
    if c.unknown_neighbors = ∅ then []
    else if c.required_mines = 0 then []
    else if c.required_mines = (c.unknown_neighbors.card : Int) then toCellList c.unknown_neighbors
    else [])
  let sub := infer_from_subset_relationships constraints
  ((safe_cells ++ toCellList sub.1).dedup, (mine_cells ++ toCellList sub.2).dedup)

end csp

namespace sat

/-- `sat.Constraint = Tuple[Set[Tuple[int, int]], int]`. -/
abbrev SConstraint := Finset Cell × Int

def MAX_COMPONENT_SIZE : Nat := 18
def MAX_ENUMERATIONS : Nat := 200000

/-- `sat._extract_constraints`: skips tiles with value `<= 0` (so revealed
zeros never contribute) and the sentinel 9. -/
def extract_constraints (b : Board) : List SConstraint :=
  b.revealed_cells.filterMap (fun c =>
    let tile_value := b.get_tile c.1 c.2
    if tile_value ≤ 0 ∨ tile_value = 9 then none
    else
      let nbrs := b.neighbors c.1 c.2
      let unknown := (nbrs.filter (fun n => b.is_unknown n.1 n.2)).toFinset
      if unknown = ∅ then none
      else
        let flagged : Int := (nbrs.countP (fun n => b.is_flagged n.1 n.2) : Nat)
        some (unknown, max 0 (min (tile_value - flagged) (unknown.card : Int))))

/-- The adjacency of `sat._build_components`: two cells are linked when they
co-occur in some constraint (pairs are only produced by constraints with at
least two cells; `U.erase x` is empty for a singleton constraint). -/
def adjacency (cs : List SConstraint) (x : Cell) : Finset Cell :=
  cs.foldl (fun acc c => if x ∈ c.1 then acc ∪ c.1.erase x else acc) ∅

/-- The keys of the adjacency dict: exactly the cells appearing in some
constraint with at least two cells. -/
def adjKeys (cs : List SConstraint) : List Cell :=
  (cs.flatMap (fun c => if 2 ≤ c.1.card then toCellList c.1 else [])).dedup

/-- The inner `while queue` flood of `sat._build_components`, with explicit
fuel (callers pass enough fuel for the loop to drain its queue; see
`flood_drains`).  Returns the grown visited set and the block. -/
def flood (adj : Cell → Finset Cell) :
    Nat → List Cell → Finset Cell → Finset Cell → Finset Cell × Finset Cell
  | 0, _, visited, block => (visited, block)
  | _ + 1, [], visited, block => (visited, block)
  | fuel + 1, c :: rest, visited, block =>
    if c ∈ visited then flood adj fuel rest visited block
    else
      flood adj fuel (rest ++ (toCellList (adj c)).filter (fun n => decide (n ∉ visited)))
        (insert c visited) (insert c block)

/-- The outer `for cell in adjacency` loop of `sat._build_components`. -/
def buildLoop (adj : Cell → Finset Cell) (fuel : Nat) :
    List Cell → Finset Cell → List (Finset Cell) → List (Finset Cell)
  | [], _, acc => acc
  | k :: rest, visited, acc =>
    if k ∈ visited then buildLoop adj fuel rest visited acc
    else
      let fb := flood adj fuel [k] visited ∅
      buildLoop adj fuel rest fb.1 (acc ++ [fb.2])

/-- All cells appearing in some constraint, deduplicated. -/
def allConstraintCells (cs : List SConstraint) : List Cell :=
  (cs.flatMap (fun c => toCellList c.1)).dedup

/-- `sat._build_components`. -/
def build_components (cs : List SConstraint) : List (Finset Cell) :=
  let n := (allConstraintCells cs).length
  buildLoop (adjacency cs) ((n + 1) * (n + 1)) (adjKeys cs) ∅ []

/-- One counter update pass of the inner `for con_idx in participating` loop of
`_solve_component.dfs`: decrement `unassigned`, and `required` when assigning a
mine; report infeasibility (`required < 0 or required > unassigned`) by `none`.
(The Python code restores the counters after each branch, so the restored lists
are simply the caller's originals.) -/
def updateCounters (v : Bool) :
    List Nat → List Int → List Int → Option (List Int × List Int)
  | [], required, unassigned => some (required, unassigned)
  | ci :: rest, required, unassigned =>
    let required := if v then required.set ci (required.getD ci 0 - 1) else required
    let unassigned := unassigned.set ci (unassigned.getD ci 0 - 1)
    if required.getD ci 0 < 0 ∨ unassigned.getD ci 0 < required.getD ci 0 then none
    else updateCounters v rest required unassigned

/-- Record one complete satisfying assignment into the per-cell value sets
(`cell_values[idx].add(value)`); the pair is `(saw 0, saw 1)`. -/
def recordLeaf (cv : List (Bool × Bool)) (current : List Bool) : List (Bool × Bool) :=
  cv.zipWith (fun p v => if v then (p.1, true) else (true, p.2)) current

/-- The enumeration state threaded through `dfs`:
`(cell_values, assignment_count, abort)`. -/
abbrev EnumState := List (Bool × Bool) × Nat × Bool

/-- `_solve_component.dfs`: try value 0 then 1 for the next cell, prune with
the counters, record at the leaves, abort at the enumeration cap or when every
cell has seen both values.  The counters are arguments (not part of the
returned state) because the Python code restores them after every branch. -/
def dfsEnum (mem : Cell → List Nat) :
    List Cell → List Int → List Int → List Bool → EnumState → EnumState
  | [], _, _, current, st =>
    if st.2.2 then st
    else
      let cv := recordLeaf st.1 current
      let cnt := st.2.1 + 1
      (cv, cnt, decide (MAX_ENUMERATIONS ≤ cnt) || cv.all (fun p => p.1 && p.2))
  | cell :: rest, required, unassigned, current, st =>
    if st.2.2 then st
    else
      let part := mem cell
      let st1 :=
        match updateCounters false part required unassigned with
        | none => st
        | some ru => dfsEnum mem rest ru.1 ru.2 (current ++ [false]) st
      if st1.2.2 then st1
      else
        match updateCounters true part required unassigned with
        | none => st1
        | some ru => dfsEnum mem rest ru.1 ru.2 (current ++ [true]) st1

/-- Stable insertion for a descending sort by key, mirroring Python's stable
`sorted(..., reverse=True)`: an element precedes every strictly smaller key
and every equal key that occurred later. -/
def insertDesc (key : Cell → Nat) (x : Cell) : List Cell → List Cell
  | [] => [x]
  | y :: ys => if key y ≤ key x then x :: y :: ys else y :: insertDesc key x ys

/-- `sorted(cells, key=degree, reverse=True)` (stable). -/
def sortDesc (key : Cell → Nat) (l : List Cell) : List Cell :=
  l.foldr (insertDesc key) []

/-- `sat._solve_component`. -/
def solve_component (component : List Cell) (constraints : List SConstraint) :
    Finset Cell × Finset Cell :=
  if component = [] ∨ MAX_COMPONENT_SIZE < component.length then (∅, ∅)
  else
    let component_set := component.toFinset
    let relevant := constraints.filterMap (fun c =>
      let overlap := c.1 ∩ component_set
      if overlap = ∅ then none else some (overlap, c.2))
    if relevant = [] then (∅, ∅)
    else
      let required := relevant.map (fun c => max 0 (min c.2 (c.1.card : Int)))
      let unassigned := relevant.map (fun c => (c.1.card : Int))
      let mem : Cell → List Nat := fun cell =>
        (List.range relevant.length).filter
          (fun idx => decide (cell ∈ (relevant.getD idx ((∅ : Finset Cell), (0 : Int))).1))
      let ordered_cells := sortDesc (fun cell => (mem cell).length) component
      let res := dfsEnum mem ordered_cells required unassigned []
        (List.replicate ordered_cells.length (false, false), 0, false)
      if res.2.1 = 0 then (∅, ∅)
      else
        ((ordered_cells.zip res.1).foldl
          (fun acc p => if p.2 = (true, false) then insert p.1 acc else acc) ∅,
         (ordered_cells.zip res.1).foldl
          (fun acc p => if p.2 = (false, true) then insert p.1 acc else acc) ∅)

/-- `sat.infer`. -/
def infer (b : Board) : List Cell × List Cell :=
  let constraints := extract_constraints b
  if constraints = [] then ([], [])
  else
    let components := build_components constraints
    let sm := components.foldl (fun acc comp =>
      let r := solve_component (toCellList comp) constraints
      (acc.1 ∪ r.1, acc.2 ∪ r.2)) ((∅ : Finset Cell), (∅ : Finset Cell))
    (toCellList sm.1, toCellList sm.2)

end sat

namespace bfs

/-- The `while queue` loop of `bfs_reveal`, with explicit fuel.  The state is
`(board, queue, visited, revealed_cells)`; `none` means the fuel ran out,
which `bfs_fuel_sufficient` below shows never happens with the fuel passed by
`bfs_reveal`. -/
def loop (smp : Sampler) :
    Nat → Board → List Cell → Finset Cell → List Cell →
    Except String (Option (Board × List Cell))
  | 0, _, _, _, _ => .ok none
  | fuel + 1, b, queue, visited, acc =>
    match queue with
    | [] => .ok (some (b, acc))
    | c :: rest =>
      if b.game_over then .ok (some (b, acc))
      else if c ∈ visited then loop smp fuel b rest visited acc
      else
        let visited := insert c visited
        if ¬b.is_unknown c.1 c.2 then loop smp fuel b rest visited acc
        else do
          let rb ← b.reveal smp c.1 c.2
          if rb.1 then
            let b := rb.2
            if b.game_over then .ok (some (b, acc))
            else
              let acc := acc ++ [c]
              let v := b.get_tile c.1 c.2
              if v = 9 then loop smp fuel b rest visited acc
              else if v = 0 then
                loop smp fuel b
                  (rest ++ (b.neighbors c.1 c.2).filter
                    (fun n => b.is_unknown n.1 n.2 && decide (n ∉ visited)))
                  visited acc
              else loop smp fuel b rest visited acc
          else loop smp fuel rb.2 rest visited acc

/-- `bfs.bfs_reveal`.  (The `if not board.is_revealed` reveal of the start
cell is kept although a tile can only hold 0 once revealed.) -/
def bfs_reveal (smp : Sampler) (b : Board) (start_i start_j : Nat) :
    Except String (Option (Board × List Cell)) :=
  if b.game_over then .ok (some (b, []))
  else if ¬(start_i < b.rows ∧ start_j < b.cols) then .ok (some (b, []))
  else if b.is_flagged start_i start_j then .ok (some (b, []))
  else if b.get_tile start_i start_j ≠ 0 then .ok (some (b, []))
  else do
    let s ←
      if ¬b.is_revealed start_i start_j then do
        let rb ← b.reveal smp start_i start_j
        pure (if rb.1 then (rb.2, [(start_i, start_j)]) else (rb.2, ([] : List Cell)))
      else pure (b, ([] : List Cell))
    let b := s.1
    let visited : Finset Cell := {(start_i, start_j)}
    let queue := (b.neighbors start_i start_j).filter
      (fun n => b.is_unknown n.1 n.2 && decide (n ∉ visited))
    loop smp (9 * b.rows * b.cols + 9) b queue visited s.2

end bfs

namespace dfs

/-- State of the DFS expansion loop: board, visited set, result list, and the
stack (its head is Python's `stack[-1]`, the next cell popped). -/
structure DState where
  b : Board
  visited : Finset Cell
  acc : List Cell
  stack : List Cell

/-- The inner `for ni, nj in board.neighbors(i, j)` loop of `dfs_reveal`:
reveal every unvisited, unflagged, unknown neighbour (appending it to the
result), and push the zeros.  Note that this loop runs to completion even if
one of the reveals hits a mine. -/
def visitNbrs (smp : Sampler) :
    List Cell → Board → Finset Cell → List Cell → List Cell →
    Except String DState
  | [], b, visited, acc, stack => .ok ⟨b, visited, acc, stack⟩
  | n :: rest, b, visited, acc, stack =>
    if n ∈ visited ∨ b.is_flagged n.1 n.2 then visitNbrs smp rest b visited acc stack
    else
      let visited := insert n visited
      if b.is_unknown n.1 n.2 then do
        let rb ← b.reveal smp n.1 n.2
        if rb.1 then
          let b := rb.2
          let stack := if b.get_tile n.1 n.2 = 0 then n :: stack else stack
          visitNbrs smp rest b visited (acc ++ [n]) stack
        else visitNbrs smp rest rb.2 visited acc stack
      else visitNbrs smp rest b visited acc stack

/-- The `while stack and not board.game_over` loop of `dfs_reveal`, with
explicit fuel (`none` = fuel ran out; see `dfs_fuel_sufficient`). -/
def loop (smp : Sampler) : Nat → DState → Except String (Option (Board × List Cell))
  | 0, _ => .ok none
  | fuel + 1, st =>
    match st.stack with
    | [] => .ok (some (st.b, st.acc))
    | c :: rest =>
      if st.b.game_over then .ok (some (st.b, st.acc))
      else do
        let st' ← visitNbrs smp (st.b.neighbors c.1 c.2) st.b st.visited st.acc rest
        loop smp fuel st'

/-- `dfs.dfs_reveal`. -/
def dfs_reveal (smp : Sampler) (b : Board) (start_i start_j : Nat) :
    Except String (Option (Board × List Cell)) :=
  if b.game_over then .ok (some (b, []))
  else if ¬(start_i < b.rows ∧ start_j < b.cols) then .ok (some (b, []))
  else if b.is_flagged start_i start_j then .ok (some (b, []))
  else if b.get_tile start_i start_j ≠ 0 then .ok (some (b, []))
  else do
    let s ←
      if ¬b.is_revealed start_i start_j then do
        let rb ← b.reveal smp start_i start_j
        pure (if rb.1 then (rb.2, [(start_i, start_j)]) else (rb.2, ([] : List Cell)))
      else pure (b, ([] : List Cell))
    loop smp (s.1.rows * s.1.cols + 2)
      ⟨s.1, {(start_i, start_j)}, s.2, [(start_i, start_j)]⟩

end dfs

/-- Exact fractions with a positive denominator, modelling the probability
floats (every float the probability layers build is a small exact ratio; the
embedding keeps the ratio unreduced and compares by cross-multiplication,
which the kernel can evaluate). -/
structure Frac where
  num : Int
  den : Int
deriving DecidableEq

/-- Division of two fractions (the divisors below are always positive). -/
def Frac.div (a b : Frac) : Frac := ⟨a.num * b.den, a.den * b.num⟩

def Frac.add (a b : Frac) : Frac := ⟨a.num * b.den + b.num * a.den, a.den * b.den⟩

def Frac.sub (a b : Frac) : Frac := ⟨a.num * b.den - b.num * a.den, a.den * b.den⟩

def Frac.mul (a b : Frac) : Frac := ⟨a.num * b.num, a.den * b.den⟩

def Frac.ofInt (n : Int) : Frac := ⟨n, 1⟩

/-- `a < b` by cross-multiplication (correct whenever denominators are
positive, which holds for every fraction the code builds). -/
def Frac.ltb (a b : Frac) : Bool := a.num * b.den < b.num * a.den

def Frac.leb (a b : Frac) : Bool := a.num * b.den ≤ b.num * a.den

def Frac.eqb (a b : Frac) : Bool := a.num * b.den = b.num * a.den

def Frac.abs (a : Frac) : Frac := ⟨|a.num|, a.den⟩

def Frac.minF (a b : Frac) : Frac := if Frac.leb a b then a else b

/-- Dict lookup (`m.get(c)` / `c in m`). -/
def dget (m : List (Cell × Frac)) (c : Cell) : Option Frac :=
  (m.find? (fun p => p.1 = c)).map (·.2)

/-- Dict assignment: replace in place, or append a new key (Python dicts keep
insertion order). -/
def dset (c : Cell) (v : Frac) : List (Cell × Frac) → List (Cell × Frac)
  | [] => [(c, v)]
  | p :: rest => if p.1 = c then (c, v) :: rest else p :: dset c v rest

/-- Same for the integer-valued dicts. -/
def ndget (m : List (Cell × Nat)) (c : Cell) : Nat :=
  ((m.find? (fun p => p.1 = c)).map (·.2)).getD 0

def ndset (c : Cell) (v : Nat) : List (Cell × Nat) → List (Cell × Nat)
  | [] => [(c, v)]
  | p :: rest => if p.1 = c then (c, v) :: rest else p :: ndset c v rest

/-- Python `min` over a non-empty list of fraction values. -/
def listMin (x : Frac) (l : List Frac) : Frac := l.foldl Frac.minF x

/-- Python `min(l, key=f)`: the first element attaining the minimal key. -/
def argminBy (f : Cell → Frac) : List Cell → Option Cell
  | [] => none
  | x :: rest => some (rest.foldl (fun best c => if Frac.ltb (f c) (f best) then c else best) x)

namespace probability

/-- One iteration of the `for i, j in board.revealed_cells()` loop of
`compute_local_probabilities`; the state is the pair of dicts
`(probabilities, constraint_counts)`.  Probabilities are embedded as exact
rationals (each Python float here is a small ratio of machine integers). -/
def localStep (b : Board) (st : List (Cell × Frac) × List (Cell × Nat)) (c : Cell) :
    List (Cell × Frac) × List (Cell × Nat) :=
  let tile_value := b.get_tile c.1 c.2
  if tile_value < 0 then st
  else
    let nbrs := b.neighbors c.1 c.2
    let flagged : Int := (nbrs.countP (fun n => b.is_flagged n.1 n.2) : Nat)
    let unknowns := nbrs.filter (fun n => b.is_unknown n.1 n.2)
    if unknowns = [] then st
    else
      let remaining := tile_value - flagged
      if remaining = 0 then
        unknowns.foldl (fun st u =>
          (dset u (Frac.ofInt 0) st.1, ndset u (ndget st.2 u + 1) st.2)) st
      else if remaining = (unknowns.length : Int) then
        unknowns.foldl (fun st u =>
          (dset u (Frac.ofInt 1) st.1, ndset u (ndget st.2 u + 1) st.2)) st
      else
        let local_prob : Frac := ⟨remaining, (unknowns.length : Int)⟩
        unknowns.foldl (fun st u =>
          match dget st.1 u with
          | some old_prob =>
            let old_count := ndget st.2 u
            (dset u (Frac.div
                (Frac.add (Frac.mul old_prob (Frac.ofInt old_count)) local_prob)
                (Frac.ofInt (old_count + 1))) st.1,
             ndset u (old_count + 1) st.2)
          | none => (dset u local_prob st.1, ndset u 1 st.2)) st

/-- `probability.compute_local_probabilities` (note: unlike the CSP/SAT
extractors, this pass does not skip the sentinel value 9). -/
def compute_local_probabilities (b : Board) : List (Cell × Frac) :=
  (b.revealed_cells.foldl (localStep b) ([], [])).1

/-- `probability.compute_global_probability`.  Python computes the heuristic
prior via `int(total_cells * 0.15)`; the embedding uses the exact value
`3 * total_cells / 20` rounded down (the float truncation can differ by one
on some sizes; no claim below depends on this branch's exact value). -/
def compute_global_probability (b : Board) : Frac :=
  let unknown := b.unknown_cells
  if unknown = [] then Frac.ofInt 0
  else
    let unknown_count := unknown.length
    match b.remaining_mines with
    | some rm =>
      if 0 < unknown_count then Frac.minF (Frac.ofInt 1) ⟨rm, (unknown_count : Int)⟩
      else Frac.ofInt 0
    | none =>
      let total_cells := b.rows * b.cols
      let estimated_total_mines : Int := (3 * total_cells) / 20
      let est_remaining : Int := max 0 (estimated_total_mines - b.flagged_count)
      if 0 < unknown_count then
        Frac.minF (Frac.ofInt 1) ⟨est_remaining, (unknown_count : Int)⟩
      else Frac.ofInt 0

/-- `probability.compute_all_probabilities`: local value when present, global
fallback otherwise, one entry per unknown cell. -/
def compute_all_probabilities (b : Board) : List (Cell × Frac) :=
  let local_probs := compute_local_probabilities b
  let global_prob := compute_global_probability b
  b.unknown_cells.foldl (fun m cell =>
    match dget local_probs cell with
    | some p => dset cell p m
    | none => dset cell global_prob m) []

/-- `probability.choose_cell`.  The distance tie-break compares exact squared
distances to the centre; Python compares their float square roots, which
orders the same way. -/
def choose_cell (b : Board) : Option Cell :=
  let unknown := b.unknown_cells
  if unknown = [] then none
  else
    let probabilities := compute_all_probabilities b
    match probabilities with
    | [] => unknown.head?
    | p0 :: prest =>
      let min_prob := listMin p0.2 (prest.map (·.2))
      let safest_cells := (probabilities.filter (fun p => Frac.eqb p.2 min_prob)).map (·.1)
      match safest_cells with
      | [c] => some c
      | _ =>
        let center_row : Frac := ⟨(b.rows : Int), 2⟩
        let center_col : Frac := ⟨(b.cols : Int), 2⟩
        argminBy (fun c =>
          let dr := Frac.sub (Frac.ofInt (c.1 : Int)) center_row
          let dc := Frac.sub (Frac.ofInt (c.2 : Int)) center_col
          Frac.add (Frac.mul dr dr) (Frac.mul dc dc)) safest_cells

end probability

namespace montecarlo

/-- The sampler's `random.Random(seed)`.  `choose_cell` constructs it with
`seed=None`, i.e. from fresh OS entropy on every call; the embedding makes
that entropy an explicit input: `rand k` is the `k`-th value drawn by
`rng.random()` (the ordering jitter) and `shuf k` tells whether the `k`-th
`rng.shuffle([0, 1])` yields `[1, 0]`. -/
structure Rng where
  rand : Nat → Frac
  shuf : Nat → Bool

/-- Stable ascending insertion by the `(-degree, jitter)` key: cells ordered
by descending degree, ties by ascending jitter, remaining ties by original
position (Python's `sorted` is stable). -/
def insertKey (x : Cell × Nat × Frac) : List (Cell × Nat × Frac) → List (Cell × Nat × Frac)
  | [] => [x]
  | y :: ys =>
    if y.2.1 < x.2.1 ∨ (x.2.1 = y.2.1 ∧ Frac.leb x.2.2 y.2.2) then x :: y :: ys
    else y :: insertKey x ys

/-- `sorted(cells, key=lambda cell: (-len(membership), rng.random()))`: one
jitter draw per cell, in list order, then a stable sort. -/
def orderCells (deg : Cell → Nat) (rng : Rng) (rcnt : Nat) (cells : List Cell) :
    List Cell × Nat :=
  let tagged := cells.enum.map (fun p => (p.2, deg p.2, rng.rand (rcnt + p.1)))
  ((tagged.foldr insertKey []).map (·.1), rcnt + cells.length)

/-- The `assign` backtracking of `montecarlo._random_assignment`: pick the two
values in the shuffled order, prune with the same counters as the SAT search
(`sat.updateCounters` embeds the identical update-and-check sequence), stop at
the first full assignment.  Returns the assignment (in cell order) when one is
found, and the advanced shuffle counter. -/
def assign (mem : Cell → List Nat) (rng : Rng) :
    List Cell → List Int → List Int → Nat → Option (List (Cell × Bool)) × Nat
  | [], required, _, scnt =>
    (if required.all (· = 0) then some [] else none, scnt)
  | cell :: rest, required, unassigned, scnt =>
    let part := mem cell
    let v1 := rng.shuf scnt
    let scnt := scnt + 1
    let try1 :=
      match sat.updateCounters v1 part required unassigned with
      | none => (none, scnt)
      | some ru => assign mem rng rest ru.1 ru.2 scnt
    match try1 with
    | (some a, s') => (some ((cell, v1) :: a), s')
    | (none, s') =>
      match sat.updateCounters (!v1) part required unassigned with
      | none => (none, s')
      | some ru =>
        match assign mem rng rest ru.1 ru.2 s' with
        | (some a, s'') => (some ((cell, !v1) :: a), s'')
        | (none, s'') => (none, s'')

/-- `montecarlo._random_assignment` (the required counters are *not* clamped
here, unlike the SAT engine's).  Returns the jitter/shuffle counters advanced
past the draws it consumed. -/
def random_assignment (cells : List Cell) (constraints : List sat.SConstraint)
    (rng : Rng) (rcnt scnt : Nat) : Option (List (Cell × Bool)) × Nat × Nat :=
  if cells = [] then (some [], rcnt, scnt)
  else
    let required := constraints.map (·.2)
    let unassigned := constraints.map (fun c => (c.1.card : Int))
    let mem : Cell → List Nat := fun cell =>
      (List.range constraints.length).filter
        (fun idx => decide (cell ∈ (constraints.getD idx ((∅ : Finset Cell), (0 : Int))).1))
    let oc := orderCells (fun cell => (mem cell).length) rng rcnt cells
    let r := assign mem rng oc.1 required unassigned scnt
    (r.1, oc.2, r.2)

/-- The `while successes < samples and attempts < samples * 5` loop of
`montecarlo._sample_component`; the fuel is the remaining attempt budget. -/
def sampleLoop (cells : List Cell) (constraints : List sat.SConstraint) (rng : Rng)
    (samples : Nat) :
    Nat → Nat → List (Cell × Nat) → Nat → Nat → Nat × List (Cell × Nat) × Nat × Nat
  | 0, successes, counts, rcnt, scnt => (successes, counts, rcnt, scnt)
  | fuel + 1, successes, counts, rcnt, scnt =>
    if samples ≤ successes then (successes, counts, rcnt, scnt)
    else
      match random_assignment cells constraints rng rcnt scnt with
      | (none, rcnt', scnt') => sampleLoop cells constraints rng samples fuel successes counts rcnt' scnt'
      | (some a, rcnt', scnt') =>
        let counts := a.foldl (fun m p =>
          if p.2 then ndset p.1 (ndget m p.1 + 1) m else m) counts
        sampleLoop cells constraints rng samples fuel (successes + 1) counts rcnt' scnt'

/-- `montecarlo._sample_component`. -/
def sample_component (component : List Cell) (constraints : List sat.SConstraint)
    (samples : Nat) (rng : Rng) (rcnt scnt : Nat) :
    List (Cell × Frac) × Nat × Nat :=
  if component = [] ∨ constraints = [] then ([], rcnt, scnt)
  else
    let counts0 := component.map (fun c => (c, 0))
    let r := sampleLoop component constraints rng samples (samples * 5) 0 counts0 rcnt scnt
    if r.1 = 0 then ([], r.2.2)
    else
      (component.map (fun c => (c, (⟨(ndget r.2.1 c : Int), (r.1 : Int)⟩ : Frac))), r.2.2)

/-- `montecarlo._build_components`' inner flood (a stack instead of the SAT
module's queue; the resulting blocks are the same connected blocks). -/
def flood (adj : Cell → Finset Cell) :
    Nat → List Cell → Finset Cell → Finset Cell → Finset Cell × Finset Cell
  | 0, _, visited, block => (visited, block)
  | _ + 1, [], visited, block => (visited, block)
  | fuel + 1, c :: rest, visited, block =>
    if c ∈ visited then flood adj fuel rest visited block
    else
      flood adj fuel
        (((toCellList (adj c)).filter (fun n => decide (n ∉ visited))).reverse ++ rest)
        (insert c visited) (insert c block)

/-- `montecarlo._build_components`. -/
def build_components (cs : List sat.SConstraint) : List (Finset Cell) :=
  let n := (sat.allConstraintCells cs).length
  let adj := sat.adjacency cs
  let rec go : List Cell → Finset Cell → List (Finset Cell) → List (Finset Cell)
    | [], _, acc => acc
    | k :: rest, visited, acc =>
      if k ∈ visited then go rest visited acc
      else
        let fb := flood adj ((n + 1) * (n + 1)) [k] visited ∅
        go rest fb.1 (acc ++ [fb.2])
  go (sat.adjKeys cs) ∅ []

/-- `montecarlo._constraints_for_component`. -/
def constraints_for_component (component : Finset Cell)
    (constraints : List sat.SConstraint) : List sat.SConstraint :=
  constraints.filterMap (fun c =>
    let overlap := c.1 ∩ component
    if overlap = ∅ then none else some (overlap, c.2))

/-- `montecarlo._extract_constraints` is byte-for-byte the SAT extractor. -/
def extract_constraints (b : Board) : List sat.SConstraint :=
  sat.extract_constraints b

/-- `montecarlo.compute_probabilities` with the default `samples=256`,
`max_component=18`; the RNG counters thread through the whole pass.  Python's
`int(samples * scale)` truncates `samples * 18 / size`. -/
def compute_probabilities (b : Board) (samples : Nat) (max_component : Nat)
    (rng : Rng) : List (Cell × Frac) :=
  let constraints := extract_constraints b
  let components := build_components constraints
  (components.foldl (fun st comp =>
    let size := comp.card
    if size = 0 then st
    else
      let relevant := constraints_for_component comp constraints
      if relevant = [] then st
      else
        let component_samples :=
          if max_component < size then max 32 ((samples * max_component) / size)
          else samples
        let r := sample_component (toCellList comp) relevant component_samples rng
          st.2.1 st.2.2
        (r.1.foldl (fun m p => dset p.1 p.2 m) st.1, r.2.1, r.2.2))
    (([] : List (Cell × Frac)), 0, 0)).1

/-- `montecarlo.choose_cell`: called by the strategy with a *fresh* RNG
(`compute_probabilities(board)` leaves `seed=None`), so the entropy is an
argument here.  `abs` is exact on rationals; tied candidates are compared as
tuples, i.e. lexicographically. -/
def choose_cell (b : Board) (rng : Rng) : Option Cell :=
  let probabilities := compute_probabilities b 256 18 rng
  match probabilities with
  | [] => none
  | p0 :: prest =>
    let min_prob := listMin p0.2 (prest.map (·.2))
    let candidates := (probabilities.filter
      (fun p => Frac.ltb (Frac.abs (Frac.sub p.2 min_prob)) ⟨1, 1000000⟩)).map (·.1)
    match candidates with
    | [] => none
    | c0 :: crest => some (crest.foldl (fun best c =>
        if c.1 < best.1 ∨ (c.1 = best.1 ∧ c.2 < best.2) then c else best) c0)

end montecarlo

/-- `strategy.SolverConfig`. -/
structure SolverConfig where
  use_csp : Bool := true
  use_sat : Bool := true
  use_probability : Bool := true
  use_monte_carlo : Bool := true
  expansion : String := "bfs"
deriving DecidableEq

/-- `strategy.step`.  The Monte-Carlo entropy (drawn from `seed=None` inside
`montecarlo.choose_cell` on every call) is the explicit `rng` argument; no
other part of `step` consumes randomness. -/
def step (b : Board) (config : SolverConfig) (rng : montecarlo.Rng) :
    String × List Cell :=
  if b.game_over then ("game_over", [])
  else
    let sm := if config.use_csp then csp.infer b else ([], [])
    if sm.1 ≠ [] then ("reveal_safe", sm.1)
    else if sm.2 ≠ [] then ("flag_mines", sm.2)
    else
      let satd :=
        if config.use_sat then
          let r := sat.infer b
          if r.1 ≠ [] then some ("reveal_safe", r.1)
          else if r.2 ≠ [] then some ("flag_mines", r.2)
          else none
        else none
      match satd with
      | some r => r
      | none =>
        let mcd :=
          if config.use_monte_carlo then
            match montecarlo.choose_cell b rng with
            | some c => some ("guess", [c])
            | none => none
          else none
        match mcd with
        | some r => r
        | none =>
          let cell := if config.use_probability then probability.choose_cell b else none
          match cell with
          | some c => ("guess", [c])
          | none =>
            match b.unknown_cells with
            | u :: _ => ("guess", [u])
            | [] => ("none", [])

/-! ## Reachability, well-formedness, and the concrete boards analysed below -/

/-- A Python `Board` always satisfies this: the tile array has `rows` rows of
`cols` entries each.  (The Lean `Board` type is wider; reachability below
keeps this invariant.) -/
def WF (b : Board) : Prop :=
  b.grid.length = b.rows ∧ ∀ r ∈ b.grid, r.length = b.cols

/-- Board states reachable through the public mutators, starting from a
freshly constructed board. -/
inductive Reachable : Board → Prop
  | init (rows cols bombs total ensure) :
      Reachable (mkBoard rows cols bombs total ensure)
  | reveal {b : Board} {smp : Sampler} {i j : Nat} {r : Bool} {b' : Board}
      (hb : Reachable b) (hs : ValidSampler smp)
      (h : b.reveal smp i j = .ok (r, b')) : Reachable b'
  | flag {b : Board} (i j : Nat) (hb : Reachable b) : Reachable (b.flag i j).2
  | unflag {b : Board} (i j : Nat) (hb : Reachable b) : Reachable (b.unflag i j).2

/-- Reveal through `takeSampler`, keeping the board on error (used only to
build concrete boards; the reveals below all succeed). -/
def revealB (b : Board) (i j : Nat) : Board :=
  match b.reveal takeSampler i j with
  | .ok p => p.2
  | .error _ => b

/-- Apply `flag` (used to build concrete boards). -/
def flagB (b : Board) (i j : Nat) : Board := (b.flag i j).2

/-- The list of newly revealed cells of an expansion run (`none` when the run
errored or ran out of fuel; never the case below). -/
def cellsOf (e : Except String (Option (Board × List Cell))) : Option (List Cell) :=
  match e with
  | .ok (some p) => some p.2
  | _ => none

/-- The board an expansion run returns. -/
def boardOf (e : Except String (Option (Board × List Cell))) : Option Board :=
  match e with
  | .ok (some p) => some p.1
  | _ => none

/-- 1×3 board, no mines, `(0,1)` revealed showing 0: a revealed zero with two
unknown neighbours. -/
def bC1 : Board := revealB (mkBoard 1 3 (some ∅) none true) 0 1

/-- 1×3 board with a mine at `(0,2)`: reveal `(0,0)` (a 0), then reveal the
mine.  `game_over` holds and `revealed_count + |mines| = 3 = rows*cols`. -/
def bC2 : Board := revealB (revealB (mkBoard 1 3 (some {(0, 2)}) none true) 0 0) 0 2

/-- A freshly constructed 1×1 board with one mine. -/
def bC3 : Board := mkBoard 1 1 (some {(0, 0)}) none true

/-- 1×3 board with a mine at `(0,0)`, `(0,1)` revealed showing 1: CSP and SAT
derive nothing, so `step` falls through to the Monte-Carlo sampler. -/
def bC4 : Board := revealB (mkBoard 1 3 (some {(0, 0)}) none true) 0 1

/-- Entropy stream whose shuffles always try value 0 first. -/
def rngZero : montecarlo.Rng := ⟨fun _ => ⟨0, 1⟩, fun _ => false⟩

/-- Entropy stream whose shuffles always try value 1 first. -/
def rngOne : montecarlo.Rng := ⟨fun _ => ⟨0, 1⟩, fun _ => true⟩

/-- The default configuration (every engine enabled). -/
def cfgFull : SolverConfig := {}

/-- The default configuration with the Monte-Carlo sampler disabled. -/
def cfgNoMC : SolverConfig := { use_monte_carlo := false }

/-- The state `Board.load_from_file` produces for the 1×4 file `0*..`: tile
`(0,0)` holds a revealed 0 (written directly, without recomputation from the
mines), the mine set is `{(0,1)}`, `revealed_count` is 1, and no reveal has
happened yet. -/
def bC5loaded : Board :=
  { rows := 1, cols := 4, grid := [[0, -1, -1, -1]], bombs := {(0, 1)},
    revealed_count := 1, flagged_count := 0, game_over := false, hit_mine_at := none,
    first_click_zero := true, first_reveal_done := true, total_mines := some 1,
    deferred_generation := false, mines_initialized := true }

/-- `bC5loaded` after revealing `(0,3)` (a 0 away from the mine): expanding
from `(0,0)` now steps onto the mine at `(0,1)`. -/
def bC5 : Board := revealB bC5loaded 0 3

/-- The board of the BFS expansion run on `bC5` from `(0,0)`. -/
def bC5bfsB : Board :=
  match bfs.bfs_reveal takeSampler bC5 0 0 with
  | .ok (some p) => p.1
  | _ => bC5

/-- The cell list of the BFS expansion run on `bC5` from `(0,0)`. -/
def bC5bfsL : List Cell :=
  match bfs.bfs_reveal takeSampler bC5 0 0 with
  | .ok (some p) => p.2
  | _ => []

/-- The board of the DFS expansion run on `bC5` from `(0,0)`. -/
def bC5dfsB : Board :=
  match dfs.dfs_reveal takeSampler bC5 0 0 with
  | .ok (some p) => p.1
  | _ => bC5

/-- The cell list of the DFS expansion run on `bC5` from `(0,0)`. -/
def bC5dfsL : List Cell :=
  match dfs.dfs_reveal takeSampler bC5 0 0 with
  | .ok (some p) => p.2
  | _ => []

/-- 1×3 board with a mine at `(0,2)`; `(0,0)` shows 0, `(0,1)` shows 1.  The
lone constraint `({(0,2)}, 1)` has a single cell, so SAT builds no component
while CSP flags the mine. -/
def bC6 : Board := revealB (revealB (mkBoard 1 3 (some {(0, 2)}) none true) 0 0) 0 1

/-- 1×3 board with a mine at `(0,0)`, `(0,1)` revealed showing 1 (the same
state as `bC4`): both engines run and certify nothing; used to witness the
amended C6 containment. -/
def bC6w : Board := revealB (mkBoard 1 3 (some {(0, 0)}) none true) 0 1

/-- A 4×4 board with two mines and a deferred first reveal at `(0,0)`. -/
def c7run : Except String (Bool × Board) :=
  (mkBoard 4 4 none (some 2) true).reveal takeSampler 0 0

def c7pair : Bool × Board :=
  match c7run with
  | .ok p => p
  | .error _ => (false, mkBoard 0 0 none none true)

/-- 3×3 board with a mine at `(2,2)`: reveal `(2,1), (0,0), (1,1), (1,2),
(2,0)`, then the mine.  In the resulting game-over state the CSP engine lists
`(1,0)` both as safe (from the revealed 0 at `(2,0)`) and as a mine (from the
1 at `(2,1)` whose only unknown neighbour is `(1,0)`). -/
def bC8 : Board :=
  revealB (revealB (revealB (revealB (revealB (revealB
    (mkBoard 3 3 (some {(2, 2)}) none true) 2 1) 0 0) 1 1) 1 2) 2 0) 2 2

/-- 2×2 board with a mine at `(1,1)`: reveal `(0,0)` (shows 1) and flag the
mine; SAT certifies the two remaining cells safe. -/
def bC8w : Board := flagB (revealB (mkBoard 2 2 (some {(1, 1)}) none true) 0 0) 1 1

/-- 2×2 board asking for 5 deferred mines: placement is infeasible even with
the relaxed safe zone. -/
def bC9 : Board := mkBoard 2 2 none (some 5) true

/-- The 4×4 board of spec scenario D after revealing the zero at `(1,1)`. -/
def bC10 : Board := revealB (mkBoard 4 4 (some {(0, 3), (3, 0)}) none true) 1 1

/-- The board of the BFS expansion run on `bC10` from `(1,1)`. -/
def bC10bfsB : Board :=
  match bfs.bfs_reveal takeSampler bC10 1 1 with
  | .ok (some p) => p.1
  | _ => bC10

/-- The cell list of the BFS expansion run on `bC10` from `(1,1)`. -/
def bC10bfsL : List Cell :=
  match bfs.bfs_reveal takeSampler bC10 1 1 with
  | .ok (some p) => p.2
  | _ => []

/-- The board of the DFS expansion run on `bC10` from `(1,1)`. -/
def bC10dfsB : Board :=
  match dfs.dfs_reveal takeSampler bC10 1 1 with
  | .ok (some p) => p.1
  | _ => bC10

/-- The cell list of the DFS expansion run on `bC10` from `(1,1)`. -/
def bC10dfsL : List Cell :=
  match dfs.dfs_reveal takeSampler bC10 1 1 with
  | .ok (some p) => p.2
  | _ => []

/-! Semantic layer for the constraint engines: assignments of mine values to
cells, and the counting predicates the SAT enumeration maintains. -/

/-- Number of mines an assignment places inside a cell set. -/
def mineCount (f : Cell → Bool) (U : Finset Cell) : Int :=
  ((U.filter (fun c => f c = true)).card : Int)

/-- Number of mines among an assigned prefix (a list of cell/value pairs)
that lie in `U`. -/
def minesIn (proc : List (Cell × Bool)) (U : Finset Cell) : Int :=
  ((proc.filter (fun p => p.2 && decide (p.1 ∈ U))).length : Int)

/-- Number of assigned cells of a prefix that lie in `U`. -/
def assignedIn (proc : List (Cell × Bool)) (U : Finset Cell) : Int :=
  ((proc.filter (fun p => decide (p.1 ∈ U))).length : Int)

/-- The value a positional assignment gives a cell. -/
def valAt : List Cell → List Bool → Cell → Bool
  | c :: cs, v :: vs, x => if x = c then v else valAt cs vs x
  | _, _, _ => false

/-- An assigned prefix satisfies a constraint list exactly. -/
def SatL (rel : List sat.SConstraint) (proc : List (Cell × Bool)) : Prop :=
  ∀ k, k < rel.length →
    minesIn proc (rel.getD k ((∅ : Finset Cell), (0 : Int))).1
      = (rel.getD k ((∅ : Finset Cell), (0 : Int))).2

/-- The counter lists of `_solve_component.dfs` agree with the assigned
prefix: `required` holds the still-needed mines, `unassigned` the number of
still-unassigned cells, per constraint. -/
def CtrOK (rel : List sat.SConstraint) (proc : List (Cell × Bool))
    (req unas : List Int) : Prop :=
  req.length = rel.length ∧ unas.length = rel.length ∧
  ∀ k, k < rel.length →
    req.getD k 0 = (rel.getD k ((∅ : Finset Cell), (0 : Int))).2
      - minesIn proc (rel.getD k ((∅ : Finset Cell), (0 : Int))).1 ∧
    unas.getD k 0 = (((rel.getD k ((∅ : Finset Cell), (0 : Int))).1.card : Int))
      - assignedIn proc (rel.getD k ((∅ : Finset Cell), (0 : Int))).1

/-- Every fully-assigned constraint has its requirement pinned to zero (the
feasibility check of the enumeration enforces it). -/
def PIN (rel : List sat.SConstraint) (req unas : List Int) : Prop :=
  ∀ k, k < rel.length → unas.getD k 0 ≤ 0 → req.getD k 0 = 0

/-- An enumeration state is honest: an abort implies a recorded assignment. -/
def GoodE (st : sat.EnumState) : Prop := st.2.2 = true → 1 ≤ st.2.1

/-- Every seen value in `cell_values` is realised by a full assignment that
satisfies every constraint. -/
def SeenOK (rel : List sat.SConstraint) (ordered : List Cell)
    (cv : List (Bool × Bool)) : Prop :=
  ∀ idx, idx < ordered.length →
    ((cv.getD idx (false, false)).1 = true → ∃ vals : List Bool,
      vals.length = ordered.length ∧ SatL rel (ordered.zip vals) ∧
      vals.getD idx true = false) ∧
    ((cv.getD idx (false, false)).2 = true → ∃ vals : List Bool,
      vals.length = ordered.length ∧ SatL rel (ordered.zip vals) ∧
      vals.getD idx false = true)

/-- A record list has seen at least one value everywhere (implied by one
recorded assignment). -/
def AllSeen (ordered : List Cell) (st : sat.EnumState) : Prop :=
  1 ≤ st.2.1 → ∀ idx, idx < ordered.length →
    ((st.1.getD idx (false, false)).1 = true ∨
     (st.1.getD idx (false, false)).2 = true)

theorem wf_mkBoard (rows cols bombs total ensure) :
    WF (mkBoard rows cols bombs total ensure) := by
  constructor
  · simp [mkBoard]
  · intro r hr
    simp only [mkBoard, List.mem_replicate] at hr
    rw [hr.2]
    simp [mkBoard]

theorem setTile_fields (b : Board) (i j : Nat) (v : Int) :
    (b.setTile i j v).rows = b.rows ∧ (b.setTile i j v).cols = b.cols ∧
    (b.setTile i j v).bombs = b.bombs ∧
    (b.setTile i j v).revealed_count = b.revealed_count ∧
    (b.setTile i j v).flagged_count = b.flagged_count ∧
    (b.setTile i j v).game_over = b.game_over := by
  simp [Board.setTile]

theorem wf_setTile {b : Board} (hwf : WF b) (i j : Nat) (v : Int) :
    WF (b.setTile i j v) := by
  obtain ⟨h1, h2⟩ := hwf
  constructor
  · simp [Board.setTile, h1]
  · intro r hr
    simp only [Board.setTile] at hr
    rcases Nat.lt_or_ge i b.grid.length with hi | hi
    · rcases List.mem_or_eq_of_mem_set hr with h | h
      · exact h2 r h
      · subst h
        have hgetD : b.grid.getD i [] = b.grid[i] := by
          rw [List.getD_eq_getElem?_getD, List.getElem?_eq_getElem hi]
          rfl
        rw [hgetD, List.length_set]
        exact h2 _ (List.getElem_mem hi)
    · rw [List.set_eq_of_length_le hi] at hr
      exact h2 r hr

/-- Value read at a different position after a tile write (holds for any
grid, well-formed or not). -/
theorem getD2_set_ne (g : List (List Int)) {i j i' j' : Nat} (v : Int)
    (h : ¬(i' = i ∧ j' = j)) :
    ((g.set i ((g.getD i []).set j v)).getD i' []).getD j' UNKNOWN
      = (g.getD i' []).getD j' UNKNOWN := by
  by_cases hi : i' = i
  · subst hi
    have hj : j' ≠ j := fun hj => h ⟨rfl, hj⟩
    have key : (g.set i' ((g.getD i' []).set j v)).getD i' []
        = (g.getD i' []).set j v := by
      rw [List.getD_eq_getElem?_getD, List.getElem?_set_self']
      cases hgi : g[i']? with
      | none =>
        rw [List.getD_eq_getElem?_getD g, hgi]
        rfl
      | some row =>
        rw [List.getD_eq_getElem?_getD g, hgi]
        rfl
    rw [key, List.getD_eq_getElem?_getD, List.getElem?_set_ne (Ne.symm hj),
      ← List.getD_eq_getElem?_getD]
  · rw [List.getD_eq_getElem?_getD (g.set i _),
      List.getElem?_set_ne (fun he => hi he.symm), ← List.getD_eq_getElem?_getD]

theorem get_tile_setTile_ne (b : Board) {i j i' j' : Nat} (v : Int)
    (h : ¬(i' = i ∧ j' = j)) :
    (b.setTile i j v).get_tile i' j' = b.get_tile i' j' := by
  unfold Board.get_tile Board.setTile
  simp only
  by_cases hb : i' < b.rows ∧ j' < b.cols
  · rw [if_pos hb, if_pos hb]
    exact getD2_set_ne b.grid v h
  · rw [if_neg hb, if_neg hb]

theorem get_tile_mkBoard (rows cols bombs total ensure) (i j : Nat) :
    (mkBoard rows cols bombs total ensure).get_tile i j = UNKNOWN := by
  unfold Board.get_tile
  split
  · next h =>
    simp only [mkBoard] at h
    have h1 : (mkBoard rows cols bombs total ensure).grid.getD i []
        = List.replicate cols UNKNOWN := by
      show (List.replicate rows (List.replicate cols UNKNOWN)).getD i [] = _
      rw [List.getD_eq_getElem?_getD, List.getElem?_replicate, if_pos h.1]
      rfl
    rw [h1, List.getD_eq_getElem?_getD, List.getElem?_replicate, if_pos h.2]
    rfl
  · rfl

theorem get_tile_setTile_self {b : Board} (hwf : WF b) {i j : Nat} (v : Int)
    (hi : i < b.rows) (hj : j < b.cols) :
    (b.setTile i j v).get_tile i j = v := by
  unfold Board.get_tile Board.setTile
  simp only
  rw [if_pos ⟨hi, hj⟩]
  have hil : i < b.grid.length := hwf.1 ▸ hi
  have hrow : (b.grid.getD i []).length = b.cols := by
    rw [List.getD_eq_getElem?_getD, List.getElem?_eq_getElem hil]
    exact hwf.2 _ (List.getElem_mem hil)
  have key : (b.grid.set i ((b.grid.getD i []).set j v)).getD i []
      = (b.grid.getD i []).set j v := by
    rw [List.getD_eq_getElem?_getD (b.grid.set i _), List.getElem?_set_self hil]
    rfl
  rw [key, List.getD_eq_getElem?_getD ((b.grid.getD i []).set j v),
    List.getElem?_set_self (by omega)]
  rfl

theorem allCells_eq_product (b : Board) :
    b.allCells = (List.range b.rows) ×ˢ (List.range b.cols) := rfl

theorem mem_allCells {b : Board} {c : Cell} :
    c ∈ b.allCells ↔ c.1 < b.rows ∧ c.2 < b.cols := by
  rw [allCells_eq_product]
  obtain ⟨x, y⟩ := c
  simp [List.pair_mem_product]

theorem allCells_nodup (b : Board) : b.allCells.Nodup := by
  rw [allCells_eq_product]
  exact (List.nodup_range _).product (List.nodup_range _)

theorem allCells_length (b : Board) : b.allCells.length = b.rows * b.cols := by
  rw [allCells_eq_product]
  simp [List.length_product]

/-- `allCells` only depends on the dimensions. -/
theorem allCells_congr {b b' : Board} (hr : b'.rows = b.rows) (hc : b'.cols = b.cols) :
    b'.allCells = b.allCells := by
  rw [allCells_eq_product, allCells_eq_product, hr, hc]

/-- `neighbors` only depends on the dimensions. -/
theorem neighbors_congr {b b' : Board} (hr : b'.rows = b.rows) (hc : b'.cols = b.cols)
    (i j : Nat) : b'.neighbors i j = b.neighbors i j := by
  unfold Board.neighbors
  rw [hr, hc]

theorem mem_neighbors_spec {b : Board} {i j : Nat} {n : Cell}
    (h : n ∈ b.neighbors i j) :
    (n.1 < b.rows ∧ n.2 < b.cols) ∧ n ≠ (i, j) := by
  unfold Board.neighbors at h
  simp only [List.mem_flatten, List.mem_map] at h
  obtain ⟨l, ⟨di, hdi, rfl⟩, hn⟩ := h
  simp only [List.mem_filterMap] at hn
  obtain ⟨dj, hdj, hf⟩ := hn
  split at hf
  · exact absurd hf (by simp)
  · next hne =>
    split at hf
    · next hbnd =>
      obtain ⟨h1, h2, h3, h4⟩ := hbnd
      injection hf with hf
      subst hf
      constructor
      · constructor
        · show ((i : Int) + di).toNat < b.rows
          omega
        · show ((j : Int) + dj).toNat < b.cols
          omega
      · intro hcon
        have hi : ((i : Int) + di).toNat = i := congrArg Prod.fst hcon
        have hj : ((j : Int) + dj).toNat = j := congrArg Prod.snd hcon
        have hdi0 : di = 0 := by omega
        have hdj0 : dj = 0 := by omega
        exact hne ⟨hdi0, hdj0⟩
    · exact absurd hf (by simp)

/-- The 8-candidate neighbour iteration never yields more than 8 cells. -/
theorem neighbors_length_le (b : Board) (i j : Nat) :
    (b.neighbors i j).length ≤ 8 := by
  have hmid : ∀ (f : Int → Option Cell), f 0 = none →
      (List.filterMap f [-1, 0, 1]).length ≤ 2 := by
    intro f hf
    have h1 : (List.filterMap f [-1, 0, 1]).length
        ≤ 1 + (List.filterMap f [0, 1]).length := by
      rw [List.filterMap_cons]
      cases f (-1)
      · simp
      · simp only [List.length_cons]
        omega
    have h2 : List.filterMap f [0, 1] = List.filterMap f [1] := by
      rw [List.filterMap_cons, hf]
    have h3 : (List.filterMap f [1]).length ≤ 1 :=
      le_trans (List.length_filterMap_le f [1]) (by simp)
    rw [h2] at h1
    omega
  have h3 : (([-1, 0, 1] : List Int)).length ≤ 3 := by simp
  unfold Board.neighbors
  simp only [List.map_cons, List.map_nil, List.flatten_cons, List.flatten_nil,
    List.length_append, List.length_nil]
  refine le_trans (Nat.add_le_add (le_trans (List.length_filterMap_le _ _) h3)
    (Nat.add_le_add (hmid _ (by simp)) (le_trans (List.length_filterMap_le _ _) h3)))
    (by omega)

theorem count_adjacent_mines_le (b : Board) (i j : Nat) :
    b.count_adjacent_mines i j ≤ 8 :=
  le_trans (List.countP_le_length _) (neighbors_length_le b i j)

/-! ### Specifications of the mutators -/

theorem initialize_mines_fields {smp : Sampler} {b b1 : Board} {i j : Nat}
    (h : b.initialize_mines smp i j = .ok b1) :
    b1.rows = b.rows ∧ b1.cols = b.cols ∧ b1.grid = b.grid ∧
    b1.revealed_count = b.revealed_count ∧ b1.flagged_count = b.flagged_count ∧
    b1.game_over = b.game_over ∧ b1.hit_mine_at = b.hit_mine_at ∧
    b1.first_reveal_done = b.first_reveal_done ∧
    b1.first_click_zero = b.first_click_zero := by
  unfold Board.initialize_mines at h
  split at h
  · injection h with h
    subst h
    exact ⟨rfl, rfl, rfl, rfl, rfl, rfl, rfl, rfl, rfl⟩
  · split at h
    · cases h
    · simp only at h
      split at h
      all_goals try split at h
      all_goals first
        | (injection h with h
           subst h
           exact ⟨rfl, rfl, rfl, rfl, rfl, rfl, rfl, rfl, rfl⟩)
        | cases h

theorem relocate_fields (smp : Sampler) (b : Board) (i j : Nat) :
    (b.relocate_first_click_bombs smp i j).2.rows = b.rows ∧
    (b.relocate_first_click_bombs smp i j).2.cols = b.cols ∧
    (b.relocate_first_click_bombs smp i j).2.grid = b.grid ∧
    (b.relocate_first_click_bombs smp i j).2.revealed_count = b.revealed_count ∧
    (b.relocate_first_click_bombs smp i j).2.flagged_count = b.flagged_count ∧
    (b.relocate_first_click_bombs smp i j).2.game_over = b.game_over ∧
    (b.relocate_first_click_bombs smp i j).2.hit_mine_at = b.hit_mine_at ∧
    (b.relocate_first_click_bombs smp i j).2.first_reveal_done = b.first_reveal_done := by
  unfold Board.relocate_first_click_bombs
  simp only
  repeat' split
  all_goals exact ⟨rfl, rfl, rfl, rfl, rfl, rfl, rfl, rfl⟩

/-- `get_tile` only reads the dimensions and the grid. -/
theorem get_tile_ext {b b' : Board} (hr : b'.rows = b.rows) (hc : b'.cols = b.cols)
    (hg : b'.grid = b.grid) (i j : Nat) : b'.get_tile i j = b.get_tile i j := by
  unfold Board.get_tile
  rw [hr, hc, hg]

theorem revealWrite_fst (b : Board) (i j : Nat) : (b.revealWrite i j).1 = true := by
  unfold Board.revealWrite
  split <;> rfl

/-- What one `revealWrite` does to the board. -/
theorem revealWrite_spec {b : Board} (hwf : WF b) {i j : Nat}
    (hi : i < b.rows) (hj : j < b.cols) :
    WF (b.revealWrite i j).2 ∧
    (b.revealWrite i j).2.rows = b.rows ∧ (b.revealWrite i j).2.cols = b.cols ∧
    (b.revealWrite i j).2.revealed_count = b.revealed_count + 1 ∧
    (b.revealWrite i j).2.flagged_count = b.flagged_count ∧
    (b.revealWrite i j).2.first_reveal_done = true ∧
    (∀ i' j', ¬(i' = i ∧ j' = j) →
      (b.revealWrite i j).2.get_tile i' j' = b.get_tile i' j') ∧
    0 ≤ (b.revealWrite i j).2.get_tile i j ∧
    (((b.revealWrite i j).2.get_tile i j = 9 ∧ (b.revealWrite i j).2.game_over = true ∧
        (b.revealWrite i j).2.hit_mine_at = some (i, j)) ∨
     ((b.revealWrite i j).2.get_tile i j ≤ 8 ∧
        (b.revealWrite i j).2.game_over = b.game_over ∧
        (b.revealWrite i j).2.hit_mine_at = b.hit_mine_at)) := by
  unfold Board.revealWrite
  split
  · -- mine branch
    dsimp only
    have hwf' : WF (b.setTile i j 9) := wf_setTile hwf i j 9
    have hself : (b.setTile i j 9).get_tile i j = 9 := get_tile_setTile_self hwf 9 hi hj
    exact ⟨⟨hwf'.1, hwf'.2⟩, rfl, rfl, rfl, rfl, rfl,
      fun i' j' hne => get_tile_setTile_ne b 9 hne,
      by show (0 : Int) ≤ (b.setTile i j 9).get_tile i j
         rw [hself]
         omega,
      Or.inl ⟨hself, rfl, rfl⟩⟩
  · -- count branch
    dsimp only
    have hwf' : WF (b.setTile i j ((b.count_adjacent_mines i j : Nat) : Int)) :=
      wf_setTile hwf i j _
    have hself : (b.setTile i j ((b.count_adjacent_mines i j : Nat) : Int)).get_tile i j
        = ((b.count_adjacent_mines i j : Nat) : Int) :=
      get_tile_setTile_self hwf _ hi hj
    have hvle : ((b.count_adjacent_mines i j : Nat) : Int) ≤ 8 := by
      exact_mod_cast count_adjacent_mines_le b i j
    exact ⟨⟨hwf'.1, hwf'.2⟩, rfl, rfl, rfl, rfl, rfl,
      fun i' j' hne => get_tile_setTile_ne b _ hne,
      by show (0 : Int) ≤ (b.setTile i j ((b.count_adjacent_mines i j : Nat) : Int)).get_tile i j
         rw [hself]
         exact_mod_cast Nat.zero_le _,
      Or.inr ⟨by
        show (b.setTile i j ((b.count_adjacent_mines i j : Nat) : Int)).get_tile i j ≤ 8
        rw [hself]
        exact hvle, rfl, rfl⟩⟩

/-- A successful `reveal` factors as: guards passed, an intermediate board
`b2` agreeing with `b` on everything except mines bookkeeping, and a final
`revealWrite`. -/
theorem reveal_ok_spec {smp : Sampler} {b b' : Board} {i j : Nat} {r : Bool}
    (h : b.reveal smp i j = .ok (r, b'))
    (hbnd : i < b.rows ∧ j < b.cols) (htile : b.get_tile i j = UNKNOWN) :
    ∃ b2 : Board, b2.rows = b.rows ∧ b2.cols = b.cols ∧ b2.grid = b.grid ∧
      b2.revealed_count = b.revealed_count ∧ b2.flagged_count = b.flagged_count ∧
      b2.game_over = b.game_over ∧ b2.hit_mine_at = b.hit_mine_at ∧
      (r, b') = b2.revealWrite i j := by
  unfold Board.reveal at h
  rw [if_neg (not_not_intro hbnd), if_neg (not_not_intro htile)] at h
  simp only [bind, Except.bind] at h
  have finish : ∀ v : Board, v.rows = b.rows → v.cols = b.cols → v.grid = b.grid →
      v.revealed_count = b.revealed_count → v.flagged_count = b.flagged_count →
      v.game_over = b.game_over → v.hit_mine_at = b.hit_mine_at →
      (Except.ok ((if (!v.first_reveal_done) = true ∧ v.first_click_zero = true ∧
          (i, j) ∈ v.bombs then (v.relocate_first_click_bombs smp i j).2
        else v).revealWrite i j) : Except String (Bool × Board)) = Except.ok (r, b') →
      ∃ b2 : Board, b2.rows = b.rows ∧ b2.cols = b.cols ∧ b2.grid = b.grid ∧
        b2.revealed_count = b.revealed_count ∧ b2.flagged_count = b.flagged_count ∧
        b2.game_over = b.game_over ∧ b2.hit_mine_at = b.hit_mine_at ∧
        (r, b') = b2.revealWrite i j := by
    intro v hv1 hv2 hv3 hv4 hv5 hv6 hv7 hh
    injection hh with hh
    split at hh
    · exact ⟨(v.relocate_first_click_bombs smp i j).2,
        (relocate_fields smp v i j).1.trans hv1,
        (relocate_fields smp v i j).2.1.trans hv2,
        (relocate_fields smp v i j).2.2.1.trans hv3,
        (relocate_fields smp v i j).2.2.2.1.trans hv4,
        (relocate_fields smp v i j).2.2.2.2.1.trans hv5,
        (relocate_fields smp v i j).2.2.2.2.2.1.trans hv6,
        (relocate_fields smp v i j).2.2.2.2.2.2.1.trans hv7, hh.symm⟩
    · exact ⟨v, hv1, hv2, hv3, hv4, hv5, hv6, hv7, hh.symm⟩
  split at h
  · -- the deferred initializer runs first
    split at h
    · cases h
    · next v heq2 =>
      have hf := initialize_mines_fields heq2
      simp only [pure, Except.pure] at h
      exact finish v hf.1 hf.2.1 hf.2.2.1 hf.2.2.2.1 hf.2.2.2.2.1 hf.2.2.2.2.2.1
        hf.2.2.2.2.2.2.1 h
  · -- mines already initialised
    simp only [pure, Except.pure] at h
    exact finish b rfl rfl rfl rfl rfl rfl rfl h

/-- A `reveal` that returns `false` leaves the board unchanged (the cell was
out of bounds or not unknown). -/
theorem reveal_false_spec {smp : Sampler} {b b' : Board} {i j : Nat}
    (h : b.reveal smp i j = .ok (false, b')) :
    b' = b ∧ (¬(i < b.rows ∧ j < b.cols) ∨ b.get_tile i j ≠ UNKNOWN) := by
  by_cases hbnd : i < b.rows ∧ j < b.cols
  · by_cases htile : b.get_tile i j = UNKNOWN
    · exfalso
      obtain ⟨b2, -, -, -, -, -, -, -, heq⟩ := reveal_ok_spec h hbnd htile
      have := congrArg Prod.fst heq
      rw [revealWrite_fst] at this
      exact Bool.false_ne_true this
    · refine ⟨?_, Or.inr htile⟩
      unfold Board.reveal at h
      rw [if_neg (not_not_intro hbnd), if_pos htile] at h
      injection h with h
      exact (congrArg Prod.snd h).symm
  · refine ⟨?_, Or.inl hbnd⟩
    unfold Board.reveal at h
    rw [if_pos hbnd] at h
    injection h with h
    exact (congrArg Prod.snd h).symm

/-- Everything a successful reveal guarantees about the next board. -/
theorem reveal_true_spec {smp : Sampler} {b b' : Board} {i j : Nat} (hwf : WF b)
    (h : b.reveal smp i j = .ok (true, b')) :
    WF b' ∧ b'.rows = b.rows ∧ b'.cols = b.cols ∧
    b.get_tile i j = UNKNOWN ∧ i < b.rows ∧ j < b.cols ∧
    b'.revealed_count = b.revealed_count + 1 ∧
    b'.flagged_count = b.flagged_count ∧
    b'.first_reveal_done = true ∧
    (∀ i' j', ¬(i' = i ∧ j' = j) → b'.get_tile i' j' = b.get_tile i' j') ∧
    0 ≤ b'.get_tile i j ∧
    ((b'.get_tile i j = 9 ∧ b'.game_over = true ∧ b'.hit_mine_at = some (i, j)) ∨
     (b'.get_tile i j ≤ 8 ∧ b'.game_over = b.game_over ∧
       b'.hit_mine_at = b.hit_mine_at)) := by
  have hguard : (i < b.rows ∧ j < b.cols) ∧ b.get_tile i j = UNKNOWN := by
    by_cases hbnd : i < b.rows ∧ j < b.cols
    · by_cases htile : b.get_tile i j = UNKNOWN
      · exact ⟨hbnd, htile⟩
      · exfalso
        unfold Board.reveal at h
        rw [if_neg (not_not_intro hbnd), if_pos htile] at h
        injection h with h
        simpa using congrArg Prod.fst h
    · exfalso
      unfold Board.reveal at h
      rw [if_pos hbnd] at h
      injection h with h
      simpa using congrArg Prod.fst h
  obtain ⟨⟨hi, hj⟩, htile⟩ := hguard
  obtain ⟨b2, h1, h2, h3, h4, h5, h6, h7, heq⟩ := reveal_ok_spec h ⟨hi, hj⟩ htile
  have hb' : b' = (b2.revealWrite i j).2 := congrArg Prod.snd heq
  have hwf2 : WF b2 := by
    refine ⟨?_, ?_⟩
    · rw [h3, h1]
      exact hwf.1
    · intro r hr
      rw [h3] at hr
      rw [h2]
      exact hwf.2 r hr
  have hi2 : i < b2.rows := h1 ▸ hi
  have hj2 : j < b2.cols := h2 ▸ hj
  obtain ⟨w1, w2, w3, w4, w5, w6, w7, w8, w9⟩ := revealWrite_spec hwf2 hi2 hj2
  have hgext : ∀ i' j', b2.get_tile i' j' = b.get_tile i' j' :=
    fun i' j' => get_tile_ext h1 h2 h3 i' j'
  subst hb'
  refine ⟨w1, w2.trans h1, w3.trans h2, htile, hi, hj, ?_, ?_, w6, ?_, w8, ?_⟩
  · rw [w4, h4]
  · rw [w5, h5]
  · intro i' j' hne
    exact (w7 i' j' hne).trans (hgext i' j')
  · rcases w9 with ⟨a1, a2, a3⟩ | ⟨a1, a2, a3⟩
    · exact Or.inl ⟨a1, a2, a3⟩
    · exact Or.inr ⟨a1, a2.trans h6, a3.trans h7⟩

theorem flag_spec (b : Board) (i j : Nat) :
    ((b.flag i j).1 = false ∧ (b.flag i j).2 = b) ∨
    ((b.flag i j).1 = true ∧ b.get_tile i j = UNKNOWN ∧ i < b.rows ∧ j < b.cols ∧
      (b.flag i j).2
        = { b.setTile i j FLAGGED with flagged_count := b.flagged_count + 1 }) := by
  unfold Board.flag
  split
  · exact Or.inl ⟨rfl, rfl⟩
  · next hbnd =>
    rw [not_not] at hbnd
    split
    · exact Or.inl ⟨rfl, rfl⟩
    · next htile =>
      rw [not_not] at htile
      exact Or.inr ⟨rfl, htile, hbnd.1, hbnd.2, rfl⟩

theorem unflag_spec (b : Board) (i j : Nat) :
    ((b.unflag i j).1 = false ∧ (b.unflag i j).2 = b) ∨
    ((b.unflag i j).1 = true ∧ b.get_tile i j = FLAGGED ∧ i < b.rows ∧ j < b.cols ∧
      (b.unflag i j).2
        = { b.setTile i j UNKNOWN with flagged_count := b.flagged_count - 1 }) := by
  unfold Board.unflag
  split
  · exact Or.inl ⟨rfl, rfl⟩
  · next hbnd =>
    rw [not_not] at hbnd
    split
    · exact Or.inl ⟨rfl, rfl⟩
    · next htile =>
      rw [not_not] at htile
      exact Or.inr ⟨rfl, htile, hbnd.1, hbnd.2, rfl⟩

/-- Changing a predicate at a single member shifts a filter's length by the
difference of the indicator values. -/
theorem length_filter_update {l : List Cell} (hnd : l.Nodup) {c : Cell} (hc : c ∈ l)
    (p q : Cell → Bool) (hpq : ∀ x ∈ l, x ≠ c → p x = q x) :
    ((l.filter q).length : Int) + (if p c then 1 else 0)
      = (l.filter p).length + (if q c then 1 else 0) := by
  induction l with
  | nil => cases hc
  | cons x xs ih =>
    rw [List.filter_cons, List.filter_cons]
    rcases List.mem_cons.mp hc with hx | hx
    · subst hx
      have hxs : xs.filter p = xs.filter q := by
        apply List.filter_congr
        intro y hy
        exact hpq y (List.mem_cons_of_mem _ hy)
          (fun hyc => (List.nodup_cons.mp hnd).1 (hyc ▸ hy))
      rw [hxs]
      by_cases hpc : p c <;> by_cases hqc : q c <;> simp [hpc, hqc] <;> omega
    · have hx' : x ≠ c := fun he => (List.nodup_cons.mp hnd).1 (he ▸ hx)
      have hpx : p x = q x := hpq x (List.mem_cons_self _ _) hx'
      have ih' := ih (List.nodup_cons.mp hnd).2 hx
        (fun y hy hyc => hpq y (List.mem_cons_of_mem _ hy) hyc)
      by_cases hbx : p x = true
      · rw [if_pos hbx, if_pos (hpx ▸ hbx)]
        simp only [List.length_cons]
        push_cast
        omega
      · rw [if_neg hbx, if_neg (hpx ▸ hbx)]
        exact ih'

/-- How the number of unknown cells changes when exactly one in-bounds tile
changes. -/
theorem unknown_cells_length_update {b b' : Board} {i j : Nat}
    (hr : b'.rows = b.rows) (hc : b'.cols = b.cols)
    (hij : i < b.rows ∧ j < b.cols)
    (hne : ∀ i' j', ¬(i' = i ∧ j' = j) → b'.get_tile i' j' = b.get_tile i' j') :
    (b'.unknown_cells.length : Int) + (if b.is_unknown i j then 1 else 0)
      = b.unknown_cells.length + (if b'.is_unknown i j then 1 else 0) := by
  unfold Board.unknown_cells
  rw [allCells_congr hr hc]
  refine length_filter_update (allCells_nodup b)
    ((@mem_allCells b (i, j)).mpr hij)
    (fun c => b.is_unknown c.1 c.2) (fun c => b'.is_unknown c.1 c.2) ?_
  intro x hx hxc
  show decide (b.get_tile x.1 x.2 = UNKNOWN) = decide (b'.get_tile x.1 x.2 = UNKNOWN)
  rw [hne x.1 x.2 (fun hcon => hxc (Prod.ext hcon.1 hcon.2))]

/-- Reachable boards are well-formed, and their counters satisfy the
tile-class partition `revealed + unknown + flagged = rows * cols`. -/
theorem reachable_wf {b : Board} (h : Reachable b) :
    WF b ∧ b.revealed_count + (b.unknown_cells.length : Int) + b.flagged_count
      = (b.rows : Int) * b.cols := by
  induction h with
  | init rows cols bombs total ensure =>
    refine ⟨wf_mkBoard rows cols bombs total ensure, ?_⟩
    have hall : (mkBoard rows cols bombs total ensure).unknown_cells
        = (mkBoard rows cols bombs total ensure).allCells := by
      apply List.filter_eq_self.mpr
      intro x _
      simp [Board.is_unknown, get_tile_mkBoard]
    have hlen := allCells_length (mkBoard rows cols bombs total ensure)
    rw [hall]
    show (0 : Int) + _ + 0 = _
    rw [hlen]
    push_cast
    show (0 : Int) + (rows : Int) * cols + 0 = (rows : Int) * cols
    ring
  | reveal hb hs hrev ih =>
    next b0 smp i j r b' =>
      cases r with
      | false =>
        rw [(reveal_false_spec hrev).1]
        exact ih
      | true =>
        obtain ⟨w1, w2, w3, w4, w5, w6, w7, w8, w9, w10, w11, w12⟩ :=
          reveal_true_spec ih.1 hrev
        have hupd := unknown_cells_length_update w2 w3 ⟨w5, w6⟩ w10
        have hu0 : b0.is_unknown i j = true := by
          unfold Board.is_unknown
          simp [w4]
        have hu1 : b'.is_unknown i j = false := by
          unfold Board.is_unknown
          simp only [decide_eq_false_iff_not]
          unfold UNKNOWN
          omega
        rw [hu0, hu1] at hupd
        have hdelta : (b'.unknown_cells.length : Int) + 1 = b0.unknown_cells.length := by
          simpa using hupd
        refine ⟨w1, ?_⟩
        rw [w2, w3, w7, w8]
        have := ih.2
        omega
  | flag i j hb ih =>
    next b0 =>
      rcases flag_spec b0 i j with ⟨-, h2⟩ | ⟨-, htile, hi, hj, h2⟩
      · rw [h2]
        exact ih
      · rw [h2]
        have hwf' : WF (b0.setTile i j FLAGGED) := wf_setTile ih.1 i j FLAGGED
        have hself := get_tile_setTile_self ih.1 FLAGGED hi hj
        set bf : Board :=
          { b0.setTile i j FLAGGED with flagged_count := b0.flagged_count + 1 } with hbf
        have hupd := @unknown_cells_length_update b0 bf i j rfl rfl ⟨hi, hj⟩
          (fun i' j' hne => get_tile_setTile_ne b0 FLAGGED hne)
        have hu0 : b0.is_unknown i j = true := by
          unfold Board.is_unknown
          simp [htile]
        have hu1 : bf.is_unknown i j = false := by
          unfold Board.is_unknown
          show decide ((b0.setTile i j FLAGGED).get_tile i j = UNKNOWN) = false
          rw [hself]
          simp [FLAGGED, UNKNOWN]
        rw [hu0, hu1] at hupd
        have hdelta : (bf.unknown_cells.length : Int) + 1 = b0.unknown_cells.length := by
          simpa using hupd
        refine ⟨⟨hwf'.1, hwf'.2⟩, ?_⟩
        show b0.revealed_count + (bf.unknown_cells.length : Int)
          + (b0.flagged_count + 1) = (b0.rows : Int) * b0.cols
        have := ih.2
        omega
  | unflag i j hb ih =>
    next b0 =>
      rcases unflag_spec b0 i j with ⟨-, h2⟩ | ⟨-, htile, hi, hj, h2⟩
      · rw [h2]
        exact ih
      · rw [h2]
        have hwf' : WF (b0.setTile i j UNKNOWN) := wf_setTile ih.1 i j UNKNOWN
        have hself := get_tile_setTile_self ih.1 UNKNOWN hi hj
        set bf : Board :=
          { b0.setTile i j UNKNOWN with flagged_count := b0.flagged_count - 1 } with hbf
        have hupd := @unknown_cells_length_update b0 bf i j rfl rfl ⟨hi, hj⟩
          (fun i' j' hne => get_tile_setTile_ne b0 UNKNOWN hne)
        have hu0 : b0.is_unknown i j = false := by
          unfold Board.is_unknown
          rw [htile]
          simp [FLAGGED, UNKNOWN]
        have hu1 : bf.is_unknown i j = true := by
          unfold Board.is_unknown
          show decide ((b0.setTile i j UNKNOWN).get_tile i j = UNKNOWN) = true
          rw [hself]
          simp
        rw [hu0, hu1] at hupd
        have hdelta : (bf.unknown_cells.length : Int) = b0.unknown_cells.length + 1 := by
          simpa using hupd
        refine ⟨⟨hwf'.1, hwf'.2⟩, ?_⟩
        show b0.revealed_count + (bf.unknown_cells.length : Int)
          + (b0.flagged_count - 1) = (b0.rows : Int) * b0.cols
        have := ih.2
        omega

theorem reachable_revealB {b : Board} (hb : Reachable b) (i j : Nat) :
    Reachable (revealB b i j) := by
  unfold revealB
  cases h : b.reveal takeSampler i j with
  | ok p => exact Reachable.reveal hb takeSampler_valid h
  | error e => exact hb

theorem reachable_flagB {b : Board} (hb : Reachable b) (i j : Nat) :
    Reachable (flagB b i j) :=
  Reachable.flag i j hb

/-- Filtering with a weaker predicate keeps at least as many elements. -/
theorem filter_length_mono {l : List Cell} {p q : Cell → Bool}
    (h : ∀ c ∈ l, p c = true → q c = true) :
    (l.filter p).length ≤ (l.filter q).length := by
  induction l with
  | nil => simp
  | cons x xs ih =>
    have ih' := ih (fun c hc => h c (List.mem_cons_of_mem _ hc))
    rw [List.filter_cons, List.filter_cons]
    by_cases hx : p x = true
    · rw [if_pos hx, if_pos (h x (List.mem_cons_self _ _) hx)]
      simpa using ih'
    · rw [if_neg hx]
      split
      · exact le_trans ih' (by simp)
      · exact ih'

theorem self_mem_safeZone (b : Board) (i j : Nat) : (i, j) ∈ b.safeZone i j := by
  unfold Board.safeZone
  split
  · exact Finset.mem_insert_self _ _
  · exact Finset.mem_singleton_self _

/-! ## Claim C2: `is_finished` versus `game_over` -/

/-- C2 counterexample: the reachable board `bC2` (1×3, mine at `(0,2)`;
reveal `(0,0)` then the mine) has `game_over` set, yet
`revealed_count + |mines| = rows * cols` makes `is_finished()` return true —
against the claim that `is_finished` requires `game_over` to be false. -/
theorem C2_counterexample :
    Reachable bC2 ∧ bC2.game_over = true ∧ bC2.is_finished = true :=
  ⟨reachable_revealB (reachable_revealB
      (Reachable.init 1 3 (some {(0, 2)}) none true) 0 0) 0 2,
    by decide, by decide⟩

/-- C2 amended: `is_finished()` returns true exactly when
`revealed_count + |mines| = rows * cols`; the implementation never consults
`game_over`, so the equivalence holds on every board — including boards in
the game-over state, where the claimed right-hand side would be false. -/
theorem C2_theorem (b : Board) :
    b.is_finished = true ↔
      b.revealed_count + (b.bombs.card : Int) = (b.rows : Int) * b.cols := by
  simp [Board.is_finished]

/-! ## Claim C3: the counting invariant -/

/-- C3 counterexample: on the freshly constructed 1×1 board with one mine,
`revealed_count + |mines| + unknown_count + flagged_count = 0 + 1 + 1 + 0 = 2`
differs from `rows * cols = 1`: the mine cell is still in the UNKNOWN tile
class, so the claimed sum double-counts it. -/
theorem C3_counterexample :
    Reachable bC3 ∧
    bC3.revealed_count + (bC3.bombs.card : Int) + (bC3.unknown_cells.length : Int)
      + bC3.flagged_count ≠ (bC3.rows : Int) * bC3.cols :=
  ⟨Reachable.init 1 1 (some {(0, 0)}) none true, by decide⟩

/-- C3 amended: for every reachable board state,
`revealed_count + unknown_count + flagged_count = rows * cols` (the three
tile classes partition the grid; the mine set is not a tile class and must
not be added). -/
theorem C3_theorem {b : Board} (h : Reachable b) :
    b.revealed_count + (b.unknown_cells.length : Int) + b.flagged_count
      = (b.rows : Int) * b.cols :=
  (reachable_wf h).2

theorem C3_witness :
    bC3.revealed_count + (bC3.unknown_cells.length : Int) + bC3.flagged_count
      = (bC3.rows : Int) * bC3.cols :=
  C3_theorem (Reachable.init 1 1 (some {(0, 0)}) none true)

/-! ## Claim C9: when deferred placement raises -/

/-- C9: deferred mine placement raises the domain error exactly when fewer
candidate cells remain than mines required even under the safe zone relaxed
to just the clicked cell (i.e. when the board minus the clicked cell has
fewer than `m` cells); otherwise placement succeeds without error. -/
theorem C9_theorem (smp : Sampler) (b : Board) (i j : Nat) (m : Int)
    (hini : b.mines_initialized = false) (htm : b.total_mines = some m) :
    (∃ e, b.initialize_mines smp i j = .error e) ↔
      ((b.allCells.filter (fun c => decide (c ∉ ({(i, j)} : Finset Cell)))).length : Int)
        < m := by
  have hmono : ((b.allCells.filter
        (fun c => decide (c ∉ b.safeZone i j))).length : Int)
      ≤ (b.allCells.filter
        (fun c => decide (c ∉ ({(i, j)} : Finset Cell)))).length := by
    have := @filter_length_mono b.allCells
      (fun c => decide (c ∉ b.safeZone i j))
      (fun c => decide (c ∉ ({(i, j)} : Finset Cell)))
      (by
        intro c _ hc
        simp only [decide_eq_true_eq] at hc ⊢
        intro hmem
        exact hc (Finset.mem_singleton.mp hmem ▸ self_mem_safeZone b i j))
    exact_mod_cast this
  constructor
  · rintro ⟨e, he⟩
    unfold Board.initialize_mines at he
    rw [hini] at he
    rw [if_neg (by simp)] at he
    split at he
    · next heq =>
      rw [htm] at heq
      cases heq
    · next m' heq =>
      rw [htm] at heq
      injection heq with heq
      subst heq
      simp only at he
      split at he
      · next hlt1 =>
        split at he
        · next hlt2 => exact hlt2
        · cases he
      · next hge1 =>
        cases he
  · intro hlt
    unfold Board.initialize_mines
    rw [hini]
    rw [if_neg (by simp)]
    have hlt0 : ((b.allCells.filter
        (fun c => decide (c ∉ b.safeZone i j))).length : Int) < m := by omega
    rw [htm]
    simp only
    rw [if_pos hlt0, if_pos hlt]
    exact ⟨_, rfl⟩

theorem C9_witness :
    (∃ e, bC9.initialize_mines takeSampler 0 0 = .error e) ∧
    bC9.mines_initialized = false ∧ bC9.total_mines = some 5 :=
  ⟨(C9_theorem takeSampler bC9 0 0 5 (by decide) (by decide)).mpr (by decide),
    by decide, by decide⟩

/-! ## Claim C7: first-click safety -/

/-- Successful deferred placement: the mines are sampled from a candidate
list that excludes the clicked cell, and — when the full safe zone left
enough candidates — from the list that excludes the whole safe zone. -/
theorem initialize_mines_ok_spec {smp : Sampler} {b b1 : Board} {i j : Nat} {m : Int}
    (hini : b.mines_initialized = false) (htm : b.total_mines = some m)
    (h : b.initialize_mines smp i j = .ok b1) :
    ∃ cand : List Cell, b1.bombs = (smp cand m.toNat).toFinset ∧
      m ≤ (cand.length : Int) ∧ (∀ c ∈ cand, c ≠ (i, j)) ∧
      (m ≤ ((b.allCells.filter
          (fun c => decide (c ∉ b.safeZone i j))).length : Int) →
        cand = b.allCells.filter (fun c => decide (c ∉ b.safeZone i j))) := by
  unfold Board.initialize_mines at h
  rw [hini, if_neg (by simp)] at h
  split at h
  · next heq =>
    rw [htm] at heq
    cases heq
  · next m' heq =>
    rw [htm] at heq
    injection heq with heq
    subst heq
    simp only at h
    split at h
    · next hlt1 =>
      split at h
      · cases h
      · next hge2 =>
        rw [not_lt] at hge2
        injection h with h
        subst h
        refine ⟨_, rfl, hge2, ?_, ?_⟩
        · intro c hc
          have hmem := (List.mem_filter.mp hc).2
          simp only [decide_eq_true_eq] at hmem
          intro he
          exact hmem (by simp [he])
        · intro hge
          exact absurd hlt1 (not_lt.mpr hge)
    · next hge1 =>
      rw [not_lt] at hge1
      injection h with h
      subst h
      refine ⟨_, rfl, hge1, ?_, fun _ => rfl⟩
      intro c hc
      have hmem := (List.mem_filter.mp hc).2
      simp only [decide_eq_true_eq] at hmem
      intro he
      exact hmem (he ▸ self_mem_safeZone b i j)

/-- C7: on a board with deferred mine placement, the first reveal never sets
`game_over`; and when `ensure_first_click_zero` is set and enough cells lie
outside the full safe zone, the first revealed value is 0. -/
theorem C7_theorem (smp : Sampler) (hs : ValidSampler smp) (rows cols : Nat)
    (tm : Int) (ensure : Bool) (i j : Nat) (hij : i < rows ∧ j < cols)
    (r : Bool) (b' : Board)
    (hrun : (mkBoard rows cols none (some tm) ensure).reveal smp i j = .ok (r, b')) :
    b'.game_over = false ∧
    (ensure = true →
      tm ≤ (((mkBoard rows cols none (some tm) ensure).allCells.filter
        (fun c => decide
          (c ∉ (mkBoard rows cols none (some tm) ensure).safeZone i j))).length : Int) →
      b'.get_tile i j = 0) := by
  have hwf0 : WF (mkBoard rows cols none (some tm) ensure) :=
    wf_mkBoard rows cols none (some tm) ensure
  have htile : (mkBoard rows cols none (some tm) ensure).get_tile i j = UNKNOWN :=
    get_tile_mkBoard rows cols none (some tm) ensure i j
  have hbnd : i < (mkBoard rows cols none (some tm) ensure).rows ∧
      j < (mkBoard rows cols none (some tm) ensure).cols := hij
  unfold Board.reveal at hrun
  rw [if_neg (not_not_intro hbnd), if_neg (not_not_intro htile)] at hrun
  simp only [bind, Except.bind] at hrun
  split at hrun
  · -- deferred generation runs
    next hdef =>
    have hini : (mkBoard rows cols none (some tm) ensure).mines_initialized = false := by
      simpa using hdef
    split at hrun
    · cases hrun
    · next b1 heq =>
      obtain ⟨cand, hbombs, hclen, hcne, hczone⟩ :=
        initialize_mines_ok_spec hini rfl heq
      have hf := initialize_mines_fields heq
      have hsmp := hs cand tm.toNat (by omega)
      have hnb : (i, j) ∉ b1.bombs := by
        rw [hbombs]
        intro hmem
        rw [List.mem_toFinset] at hmem
        exact hcne _ (hsmp.2 _ hmem) rfl
      rw [if_neg (fun hcon => hnb hcon.2.2)] at hrun
      simp only [pure, Except.pure] at hrun
      injection hrun with hrun
      unfold Board.revealWrite at hrun
      rw [if_neg hnb] at hrun
      dsimp only at hrun
      have hb' : b' = _ := (congrArg Prod.snd hrun).symm
      have hwf1 : WF b1 := by
        refine ⟨?_, ?_⟩
        · rw [hf.2.2.1, hf.1]
          exact hwf0.1
        · intro row hrow
          rw [hf.2.2.1] at hrow
          rw [hf.2.1]
          exact hwf0.2 row hrow
      have hi1 : i < b1.rows := by
        rw [hf.1]
        exact hij.1
      have hj1 : j < b1.cols := by
        rw [hf.2.1]
        exact hij.2
      constructor
      · rw [hb']
        show b1.game_over = false
        rw [hf.2.2.2.2.2.1]
        rfl
      · intro hens henough
        have hcand0 := hczone henough
        have hcnt : b1.count_adjacent_mines i j = 0 := by
          apply List.countP_eq_zero.mpr
          intro n hn
          simp only [decide_eq_true_eq]
          intro hnb'
          rw [hbombs, List.mem_toFinset] at hnb'
          have hncand := hsmp.2 _ hnb'
          rw [hcand0] at hncand
          have hnzone := (List.mem_filter.mp hncand).2
          simp only [decide_eq_true_eq] at hnzone
          apply hnzone
          have hn0 : n ∈ (mkBoard rows cols none (some tm) ensure).neighbors i j := by
            rwa [neighbors_congr hf.1 hf.2.1] at hn
          unfold Board.safeZone
          rw [if_pos (show (mkBoard rows cols none (some tm) ensure).first_click_zero
            = true from hens)]
          exact Finset.mem_insert_of_mem (List.mem_toFinset.mpr hn0)
        rw [hb']
        show (b1.setTile i j ((b1.count_adjacent_mines i j : Nat) : Int)).get_tile i j = 0
        rw [get_tile_setTile_self hwf1 _ hi1 hj1, hcnt]
        rfl
  · -- mines were present from the start (tm ≤ 0: the bomb set is empty)
    next hdef =>
    simp only [pure, Except.pure] at hrun
    have hbe : (mkBoard rows cols none (some tm) ensure).bombs = ∅ := rfl
    rw [if_neg (fun hcon => absurd (hbe ▸ hcon.2.2) (Finset.not_mem_empty (i, j)))]
      at hrun
    injection hrun with hrun
    unfold Board.revealWrite at hrun
    rw [if_neg (fun hcon => absurd (hbe ▸ hcon) (Finset.not_mem_empty (i, j)))] at hrun
    dsimp only at hrun
    have hb' : b' = _ := (congrArg Prod.snd hrun).symm
    have hcnt : (mkBoard rows cols none (some tm) ensure).count_adjacent_mines i j = 0 := by
      apply List.countP_eq_zero.mpr
      intro n _
      simp only [decide_eq_true_eq]
      intro hmem
      exact absurd (hbe ▸ hmem) (Finset.not_mem_empty n)
    constructor
    · rw [hb']
      rfl
    · intro _ _
      rw [hb']
      show ((mkBoard rows cols none (some tm) ensure).setTile i j
        (((mkBoard rows cols none (some tm) ensure).count_adjacent_mines i j : Nat) : Int)).get_tile i j = 0
      rw [get_tile_setTile_self hwf0 _ hij.1 hij.2, hcnt]
      rfl

theorem C7_witness :
    c7run = .ok c7pair ∧ c7pair.2.game_over = false ∧ c7pair.2.get_tile 0 0 = 0 := by
  refine ⟨rfl, ?_, ?_⟩
  · exact (C7_theorem takeSampler takeSampler_valid 4 4 2 true 0 0 (by decide)
      c7pair.1 c7pair.2 rfl).1
  · exact (C7_theorem takeSampler takeSampler_valid 4 4 2 true 0 0 (by decide)
      c7pair.1 c7pair.2 rfl).2 rfl (by decide)

/-! ## Claim C1: which tiles yield constraints -/

/-- C1 counterexample: on the reachable 1×3 mine-free board where `(0,1)` was
revealed (value 0, unknown neighbours on both sides), the CSP extraction
emits a constraint and CSP inference lists `(0,0)` as safe — a revealed 0
is *not* skipped by the CSP engine. -/
theorem C1_counterexample :
    Reachable bC1 ∧ bC1.get_tile 0 1 = 0 ∧ bC1.is_unknown 0 0 = true ∧
    csp.extract_constraints bC1 ≠ [] ∧ (0, 0) ∈ (csp.infer bC1).1 :=
  ⟨reachable_revealB (Reachable.init 1 3 (some ∅) none true) 0 1,
    by decide, by decide, by decide, by decide⟩

/-- C1 amended: the CSP extraction skips only negative tiles and the sentinel
9, so a revealed 0 with an unknown neighbour yields a zero-requirement
constraint and CSP inference lists that neighbour as safe; the SAT
extraction is the one that skips zeros — each of its constraints stems from
a revealed tile with value strictly positive and different from 9. -/
theorem C1_theorem (b : Board) (i j : Nat) (n : Cell)
    (hi : i < b.rows) (hj : j < b.cols) (h0 : b.get_tile i j = 0)
    (hn : n ∈ b.neighbors i j) (hu : b.is_unknown n.1 n.2 = true) :
    n ∈ (csp.infer b).1 ∧
    (∀ (b' : Board) (s : sat.SConstraint), s ∈ sat.extract_constraints b' →
      ∃ c ∈ b'.revealed_cells,
        0 < b'.get_tile c.1 c.2 ∧ b'.get_tile c.1 c.2 ≠ 9) := by
  constructor
  · have hrev : (i, j) ∈ b.revealed_cells := by
      apply List.mem_filter.mpr
      refine ⟨(@mem_allCells b (i, j)).mpr ⟨hi, hj⟩, ?_⟩
      simp [Board.is_revealed, h0, FLAGGED]
    have hnmem : n ∈ ((b.neighbors i j).filter
        (fun m => b.is_unknown m.1 m.2)).toFinset := by
      rw [List.mem_toFinset, List.mem_filter]
      exact ⟨hn, hu⟩
    have hne : ((b.neighbors i j).filter
        (fun m => b.is_unknown m.1 m.2)).toFinset ≠ ∅ := by
      intro he
      rw [he] at hnmem
      exact Finset.not_mem_empty n hnmem
    have hcmem : csp.mkConstraint (i, j)
        (max 0 (min ((0 : Int) -
            ((b.neighbors i j).countP (fun m => b.is_flagged m.1 m.2) : Nat))
          ((((b.neighbors i j).filter
            (fun m => b.is_unknown m.1 m.2)).toFinset.card : Int))))
        (((b.neighbors i j).filter (fun m => b.is_unknown m.1 m.2)).toFinset)
        ∈ csp.extract_constraints b := by
      rw [csp.extract_constraints, List.mem_filterMap]
      refine ⟨(i, j), hrev, ?_⟩
      simp only [h0]
      rw [if_neg (by norm_num), if_pos hne]
    have hreq : (csp.mkConstraint (i, j)
        (max 0 (min ((0 : Int) -
            ((b.neighbors i j).countP (fun m => b.is_flagged m.1 m.2) : Nat))
          ((((b.neighbors i j).filter
            (fun m => b.is_unknown m.1 m.2)).toFinset.card : Int))))
        (((b.neighbors i j).filter
          (fun m => b.is_unknown m.1 m.2)).toFinset)).required_mines = 0 := by
      simp only [csp.mkConstraint]
      have hF : (0 : Int) ≤
          ((b.neighbors i j).countP (fun m => b.is_flagged m.1 m.2) : Nat) :=
        Int.ofNat_nonneg _
      have hcard : (0 : Int) ≤ (((b.neighbors i j).filter
          (fun m => b.is_unknown m.1 m.2)).toFinset.card : Int) :=
        Int.ofNat_nonneg _
      omega
    rw [csp.infer]
    simp only
    apply List.mem_dedup.mpr
    apply List.mem_append_left
    apply List.mem_flatMap.mpr
    refine ⟨_, hcmem, ?_⟩
    rw [if_neg (by simpa [csp.mkConstraint] using hne), if_pos hreq]
    exact mem_toCellList.mpr hnmem
  · intro b' s hs
    rw [sat.extract_constraints, List.mem_filterMap] at hs
    obtain ⟨c, hc, hfc⟩ := hs
    refine ⟨c, hc, ?_⟩
    by_cases hcond : b'.get_tile c.1 c.2 ≤ 0 ∨ b'.get_tile c.1 c.2 = 9
    · simp only [if_pos hcond] at hfc
      cases hfc
    · push_neg at hcond
      exact ⟨hcond.1, hcond.2⟩

theorem C1_witness :
    ((0, 0) ∈ (csp.infer bC1).1 ∧
      (∀ (b' : Board) (s : sat.SConstraint), s ∈ sat.extract_constraints b' →
        ∃ c ∈ b'.revealed_cells,
          0 < b'.get_tile c.1 c.2 ∧ b'.get_tile c.1 c.2 ≠ 9)) ∧
    0 < bC1.rows ∧ 1 < bC1.cols ∧ bC1.get_tile 0 1 = 0 ∧
    (0, 0) ∈ bC1.neighbors 0 1 ∧ bC1.is_unknown 0 0 = true :=
  ⟨C1_theorem bC1 0 1 (0, 0) (by decide) (by decide) (by decide)
      (by decide) (by decide),
    by decide, by decide, by decide, by decide, by decide⟩

/-! ## Claim C8: disjointness of the safe and mine lists -/

theorem toCellList_toFinset (s : Finset Cell) : (toCellList s).toFinset = s := by
  ext x
  rw [List.mem_toFinset]
  exact mem_toCellList

theorem insertDesc_perm (key : Cell → Nat) (x : Cell) :
    ∀ l : List Cell, (sat.insertDesc key x l).Perm (x :: l) := by
  intro l
  induction l with
  | nil => exact List.Perm.refl _
  | cons y ys ih =>
    rw [sat.insertDesc]
    by_cases h : key y ≤ key x
    · rw [if_pos h]
    · rw [if_neg h]
      exact (List.Perm.cons y ih).trans (List.Perm.swap x y ys)

theorem sortDesc_perm (key : Cell → Nat) :
    ∀ l : List Cell, (sat.sortDesc key l).Perm l := by
  intro l
  induction l with
  | nil => exact List.Perm.refl _
  | cons a l ih =>
    exact (insertDesc_perm key a _).trans (List.Perm.cons a ih)

/-- In a zip whose left list has no duplicates, the right component is
determined by the left one. -/
theorem mem_zip_fst {l : List Cell} (hnd : l.Nodup) :
    ∀ {m : List (Bool × Bool)} {a : Cell} {p q : Bool × Bool},
      (a, p) ∈ l.zip m → (a, q) ∈ l.zip m → p = q := by
  induction l with
  | nil =>
    intro m a p q h1 _
    simp at h1
  | cons x xs ih =>
    intro m a p q h1 h2
    cases m with
    | nil => simp at h1
    | cons y ys =>
      simp only [List.zip_cons_cons, List.mem_cons] at h1 h2
      rcases h1 with h1 | h1 <;> rcases h2 with h2 | h2
      · rw [Prod.mk.injEq] at h1 h2
        exact h1.2.trans h2.2.symm
      · rw [Prod.mk.injEq] at h1
        exact absurd (h1.1 ▸ (List.mem_zip h2).1) (List.nodup_cons.mp hnd).1
      · rw [Prod.mk.injEq] at h2
        exact absurd (h2.1 ▸ (List.mem_zip h1).1) (List.nodup_cons.mp hnd).1
      · exact ih (List.nodup_cons.mp hnd).2 h1 h2

/-- Membership in a conditional-insert fold. -/
theorem mem_foldl_insert {β : Type} (q : Cell × β → Prop) [DecidablePred q] :
    ∀ (zl : List (Cell × β)) (acc : Finset Cell) (x : Cell),
      (x ∈ zl.foldl (fun a p => if q p then insert p.1 a else a) acc ↔
        x ∈ acc ∨ ∃ p ∈ zl, q p ∧ p.1 = x) := by
  intro zl
  induction zl with
  | nil =>
    intro acc x
    simp
  | cons p rest ih =>
    intro acc x
    rw [List.foldl_cons, ih]
    by_cases hq : q p
    · rw [if_pos hq]
      constructor
      · rintro (hx | ⟨p', hp', hq', hx⟩)
        · rcases Finset.mem_insert.mp hx with hx | hx
          · exact Or.inr ⟨p, List.mem_cons_self p rest, hq, hx.symm⟩
          · exact Or.inl hx
        · exact Or.inr ⟨p', List.mem_cons_of_mem p hp', hq', hx⟩
      · rintro (hx | ⟨p', hp', hq', hx⟩)
        · exact Or.inl (Finset.mem_insert_of_mem hx)
        · rcases List.mem_cons.mp hp' with hp'' | hp''
          · subst hp''
            exact Or.inl (hx ▸ Finset.mem_insert_self p'.1 acc)
          · exact Or.inr ⟨p', hp'', hq', hx⟩
    · rw [if_neg hq]
      constructor
      · rintro (hx | ⟨p', hp', hq', hx⟩)
        · exact Or.inl hx
        · exact Or.inr ⟨p', List.mem_cons_of_mem p hp', hq', hx⟩
      · rintro (hx | ⟨p', hp', hq', hx⟩)
        · exact Or.inl hx
        · rcases List.mem_cons.mp hp' with hp'' | hp''
          · subst hp''
            exact absurd hq' hq
          · exact Or.inr ⟨p', hp'', hq', hx⟩

/-- The two result folds of `solve_component`: both land inside the cell
list, and — because a deduplicated cell pairs with exactly one value
record — the two results are disjoint. -/
theorem fold_pair_spec (oc comp : List Cell) (rl : List (Bool × Bool))
    (hnd : oc.Nodup) (hperm : oc.Perm comp) :
    (((oc.zip rl).foldl
        (fun acc p => if p.2 = (true, false) then insert p.1 acc else acc)
          (∅ : Finset Cell) ⊆ comp.toFinset) ∧
     ((oc.zip rl).foldl
        (fun acc p => if p.2 = (false, true) then insert p.1 acc else acc)
          (∅ : Finset Cell) ⊆ comp.toFinset)) ∧
    Disjoint
      ((oc.zip rl).foldl
        (fun acc p => if p.2 = (true, false) then insert p.1 acc else acc)
          (∅ : Finset Cell))
      ((oc.zip rl).foldl
        (fun acc p => if p.2 = (false, true) then insert p.1 acc else acc)
          (∅ : Finset Cell)) := by
  have hmem1 := mem_foldl_insert (fun p : Cell × (Bool × Bool) => p.2 = (true, false))
    (oc.zip rl) ∅
  have hmem2 := mem_foldl_insert (fun p : Cell × (Bool × Bool) => p.2 = (false, true))
    (oc.zip rl) ∅
  refine ⟨⟨?_, ?_⟩, ?_⟩
  · intro x hx
    rcases (hmem1 x).mp hx with h | ⟨p, hp, _, hx1⟩
    · exact absurd h (Finset.not_mem_empty x)
    · exact List.mem_toFinset.mpr (hperm.mem_iff.mp (hx1 ▸ (List.mem_zip hp).1))
  · intro x hx
    rcases (hmem2 x).mp hx with h | ⟨p, hp, _, hx1⟩
    · exact absurd h (Finset.not_mem_empty x)
    · exact List.mem_toFinset.mpr (hperm.mem_iff.mp (hx1 ▸ (List.mem_zip hp).1))
  · rw [Finset.disjoint_left]
    intro x hx1 hx2
    rcases (hmem1 x).mp hx1 with h | ⟨⟨a, v⟩, hp, hq1, hxp⟩
    · exact Finset.not_mem_empty x h
    rcases (hmem2 x).mp hx2 with h | ⟨⟨a', v'⟩, hp', hq2, hxp'⟩
    · exact Finset.not_mem_empty x h
    dsimp only at hq1 hq2 hxp hxp'
    subst hxp
    subst hq1
    subst hq2
    rw [← hxp'] at hp
    cases mem_zip_fst hnd hp hp'

/-- `solve_component` yields sets inside the component, and the safe and mine
sets are disjoint. -/
theorem solve_component_spec (comp : List Cell) (cs : List sat.SConstraint)
    (hnd : comp.Nodup) :
    ((sat.solve_component comp cs).1 ⊆ comp.toFinset ∧
     (sat.solve_component comp cs).2 ⊆ comp.toFinset) ∧
    Disjoint (sat.solve_component comp cs).1 (sat.solve_component comp cs).2 := by
  rw [sat.solve_component]
  split
  · exact ⟨⟨Finset.empty_subset _, Finset.empty_subset _⟩, Finset.disjoint_empty_left _⟩
  · dsimp only
    split
    · exact ⟨⟨Finset.empty_subset _, Finset.empty_subset _⟩, Finset.disjoint_empty_left _⟩
    · split
      · exact ⟨⟨Finset.empty_subset _, Finset.empty_subset _⟩,
          Finset.disjoint_empty_left _⟩
      · refine fold_pair_spec _ comp _ ?_ (sortDesc_perm _ comp)
        exact ((sortDesc_perm _ comp).nodup_iff).mpr hnd

/-- The flood fill of `_build_components` only grows `visited`, and every
cell of the produced block is either in the starting block or freshly
visited. -/
theorem flood_spec (adj : Cell → Finset Cell) :
    ∀ (fuel : Nat) (queue : List Cell) (visited block : Finset Cell),
      visited ⊆ (sat.flood adj fuel queue visited block).1 ∧
      ∀ x ∈ (sat.flood adj fuel queue visited block).2,
        x ∈ block ∨ (x ∈ (sat.flood adj fuel queue visited block).1 ∧ x ∉ visited) := by
  intro fuel
  induction fuel with
  | zero =>
    intro queue visited block
    exact ⟨Finset.Subset.refl _, fun x hx => Or.inl hx⟩
  | succ n ih =>
    intro queue visited block
    cases queue with
    | nil => exact ⟨Finset.Subset.refl _, fun x hx => Or.inl hx⟩
    | cons c rest =>
      rw [sat.flood]
      by_cases hc : c ∈ visited
      · rw [if_pos hc]
        exact ih rest visited block
      · rw [if_neg hc]
        obtain ⟨h1, h2⟩ := ih
          (rest ++ (toCellList (adj c)).filter (fun n => decide (n ∉ visited)))
          (insert c visited) (insert c block)
        refine ⟨(Finset.subset_insert c visited).trans h1, ?_⟩
        intro x hx
        rcases h2 x hx with hxb | ⟨hxv, hxn⟩
        · rcases Finset.mem_insert.mp hxb with hxc | hxb'
          · subst hxc
            exact Or.inr ⟨h1 (Finset.mem_insert_self x visited), hc⟩
          · exact Or.inl hxb'
        · exact Or.inr ⟨hxv, fun hxin => hxn (Finset.mem_insert_of_mem hxin)⟩

/-- The component loop keeps its accumulated blocks pairwise disjoint. -/
theorem buildLoop_pairwise (adj : Cell → Finset Cell) (fuel : Nat) :
    ∀ (keys : List Cell) (visited : Finset Cell) (acc : List (Finset Cell)),
      (∀ s ∈ acc, s ⊆ visited) → acc.Pairwise Disjoint →
      (sat.buildLoop adj fuel keys visited acc).Pairwise Disjoint := by
  intro keys
  induction keys with
  | nil =>
    intro visited acc _ hpw
    exact hpw
  | cons k rest ih =>
    intro visited acc hsub hpw
    rw [sat.buildLoop]
    by_cases hk : k ∈ visited
    · rw [if_pos hk]
      exact ih visited acc hsub hpw
    · rw [if_neg hk]
      dsimp only
      obtain ⟨h1, h2⟩ := flood_spec adj fuel [k] visited ∅
      apply ih
      · intro s hs
        rcases List.mem_append.mp hs with hs | hs
        · exact (hsub s hs).trans h1
        · rw [List.mem_singleton] at hs
          subst hs
          intro x hx
          rcases h2 x hx with hx0 | ⟨hxv, _⟩
          · exact absurd hx0 (Finset.not_mem_empty x)
          · exact hxv
      · rw [List.pairwise_append]
        refine ⟨hpw, by simp, ?_⟩
        intro a ha s hs
        rw [List.mem_singleton] at hs
        subst hs
        rw [Finset.disjoint_left]
        intro x hxa hxf
        rcases h2 x hxf with hx0 | ⟨_, hxn⟩
        · exact Finset.not_mem_empty x hx0
        · exact hxn (hsub a ha hxa)

theorem build_components_pairwise (cs : List sat.SConstraint) :
    (sat.build_components cs).Pairwise Disjoint := by
  rw [sat.build_components]
  exact buildLoop_pairwise _ _ _ _ _ (fun s hs => absurd hs (List.not_mem_nil s))
    List.Pairwise.nil

/-- The accumulation of per-component results in `sat.infer` preserves
disjointness, provided the components are pairwise disjoint. -/
theorem infer_fold_disjoint (cs : List sat.SConstraint) :
    ∀ (comps : List (Finset Cell)), comps.Pairwise Disjoint →
    ∀ (acc : Finset Cell × Finset Cell) (S : Finset Cell),
      acc.1 ⊆ S → acc.2 ⊆ S → (∀ c ∈ comps, Disjoint S c) →
      Disjoint acc.1 acc.2 →
      Disjoint
        (comps.foldl (fun acc comp =>
          (acc.1 ∪ (sat.solve_component (toCellList comp) cs).1,
           acc.2 ∪ (sat.solve_component (toCellList comp) cs).2)) acc).1
        (comps.foldl (fun acc comp =>
          (acc.1 ∪ (sat.solve_component (toCellList comp) cs).1,
           acc.2 ∪ (sat.solve_component (toCellList comp) cs).2)) acc).2 := by
  intro comps
  induction comps with
  | nil =>
    intro _ acc S _ _ _ hd
    exact hd
  | cons comp rest ih =>
    intro hpw acc S h1 h2 hdis hd
    rw [List.pairwise_cons] at hpw
    obtain ⟨hsub, hdisj⟩ := solve_component_spec (toCellList comp) cs
      (toCellList_nodup comp)
    rw [toCellList_toFinset] at hsub
    rw [List.foldl_cons]
    apply ih hpw.2 _ (S ∪ comp)
    · exact Finset.union_subset_union h1 hsub.1
    · exact Finset.union_subset_union h2 hsub.2
    · intro c hc
      exact Finset.disjoint_union_left.mpr
        ⟨hdis c (List.mem_cons_of_mem comp hc), hpw.1 c hc⟩
    · have hSc : Disjoint S comp := hdis comp (List.mem_cons_self comp rest)
      refine Finset.disjoint_union_left.mpr ⟨?_, ?_⟩
      · exact Finset.disjoint_union_right.mpr ⟨hd, hSc.mono h1 hsub.2⟩
      · exact Finset.disjoint_union_right.mpr ⟨hSc.symm.mono hsub.1 h2, hdisj⟩

/-- C8 counterexample: on the reachable game-over 3×3 board `bC8`, the CSP
engine lists `(1,0)` both as safe and as a mine — the inconsistent flags of
the lost game produce contradictory constraints and the two CSP lists
overlap. -/
theorem C8_counterexample :
    Reachable bC8 ∧ (1, 0) ∈ (csp.infer bC8).1 ∧ (1, 0) ∈ (csp.infer bC8).2 :=
  ⟨reachable_revealB (reachable_revealB (reachable_revealB (reachable_revealB
      (reachable_revealB (reachable_revealB
        (Reachable.init 3 3 (some {(2, 2)}) none true) 2 1) 0 0) 1 1) 1 2) 2 0) 2 2,
    by decide, by decide⟩

/-- C8 amended: the SAT engine's safe and mine lists are disjoint on *every*
board (the CSP lists may overlap, as the counterexample shows): within a
component each cell is classified by a single seen-values record, and
distinct components are disjoint flood-fill blocks. -/
theorem C8_theorem (b : Board) : ∀ x ∈ (sat.infer b).1, x ∉ (sat.infer b).2 := by
  rw [sat.infer]
  dsimp only
  split
  · intro x hx
    simp at hx
  · intro x hx1 hx2
    rw [mem_toCellList] at hx1 hx2
    have hdisj := infer_fold_disjoint (sat.extract_constraints b)
      (sat.build_components (sat.extract_constraints b))
      (build_components_pairwise (sat.extract_constraints b))
      ((∅ : Finset Cell), (∅ : Finset Cell)) ∅
      (Finset.Subset.refl ∅) (Finset.Subset.refl ∅)
      (fun c _ => Finset.disjoint_empty_left c) (Finset.disjoint_empty_left ∅)
    exact absurd hx2 (Finset.disjoint_left.mp hdisj hx1)

theorem C8_witness :
    (0, 1) ∈ (sat.infer bC8w).1 ∧ (0, 1) ∉ (sat.infer bC8w).2 :=
  ⟨by decide, C8_theorem bC8w (0, 1) (by decide)⟩

/-! ## Claim C4: determinism of `step` -/

set_option maxRecDepth 100000 in
/-- C4 counterexample: on the reachable board `bC4` with the default
configuration, `step` returns different guesses for two different
Monte-Carlo entropy streams — `montecarlo.choose_cell` draws fresh
entropy (`random.Random(None)`) on every call, so `step` is not a function
of the board and configuration alone. -/
theorem C4_counterexample :
    Reachable bC4 ∧ step bC4 cfgFull rngZero ≠ step bC4 cfgFull rngOne :=
  ⟨reachable_revealB (Reachable.init 1 3 (some {(0, 0)}) none true) 0 1, by decide⟩

/-- C4 amended: `step` is deterministic — independent of the Monte-Carlo
entropy stream — exactly when `use_monte_carlo` is disabled; no other part
of the strategy consumes randomness. -/
theorem C4_theorem (b : Board) (config : SolverConfig)
    (rng1 rng2 : montecarlo.Rng) (h : config.use_monte_carlo = false) :
    step b config rng1 = step b config rng2 := by
  unfold step
  rw [h, if_neg Bool.false_ne_true, if_neg Bool.false_ne_true]

theorem C4_witness :
    cfgNoMC.use_monte_carlo = false ∧
    step bC4 cfgNoMC rngZero = step bC4 cfgNoMC rngOne :=
  ⟨rfl, C4_theorem bC4 cfgNoMC rngZero rngOne rfl⟩

/-! ## Claim C5: BFS versus DFS on a mine hit -/

/-- A reveal that returns `.ok` preserves well-formedness, the dimensions,
and the value of every already-revealed (non-negative) tile. -/
theorem reveal_ok_wf {smp : Sampler} {b b' : Board} {i j : Nat} {r : Bool}
    (hwf : WF b) (h : b.reveal smp i j = .ok (r, b')) :
    WF b' ∧ b'.rows = b.rows ∧ b'.cols = b.cols ∧
    (∀ x y, 0 ≤ b.get_tile x y → b'.get_tile x y = b.get_tile x y) := by
  cases r with
  | false =>
    obtain ⟨hb, -⟩ := reveal_false_spec h
    subst hb
    exact ⟨hwf, rfl, rfl, fun x y _ => rfl⟩
  | true =>
    obtain ⟨hwf', hr, hc, htile, hi, hj, -, -, -, hpres, -, -⟩ := reveal_true_spec hwf h
    refine ⟨hwf', hr, hc, ?_⟩
    intro x y hxy
    by_cases hx : x = i ∧ y = j
    · exfalso
      rw [hx.1, hx.2, htile] at hxy
      exact absurd hxy (by decide)
    · exact hpres x y hx

/-- The BFS loop never appends a mine tile: it returns before the append when
the reveal set `game_over`. -/
theorem bfs_loop_no9 (smp : Sampler) :
    ∀ (fuel : Nat) (b : Board) (queue : List Cell) (visited : Finset Cell)
      (acc : List Cell), WF b →
      (∀ c ∈ acc, 0 ≤ b.get_tile c.1 c.2 ∧ b.get_tile c.1 c.2 ≠ 9) →
      ∀ (b1 : Board) (l : List Cell),
        bfs.loop smp fuel b queue visited acc = .ok (some (b1, l)) →
        ∀ c ∈ l, 0 ≤ b1.get_tile c.1 c.2 ∧ b1.get_tile c.1 c.2 ≠ 9 := by
  intro fuel
  induction fuel with
  | zero =>
    intro b queue visited acc _ _ b1 l h
    rw [bfs.loop.eq_def] at h
    simp at h
  | succ fuel ih =>
    intro b queue visited acc hwf hacc b1 l h
    rw [bfs.loop.eq_def] at h
    cases queue with
    | nil =>
      dsimp only at h
      injection h with h
      injection h with h
      rw [Prod.mk.injEq] at h
      obtain ⟨hb, hl⟩ := h
      subst hb
      subst hl
      exact hacc
    | cons c rest =>
      dsimp only at h
      split at h
      · injection h with h
        injection h with h
        rw [Prod.mk.injEq] at h
        obtain ⟨hb, hl⟩ := h
        subst hb
        subst hl
        exact hacc
      · split at h
        · exact ih b rest visited acc hwf hacc b1 l h
        · split at h
          · exact ih b rest _ acc hwf hacc b1 l h
          · next hunk =>
            simp only [bind, Except.bind] at h
            cases hrv : b.reveal smp c.1 c.2 with
            | error e =>
              rw [hrv] at h
              simp at h
            | ok rb =>
              rw [hrv] at h
              dsimp only at h
              obtain ⟨hwf2, hrows2, hcols2, hpres2⟩ := reveal_ok_wf hwf hrv
              split at h
              · next hcond =>
                have hok : b.reveal smp c.1 c.2 = .ok (true, rb.2) := by
                  rw [hrv, ← hcond]
                split at h
                · injection h with h
                  injection h with h
                  rw [Prod.mk.injEq] at h
                  obtain ⟨hb, hl⟩ := h
                  subst hb
                  subst hl
                  intro c' hc'
                  have hold := hacc c' hc'
                  rw [hpres2 c'.1 c'.2 hold.1]
                  exact hold
                · next hngo =>
                  obtain ⟨-, -, -, -, -, -, -, -, -, -, hge, hdisj⟩ :=
                    reveal_true_spec hwf hok
                  have hne9 : rb.2.get_tile c.1 c.2 ≠ 9 := by
                    rcases hdisj with ⟨-, hgo, -⟩ | ⟨hle, -, -⟩
                    · exact absurd hgo hngo
                    · omega
                  have hinv : ∀ c' ∈ acc ++ [c],
                      0 ≤ rb.2.get_tile c'.1 c'.2 ∧ rb.2.get_tile c'.1 c'.2 ≠ 9 := by
                    intro c' hc'
                    rcases List.mem_append.mp hc' with hc' | hc'
                    · have hold := hacc c' hc'
                      rw [hpres2 c'.1 c'.2 hold.1]
                      exact hold
                    · rw [List.mem_singleton] at hc'
                      subst hc'
                      exact ⟨hge, hne9⟩
                  split at h
                  · next h9 =>
                    exact absurd h9 hne9
                  · split at h
                    · exact ih _ _ _ _ hwf2 hinv b1 l h
                    · exact ih _ _ _ _ hwf2 hinv b1 l h
              · next hcond =>
                have hfalse : rb.1 = false := by
                  cases hq : rb.1
                  · rfl
                  · exact absurd hq hcond
                have hok : b.reveal smp c.1 c.2 = .ok (false, rb.2) := by
                  rw [hrv, ← hfalse]
                obtain ⟨hb, -⟩ := reveal_false_spec hok
                rw [hb] at h
                exact ih _ _ _ _ hwf hacc b1 l h

/-- The DFS neighbour loop: the board stays well-formed, revealed tiles keep
their value, the result list only grows, and `game_over` can only arise from
a mine tile that the loop *did* append. -/
theorem visitNbrs_spec (smp : Sampler) :
    ∀ (nbrs : List Cell) (b : Board) (visited : Finset Cell) (acc stack : List Cell)
      (st' : dfs.DState), WF b →
      dfs.visitNbrs smp nbrs b visited acc stack = .ok st' →
      WF st'.b ∧
      (∀ x y, 0 ≤ b.get_tile x y → st'.b.get_tile x y = b.get_tile x y) ∧
      (∀ c ∈ acc, c ∈ st'.acc) ∧
      (st'.b.game_over = true → b.game_over = true ∨
        ∃ c ∈ st'.acc, st'.b.get_tile c.1 c.2 = 9) := by
  intro nbrs
  induction nbrs with
  | nil =>
    intro b visited acc stack st' hwf h
    rw [dfs.visitNbrs] at h
    injection h with h
    subst h
    exact ⟨hwf, fun x y _ => rfl, fun c hc => hc, fun hg => Or.inl hg⟩
  | cons n rest ih =>
    intro b visited acc stack st' hwf h
    rw [dfs.visitNbrs] at h
    split at h
    · exact ih b visited acc stack st' hwf h
    · dsimp only at h
      split at h
      · simp only [bind, Except.bind] at h
        cases hrv : b.reveal smp n.1 n.2 with
        | error e =>
          rw [hrv] at h
          simp at h
        | ok rb =>
          rw [hrv] at h
          dsimp only at h
          obtain ⟨hwf2, hrows2, hcols2, hpres2⟩ := reveal_ok_wf hwf hrv
          split at h
          · next hcond =>
            have hok : b.reveal smp n.1 n.2 = .ok (true, rb.2) := by
              rw [hrv, ← hcond]
            obtain ⟨hwfS, hpresS, hmonoS, hgoS⟩ := ih _ _ _ _ _ hwf2 h
            refine ⟨hwfS, ?_, ?_, ?_⟩
            · intro x y hxy
              have h2 : rb.2.get_tile x y = b.get_tile x y := hpres2 x y hxy
              rw [hpresS x y (h2 ▸ hxy), h2]
            · intro c hc
              exact hmonoS c (List.mem_append_left _ hc)
            · intro hgo
              rcases hgoS hgo with hgo2 | hex
              · obtain ⟨-, -, -, -, -, -, -, -, -, -, hge, hdisj⟩ :=
                  reveal_true_spec hwf hok
                rcases hdisj with ⟨h9, -, -⟩ | ⟨-, hgo3, -⟩
                · right
                  refine ⟨n, hmonoS n (List.mem_append_right _ (List.mem_singleton.mpr rfl)), ?_⟩
                  rw [hpresS n.1 n.2 (by rw [h9]; decide)]
                  exact h9
                · left
                  rw [← hgo3]
                  exact hgo2
              · right
                exact hex
          · next hcond =>
            have hfalse : rb.1 = false := by
              cases hq : rb.1
              · rfl
              · exact absurd hq hcond
            have hok : b.reveal smp n.1 n.2 = .ok (false, rb.2) := by
              rw [hrv, ← hfalse]
            obtain ⟨hb, -⟩ := reveal_false_spec hok
            rw [hb] at h
            exact ih _ _ _ _ _ hwf h
      · exact ih _ _ _ _ _ hwf h

/-- The DFS stack loop preserves the "game over only with an appended mine
tile" invariant. -/
theorem dfs_loop_spec (smp : Sampler) :
    ∀ (fuel : Nat) (st : dfs.DState), WF st.b →
      (st.b.game_over = true → ∃ c ∈ st.acc, st.b.get_tile c.1 c.2 = 9) →
      ∀ (b1 : Board) (l : List Cell),
        dfs.loop smp fuel st = .ok (some (b1, l)) →
        b1.game_over = true → ∃ c ∈ l, b1.get_tile c.1 c.2 = 9 := by
  intro fuel
  induction fuel with
  | zero =>
    intro st _ _ b1 l h
    rw [dfs.loop] at h
    simp at h
  | succ fuel ih =>
    intro st hwf hinv b1 l h
    rw [dfs.loop] at h
    cases hst : st.stack with
    | nil =>
      rw [hst] at h
      dsimp only at h
      injection h with h
      injection h with h
      rw [Prod.mk.injEq] at h
      obtain ⟨hb, hl⟩ := h
      subst hb
      subst hl
      exact hinv
    | cons c rest =>
      rw [hst] at h
      dsimp only at h
      split at h
      · injection h with h
        injection h with h
        rw [Prod.mk.injEq] at h
        obtain ⟨hb, hl⟩ := h
        subst hb
        subst hl
        exact hinv
      · simp only [bind, Except.bind] at h
        cases hrv : dfs.visitNbrs smp (st.b.neighbors c.1 c.2) st.b st.visited st.acc rest with
        | error e =>
          rw [hrv] at h
          simp at h
        | ok st2 =>
          rw [hrv] at h
          dsimp only at h
          obtain ⟨hwf2, hpres, hmono, hgo⟩ := visitNbrs_spec smp _ _ _ _ _ _ hwf hrv
          refine ih st2 hwf2 ?_ b1 l h
          intro hg2
          rcases hgo hg2 with hg | hex
          · obtain ⟨c0, hc0, h9⟩ := hinv hg
            exact ⟨c0, hmono c0 hc0,
              by rw [hpres c0.1 c0.2 (by rw [h9]; decide)]; exact h9⟩
          · exact hex

/-- C5 counterexample: on the loaded board `bC5` (a 1×4 row `0*..` after
revealing the far zero), expanding from `(0,0)` walks onto the mine at
`(0,1)`: BFS stops *before* appending the mine and returns `[]`, while DFS
appends the mine and returns `[(0,1)]` — the returned cell sets differ. -/
theorem C5_counterexample :
    cellsOf (bfs.bfs_reveal takeSampler bC5 0 0) = some [] ∧
    cellsOf (dfs.dfs_reveal takeSampler bC5 0 0) = some [(0, 1)] ∧
    bC5.is_unknown 0 1 = true ∧ (0, 1) ∈ bC5.bombs := by
  refine ⟨by decide, by decide, by decide, by decide⟩

/-- C5 amended: on a mine hit the two variants genuinely differ.  BFS checks
`game_over` *before* appending, so its result never contains a mine tile;
DFS appends the mine cell first, so whenever a DFS expansion ends in
`game_over` (starting from a live board) some returned cell holds 9. -/
theorem C5_theorem :
    (∀ (smp : Sampler) (b : Board) (i j : Nat) (b1 : Board) (l : List Cell),
      WF b → bfs.bfs_reveal smp b i j = .ok (some (b1, l)) →
      ∀ c ∈ l, b1.get_tile c.1 c.2 ≠ 9) ∧
    (∀ (smp : Sampler) (b : Board) (i j : Nat) (b1 : Board) (l : List Cell),
      WF b → b.game_over = false →
      dfs.dfs_reveal smp b i j = .ok (some (b1, l)) → b1.game_over = true →
      ∃ c ∈ l, b1.get_tile c.1 c.2 = 9) := by
  constructor
  · intro smp b i j b1 l hwf h
    unfold bfs.bfs_reveal at h
    split at h
    · injection h with h
      injection h with h
      rw [Prod.mk.injEq] at h
      obtain ⟨hb, hl⟩ := h
      subst hb
      subst hl
      intro c hc
      cases hc
    · split at h
      · injection h with h
        injection h with h
        rw [Prod.mk.injEq] at h
        obtain ⟨hb, hl⟩ := h
        subst hb
        subst hl
        intro c hc
        cases hc
      · split at h
        · injection h with h
          injection h with h
          rw [Prod.mk.injEq] at h
          obtain ⟨hb, hl⟩ := h
          subst hb
          subst hl
          intro c hc
          cases hc
        · split at h
          · injection h with h
            injection h with h
            rw [Prod.mk.injEq] at h
            obtain ⟨hb, hl⟩ := h
            subst hb
            subst hl
            intro c hc
            cases hc
          · next htile0 =>
            simp only [bind, Except.bind] at h
            split at h
            · next hnr =>
              exfalso
              apply hnr
              have h0 : b.get_tile i j = 0 := not_not.mp htile0
              simp [Board.is_revealed, h0, FLAGGED]
            · simp only [pure, Except.pure] at h
              intro c hc
              exact (bfs_loop_no9 smp _ b _ _ [] hwf
                (fun c' hc' => absurd hc' (List.not_mem_nil c')) b1 l h c hc).2
  · intro smp b i j b1 l hwf hgo h hg1
    unfold dfs.dfs_reveal at h
    split at h
    · injection h with h
      injection h with h
      rw [Prod.mk.injEq] at h
      obtain ⟨hb, -⟩ := h
      subst hb
      rw [hg1] at hgo
      cases hgo
    · split at h
      · injection h with h
        injection h with h
        rw [Prod.mk.injEq] at h
        obtain ⟨hb, -⟩ := h
        subst hb
        rw [hg1] at hgo
        cases hgo
      · split at h
        · injection h with h
          injection h with h
          rw [Prod.mk.injEq] at h
          obtain ⟨hb, -⟩ := h
          subst hb
          rw [hg1] at hgo
          cases hgo
        · split at h
          · injection h with h
            injection h with h
            rw [Prod.mk.injEq] at h
            obtain ⟨hb, -⟩ := h
            subst hb
            rw [hg1] at hgo
            cases hgo
          · next htile0 =>
            simp only [bind, Except.bind] at h
            split at h
            · next hnr =>
              exfalso
              apply hnr
              have h0 : b.get_tile i j = 0 := not_not.mp htile0
              simp [Board.is_revealed, h0, FLAGGED]
            · simp only [pure, Except.pure] at h
              refine dfs_loop_spec smp _ _ hwf ?_ b1 l h hg1
              intro hgc
              rw [hgo] at hgc
              cases hgc

/-! ## Claim C10: idempotence of expansion -/

theorem is_unknown_iff {b : Board} {x y : Nat} :
    b.is_unknown x y = true ↔ b.get_tile x y = UNKNOWN := by
  simp [Board.is_unknown]

/-- A reveal that returns `.ok` preserves every tile that is not `UNKNOWN`
(the write goes to a cell that was `UNKNOWN`). -/
theorem reveal_ok_known {smp : Sampler} {b b' : Board} {i j : Nat} {r : Bool}
    (hwf : WF b) (h : b.reveal smp i j = .ok (r, b')) :
    WF b' ∧ b'.rows = b.rows ∧ b'.cols = b.cols ∧
    (∀ x y, b.get_tile x y ≠ UNKNOWN → b'.get_tile x y = b.get_tile x y) := by
  cases r with
  | false =>
    obtain ⟨hb, -⟩ := reveal_false_spec h
    subst hb
    exact ⟨hwf, rfl, rfl, fun x y _ => rfl⟩
  | true =>
    obtain ⟨hwf', hr, hc, htile, hi, hj, -, -, -, hpres, -, -⟩ := reveal_true_spec hwf h
    refine ⟨hwf', hr, hc, ?_⟩
    intro x y hxy
    by_cases hx : x = i ∧ y = j
    · exfalso
      rw [hx.1, hx.2] at hxy
      exact hxy htile
    · exact hpres x y hx

theorem bfs_loop_nil (smp : Sampler) (fuel : Nat) (b : Board)
    (visited : Finset Cell) (acc : List Cell) (h : fuel ≠ 0) :
    bfs.loop smp fuel b [] visited acc = .ok (some (b, acc)) := by
  cases fuel with
  | zero => exact absurd rfl h
  | succ n => rfl

/-- The BFS loop on a well-formed board: the dimensions survive, known tiles
survive, and on normal termination every queued cell ends up non-unknown
(unless the run ended in `game_over`). -/
theorem bfs_loop_idem (smp : Sampler) :
    ∀ (fuel : Nat) (b : Board) (queue : List Cell) (visited : Finset Cell)
      (acc : List Cell) (b1 : Board) (l : List Cell), WF b →
      (∀ c ∈ queue, c.1 < b.rows ∧ c.2 < b.cols) →
      (∀ v ∈ visited, ¬(b.is_unknown v.1 v.2 = true)) →
      bfs.loop smp fuel b queue visited acc = .ok (some (b1, l)) →
      WF b1 ∧ b1.rows = b.rows ∧ b1.cols = b.cols ∧
      (∀ x y, b.get_tile x y ≠ UNKNOWN → b1.get_tile x y = b.get_tile x y) ∧
      (b1.game_over = true ∨ ∀ c ∈ queue, ¬(b1.is_unknown c.1 c.2 = true)) := by
  intro fuel
  induction fuel with
  | zero =>
    intro b queue visited acc b1 l _ _ _ h
    rw [bfs.loop.eq_def] at h
    simp at h
  | succ fuel ih =>
    intro b queue visited acc b1 l hwf hq hv h
    rw [bfs.loop.eq_def] at h
    cases queue with
    | nil =>
      dsimp only at h
      injection h with h
      injection h with h
      rw [Prod.mk.injEq] at h
      obtain ⟨hb, hl⟩ := h
      subst hb
      subst hl
      exact ⟨hwf, rfl, rfl, fun x y _ => rfl,
        Or.inr (fun c hc => absurd hc (List.not_mem_nil c))⟩
    | cons c rest =>
      dsimp only at h
      split at h
      · next hgo =>
        injection h with h
        injection h with h
        rw [Prod.mk.injEq] at h
        obtain ⟨hb, hl⟩ := h
        subst hb
        subst hl
        exact ⟨hwf, rfl, rfl, fun x y _ => rfl, Or.inl hgo⟩
      · split at h
        · next hcv =>
          obtain ⟨hwf1, hr1, hc1, hpres1, hdisj1⟩ := ih b rest visited acc b1 l hwf
            (fun c' hc' => hq c' (List.mem_cons_of_mem c hc')) hv h
          refine ⟨hwf1, hr1, hc1, hpres1, ?_⟩
          rcases hdisj1 with hg | hall
          · exact Or.inl hg
          · refine Or.inr ?_
            intro c' hc'
            rcases List.mem_cons.mp hc' with rfl | hc'
            · have hkb : b.get_tile c'.1 c'.2 ≠ UNKNOWN := by
                intro he
                exact hv c' hcv (is_unknown_iff.mpr he)
              rw [is_unknown_iff, hpres1 c'.1 c'.2 hkb]
              exact hkb
            · exact hall c' hc'
        · split at h
          · next hnu =>
            have hv' : ∀ v ∈ insert c visited, ¬(b.is_unknown v.1 v.2 = true) := by
              intro v hvm
              rcases Finset.mem_insert.mp hvm with rfl | hvm
              · exact hnu
              · exact hv v hvm
            obtain ⟨hwf1, hr1, hc1, hpres1, hdisj1⟩ := ih b rest _ acc b1 l hwf
              (fun c' hc' => hq c' (List.mem_cons_of_mem c hc')) hv' h
            refine ⟨hwf1, hr1, hc1, hpres1, ?_⟩
            rcases hdisj1 with hg | hall
            · exact Or.inl hg
            · refine Or.inr ?_
              intro c' hc'
              rcases List.mem_cons.mp hc' with rfl | hc'
              · have hkb : b.get_tile c'.1 c'.2 ≠ UNKNOWN := by
                  intro he
                  exact hnu (is_unknown_iff.mpr he)
                rw [is_unknown_iff, hpres1 c'.1 c'.2 hkb]
                exact hkb
              · exact hall c' hc'
          · next hnu2 =>
            have hunk : b.is_unknown c.1 c.2 = true := not_not.mp hnu2
            simp only [bind, Except.bind] at h
            cases hrv : b.reveal smp c.1 c.2 with
            | error e =>
              rw [hrv] at h
              simp at h
            | ok rb =>
              rw [hrv] at h
              dsimp only at h
              split at h
              · next hcond =>
                have hok : b.reveal smp c.1 c.2 = .ok (true, rb.2) := by
                  rw [hrv, ← hcond]
                obtain ⟨hwf2, hrows2, hcols2, hpresk⟩ := reveal_ok_known hwf hok
                obtain ⟨-, -, -, -, -, -, -, -, -, -, hge, -⟩ :=
                  reveal_true_spec hwf hok
                have hcknown : rb.2.get_tile c.1 c.2 ≠ UNKNOWN := by
                  intro he
                  rw [he] at hge
                  exact absurd hge (by decide)
                have hv' : ∀ v ∈ insert c visited, ¬(rb.2.is_unknown v.1 v.2 = true) := by
                  intro v hvm
                  rcases Finset.mem_insert.mp hvm with rfl | hvm
                  · rw [is_unknown_iff]
                    exact hcknown
                  · intro he
                    have hkb : b.get_tile v.1 v.2 ≠ UNKNOWN := by
                      intro hb'
                      exact hv v hvm (is_unknown_iff.mpr hb')
                    rw [is_unknown_iff, hpresk v.1 v.2 hkb] at he
                    exact hkb he
                have key : ∀ (q' : List Cell),
                    (∀ c' ∈ q', c'.1 < rb.2.rows ∧ c'.2 < rb.2.cols) →
                    (∀ c' ∈ rest, c' ∈ q') →
                    bfs.loop smp fuel rb.2 q' (insert c visited) (acc ++ [c])
                      = .ok (some (b1, l)) →
                    WF b1 ∧ b1.rows = b.rows ∧ b1.cols = b.cols ∧
                    (∀ x y, b.get_tile x y ≠ UNKNOWN →
                      b1.get_tile x y = b.get_tile x y) ∧
                    (b1.game_over = true ∨
                      ∀ c' ∈ c :: rest, ¬(b1.is_unknown c'.1 c'.2 = true)) := by
                  intro q' hq' hsub hrec
                  obtain ⟨hwf1, hr1, hc1, hpres1, hdisj1⟩ :=
                    ih rb.2 q' _ _ b1 l hwf2 hq' hv' hrec
                  refine ⟨hwf1, hr1.trans hrows2, hc1.trans hcols2, ?_, ?_⟩
                  · intro x y hxy
                    have hmid := hpresk x y hxy
                    rw [hpres1 x y (by rw [hmid]; exact hxy), hmid]
                  · rcases hdisj1 with hg | hall
                    · exact Or.inl hg
                    · refine Or.inr ?_
                      intro c' hc'
                      rcases List.mem_cons.mp hc' with rfl | hc'
                      · rw [is_unknown_iff, hpres1 c'.1 c'.2 hcknown]
                        exact hcknown
                      · exact hall c' (hsub c' hc')
                have hqrest : ∀ c' ∈ rest, c'.1 < rb.2.rows ∧ c'.2 < rb.2.cols := by
                  intro c' hc'
                  rw [hrows2, hcols2]
                  exact hq c' (List.mem_cons_of_mem c hc')
                split at h
                · next hgo2 =>
                  injection h with h
                  injection h with h
                  rw [Prod.mk.injEq] at h
                  obtain ⟨hb, hl⟩ := h
                  subst hb
                  subst hl
                  exact ⟨hwf2, hrows2, hcols2, hpresk, Or.inl hgo2⟩
                · split at h
                  · exact key rest hqrest (fun c' hc' => hc') h
                  · split at h
                    · refine key _ ?_ (fun c' hc' => List.mem_append_left _ hc') h
                      intro c' hc'
                      rcases List.mem_append.mp hc' with hc' | hc'
                      · exact hqrest c' hc'
                      · exact (mem_neighbors_spec (List.mem_filter.mp hc').1).1
                    · exact key rest hqrest (fun c' hc' => hc') h
              · next hcond =>
                have hfalse : rb.1 = false := by
                  cases hq' : rb.1
                  · rfl
                  · exact absurd hq' hcond
                have hok : b.reveal smp c.1 c.2 = .ok (false, rb.2) := by
                  rw [hrv, ← hfalse]
                obtain ⟨-, hdis⟩ := reveal_false_spec hok
                rcases hdis with hbnd | htl
                · exact absurd (hq c (List.mem_cons_self c rest)) hbnd
                · exact absurd (is_unknown_iff.mp hunk) htl

theorem dfs_loop_nil (smp : Sampler) (fuel : Nat) (b : Board)
    (visited : Finset Cell) (acc : List Cell) (h : fuel ≠ 0) :
    dfs.loop smp fuel ⟨b, visited, acc, []⟩ = .ok (some (b, acc)) := by
  cases fuel with
  | zero => exact absurd rfl h
  | succ n => rfl

/-- The DFS neighbour loop preserves dimensions and known tiles. -/
theorem visitNbrs_pres (smp : Sampler) :
    ∀ (nbrs : List Cell) (b : Board) (visited : Finset Cell) (acc stack : List Cell)
      (st' : dfs.DState), WF b →
      dfs.visitNbrs smp nbrs b visited acc stack = .ok st' →
      WF st'.b ∧ st'.b.rows = b.rows ∧ st'.b.cols = b.cols ∧
      (∀ x y, b.get_tile x y ≠ UNKNOWN → st'.b.get_tile x y = b.get_tile x y) := by
  intro nbrs
  induction nbrs with
  | nil =>
    intro b visited acc stack st' hwf h
    rw [dfs.visitNbrs] at h
    injection h with h
    subst h
    exact ⟨hwf, rfl, rfl, fun x y _ => rfl⟩
  | cons n rest ih =>
    intro b visited acc stack st' hwf h
    rw [dfs.visitNbrs] at h
    split at h
    · exact ih b visited acc stack st' hwf h
    · dsimp only at h
      split at h
      · simp only [bind, Except.bind] at h
        cases hrv : b.reveal smp n.1 n.2 with
        | error e =>
          rw [hrv] at h
          simp at h
        | ok rb =>
          rw [hrv] at h
          dsimp only at h
          split at h
          · next hcond =>
            have hok : b.reveal smp n.1 n.2 = .ok (true, rb.2) := by
              rw [hrv, ← hcond]
            obtain ⟨hwf2, hrows2, hcols2, hpresk⟩ := reveal_ok_known hwf hok
            obtain ⟨hwfS, hrS, hcS, hpS⟩ := ih _ _ _ _ _ hwf2 h
            refine ⟨hwfS, hrS.trans hrows2, hcS.trans hcols2, ?_⟩
            intro x y hxy
            have hmid := hpresk x y hxy
            rw [hpS x y (by rw [hmid]; exact hxy), hmid]
          · next hcond =>
            have hfalse : rb.1 = false := by
              cases hq : rb.1
              · rfl
              · exact absurd hq hcond
            have hok : b.reveal smp n.1 n.2 = .ok (false, rb.2) := by
              rw [hrv, ← hfalse]
            obtain ⟨hb, -⟩ := reveal_false_spec hok
            rw [hb] at h
            exact ih _ _ _ _ _ hwf h
      · exact ih _ _ _ _ _ hwf h

/-- After the DFS neighbour loop, every processed neighbour is non-unknown
(provided the neighbours are in bounds and the visited cells were already
non-unknown). -/
theorem visitNbrs_processed (smp : Sampler) :
    ∀ (nbrs : List Cell) (b : Board) (visited : Finset Cell) (acc stack : List Cell)
      (st' : dfs.DState), WF b →
      (∀ n ∈ nbrs, n.1 < b.rows ∧ n.2 < b.cols) →
      (∀ v ∈ visited, ¬(b.is_unknown v.1 v.2 = true)) →
      dfs.visitNbrs smp nbrs b visited acc stack = .ok st' →
      ∀ n ∈ nbrs, ¬(st'.b.is_unknown n.1 n.2 = true) := by
  intro nbrs
  induction nbrs with
  | nil =>
    intro b visited acc stack st' _ _ _ _ n hn
    exact absurd hn (List.not_mem_nil n)
  | cons n rest ih =>
    intro b visited acc stack st' hwf hbnd hv h
    rw [dfs.visitNbrs] at h
    split at h
    · next hskip =>
      have hknown : b.get_tile n.1 n.2 ≠ UNKNOWN := by
        rcases hskip with hvm | hfl
        · intro he
          exact hv n hvm (is_unknown_iff.mpr he)
        · rw [Board.is_flagged, decide_eq_true_eq] at hfl
          rw [hfl]
          decide
      have hpres := (visitNbrs_pres smp rest b visited acc stack st' hwf h).2.2.2
      intro n' hn'
      rcases List.mem_cons.mp hn' with rfl | hn'
      · rw [is_unknown_iff, hpres n'.1 n'.2 hknown]
        exact hknown
      · exact ih b visited acc stack st' hwf
          (fun m hm => hbnd m (List.mem_cons_of_mem n hm)) hv h n' hn'
    · next hskip =>
      dsimp only at h
      split at h
      · next hunk =>
        simp only [bind, Except.bind] at h
        cases hrv : b.reveal smp n.1 n.2 with
        | error e =>
          rw [hrv] at h
          simp at h
        | ok rb =>
          rw [hrv] at h
          dsimp only at h
          split at h
          · next hcond =>
            have hok : b.reveal smp n.1 n.2 = .ok (true, rb.2) := by
              rw [hrv, ← hcond]
            obtain ⟨hwf2, hrows2, hcols2, hpresk⟩ := reveal_ok_known hwf hok
            obtain ⟨-, -, -, -, -, -, -, -, -, -, hge, -⟩ := reveal_true_spec hwf hok
            have hnknown : rb.2.get_tile n.1 n.2 ≠ UNKNOWN := by
              intro he
              rw [he] at hge
              exact absurd hge (by decide)
            have hv' : ∀ v ∈ insert n visited, ¬(rb.2.is_unknown v.1 v.2 = true) := by
              intro v hvm
              rcases Finset.mem_insert.mp hvm with rfl | hvm
              · rw [is_unknown_iff]
                exact hnknown
              · intro he
                have hkb : b.get_tile v.1 v.2 ≠ UNKNOWN := by
                  intro hb'
                  exact hv v hvm (is_unknown_iff.mpr hb')
                rw [is_unknown_iff, hpresk v.1 v.2 hkb] at he
                exact hkb he
            have hpresS := (visitNbrs_pres smp rest rb.2 _ _ _ st' hwf2 h).2.2.2
            intro n' hn'
            rcases List.mem_cons.mp hn' with rfl | hn'
            · rw [is_unknown_iff, hpresS n'.1 n'.2 hnknown]
              exact hnknown
            · refine ih rb.2 _ _ _ st' hwf2 ?_ hv' h n' hn'
              intro m hm
              rw [hrows2, hcols2]
              exact hbnd m (List.mem_cons_of_mem n hm)
          · next hcond =>
            have hfalse : rb.1 = false := by
              cases hq : rb.1
              · rfl
              · exact absurd hq hcond
            have hok : b.reveal smp n.1 n.2 = .ok (false, rb.2) := by
              rw [hrv, ← hfalse]
            obtain ⟨-, hdis⟩ := reveal_false_spec hok
            rcases hdis with hb' | htl
            · exact absurd (hbnd n (List.mem_cons_self n rest)) hb'
            · exact absurd (is_unknown_iff.mp hunk) htl
      · next hunk =>
        have hknown : b.get_tile n.1 n.2 ≠ UNKNOWN := by
          intro he
          exact hunk (is_unknown_iff.mpr he)
        have hv' : ∀ v ∈ insert n visited, ¬(b.is_unknown v.1 v.2 = true) := by
          intro v hvm
          rcases Finset.mem_insert.mp hvm with rfl | hvm
          · exact hunk
          · exact hv v hvm
        have hpresS := (visitNbrs_pres smp rest b _ _ _ st' hwf h).2.2.2
        intro n' hn'
        rcases List.mem_cons.mp hn' with rfl | hn'
        · rw [is_unknown_iff, hpresS n'.1 n'.2 hknown]
          exact hknown
        · exact ih b _ _ _ st' hwf
            (fun m hm => hbnd m (List.mem_cons_of_mem n hm)) hv' h n' hn'

/-- When every neighbour is already non-unknown, the DFS neighbour loop
changes nothing but the visited set. -/
theorem visitNbrs_noop (smp : Sampler) :
    ∀ (nbrs : List Cell) (b : Board) (visited : Finset Cell) (acc stack : List Cell),
      (∀ n ∈ nbrs, ¬(b.is_unknown n.1 n.2 = true)) →
      ∃ v', dfs.visitNbrs smp nbrs b visited acc stack = .ok ⟨b, v', acc, stack⟩ := by
  intro nbrs
  induction nbrs with
  | nil =>
    intro b visited acc stack _
    exact ⟨visited, by rw [dfs.visitNbrs]⟩
  | cons n rest ih =>
    intro b visited acc stack hall
    rw [dfs.visitNbrs]
    by_cases hskip : n ∈ visited ∨ b.is_flagged n.1 n.2 = true
    · rw [if_pos hskip]
      exact ih b visited acc stack (fun m hm => hall m (List.mem_cons_of_mem n hm))
    · rw [if_neg hskip]
      dsimp only
      rw [if_neg (hall n (List.mem_cons_self n rest))]
      exact ih b _ acc stack (fun m hm => hall m (List.mem_cons_of_mem n hm))

/-- The DFS stack loop preserves dimensions and known tiles. -/
theorem dfs_loop_pres (smp : Sampler) :
    ∀ (fuel : Nat) (st : dfs.DState) (b1 : Board) (l : List Cell), WF st.b →
      dfs.loop smp fuel st = .ok (some (b1, l)) →
      WF b1 ∧ b1.rows = st.b.rows ∧ b1.cols = st.b.cols ∧
      (∀ x y, st.b.get_tile x y ≠ UNKNOWN → b1.get_tile x y = st.b.get_tile x y) := by
  intro fuel
  induction fuel with
  | zero =>
    intro st b1 l _ h
    rw [dfs.loop] at h
    simp at h
  | succ fuel ih =>
    intro st b1 l hwf h
    rw [dfs.loop] at h
    cases hst : st.stack with
    | nil =>
      rw [hst] at h
      dsimp only at h
      injection h with h
      injection h with h
      rw [Prod.mk.injEq] at h
      obtain ⟨hb, hl⟩ := h
      subst hb
      subst hl
      exact ⟨hwf, rfl, rfl, fun x y _ => rfl⟩
    | cons c rest =>
      rw [hst] at h
      dsimp only at h
      split at h
      · injection h with h
        injection h with h
        rw [Prod.mk.injEq] at h
        obtain ⟨hb, hl⟩ := h
        subst hb
        subst hl
        exact ⟨hwf, rfl, rfl, fun x y _ => rfl⟩
      · simp only [bind, Except.bind] at h
        cases hrv : dfs.visitNbrs smp (st.b.neighbors c.1 c.2) st.b st.visited st.acc rest with
        | error e =>
          rw [hrv] at h
          simp at h
        | ok st2 =>
          rw [hrv] at h
          dsimp only at h
          obtain ⟨hwf2, hr2, hc2, hp2⟩ := visitNbrs_pres smp _ _ _ _ _ _ hwf hrv
          obtain ⟨hwf1, hr1, hc1, hp1⟩ := ih st2 b1 l hwf2 h
          refine ⟨hwf1, hr1.trans hr2, hc1.trans hc2, ?_⟩
          intro x y hxy
          have hmid := hp2 x y hxy
          rw [hp1 x y (by rw [hmid]; exact hxy), hmid]

/-- C10: expansion is idempotent.  A second BFS (or DFS) run from the same
origin immediately after a successful first run returns the first run's
board unchanged together with an empty list of newly revealed cells. -/
theorem C10_theorem :
    (∀ (smp : Sampler) (b : Board) (i j : Nat) (b1 : Board) (l1 : List Cell),
      WF b → bfs.bfs_reveal smp b i j = .ok (some (b1, l1)) →
      bfs.bfs_reveal smp b1 i j = .ok (some (b1, []))) ∧
    (∀ (smp : Sampler) (b : Board) (i j : Nat) (b1 : Board) (l1 : List Cell),
      WF b → dfs.dfs_reveal smp b i j = .ok (some (b1, l1)) →
      dfs.dfs_reveal smp b1 i j = .ok (some (b1, []))) := by
  constructor
  · intro smp b i j b1 l1 hwf h
    unfold bfs.bfs_reveal at h
    split at h
    · next hg =>
      injection h with h
      injection h with h
      rw [Prod.mk.injEq] at h
      obtain ⟨hb, -⟩ := h
      subst hb
      unfold bfs.bfs_reveal
      rw [if_pos hg]
    · next hg =>
      split at h
      · next hbnd =>
        injection h with h
        injection h with h
        rw [Prod.mk.injEq] at h
        obtain ⟨hb, -⟩ := h
        subst hb
        unfold bfs.bfs_reveal
        rw [if_neg hg, if_pos hbnd]
      · next hbnd =>
        split at h
        · next hfl =>
          injection h with h
          injection h with h
          rw [Prod.mk.injEq] at h
          obtain ⟨hb, -⟩ := h
          subst hb
          unfold bfs.bfs_reveal
          rw [if_neg hg, if_neg hbnd, if_pos hfl]
        · next hfl =>
          split at h
          · next ht =>
            injection h with h
            injection h with h
            rw [Prod.mk.injEq] at h
            obtain ⟨hb, -⟩ := h
            subst hb
            unfold bfs.bfs_reveal
            rw [if_neg hg, if_neg hbnd, if_neg hfl, if_pos ht]
          · next ht =>
            have ht0 : b.get_tile i j = 0 := not_not.mp ht
            have hbnd' : i < b.rows ∧ j < b.cols := not_not.mp hbnd
            simp only [bind, Except.bind] at h
            split at h
            · next hnr =>
              exfalso
              apply hnr
              simp [Board.is_revealed, ht0, FLAGGED]
            · simp only [pure, Except.pure] at h
              have hq0 : ∀ c ∈ (b.neighbors i j).filter
                  (fun n => b.is_unknown n.1 n.2 &&
                    decide (n ∉ ({(i, j)} : Finset Cell))),
                  c.1 < b.rows ∧ c.2 < b.cols := by
                intro c hc
                exact (mem_neighbors_spec (List.mem_filter.mp hc).1).1
              have hv0 : ∀ v ∈ ({(i, j)} : Finset Cell),
                  ¬(b.is_unknown v.1 v.2 = true) := by
                intro v hv
                rw [Finset.mem_singleton] at hv
                subst hv
                rw [is_unknown_iff, ht0]
                decide
              obtain ⟨hwf1, hr1, hc1, hpres1, hdisj⟩ :=
                bfs_loop_idem smp _ b _ _ [] b1 l1 hwf hq0 hv0 h
              by_cases hgo1 : b1.game_over = true
              · unfold bfs.bfs_reveal
                rw [if_pos hgo1]
              · have hall := hdisj.resolve_left hgo1
                have htile1 : b1.get_tile i j = 0 := by
                  rw [hpres1 i j (by rw [ht0]; decide), ht0]
                unfold bfs.bfs_reveal
                rw [if_neg hgo1, if_neg (not_not_intro
                  ⟨by rw [hr1]; exact hbnd'.1, by rw [hc1]; exact hbnd'.2⟩)]
                rw [if_neg (show ¬(b1.is_flagged i j = true) from by
                  simp [Board.is_flagged, htile1, FLAGGED])]
                rw [if_neg (not_not_intro htile1)]
                simp only [bind, Except.bind]
                rw [if_neg (not_not_intro (show b1.is_revealed i j = true from by
                  simp [Board.is_revealed, htile1, FLAGGED]))]
                simp only [pure, Except.pure]
                have hq1 : (b1.neighbors i j).filter
                    (fun n => b1.is_unknown n.1 n.2 &&
                      decide (n ∉ ({(i, j)} : Finset Cell))) = [] := by
                  rw [List.filter_eq_nil_iff]
                  intro n hn hp
                  rw [Bool.and_eq_true] at hp
                  have hu1 := hp.1
                  have hub : b.get_tile n.1 n.2 = UNKNOWN := by
                    by_contra hne
                    rw [is_unknown_iff, hpres1 n.1 n.2 hne] at hu1
                    exact hne hu1
                  rw [neighbors_congr hr1 hc1 i j] at hn
                  have hne_ij : n ≠ (i, j) := (mem_neighbors_spec hn).2
                  have hnq : n ∈ (b.neighbors i j).filter
                      (fun m => b.is_unknown m.1 m.2 &&
                        decide (m ∉ ({(i, j)} : Finset Cell))) := by
                    rw [List.mem_filter]
                    refine ⟨hn, ?_⟩
                    rw [Bool.and_eq_true]
                    refine ⟨is_unknown_iff.mpr hub, ?_⟩
                    rw [decide_eq_true_eq]
                    intro hmem
                    exact hne_ij (Finset.mem_singleton.mp hmem)
                  exact absurd hu1 (hall n hnq)
                rw [hq1]
                exact bfs_loop_nil smp _ b1 {(i, j)} [] (by omega)
  · intro smp b i j b1 l1 hwf h
    unfold dfs.dfs_reveal at h
    split at h
    · next hg =>
      injection h with h
      injection h with h
      rw [Prod.mk.injEq] at h
      obtain ⟨hb, -⟩ := h
      subst hb
      unfold dfs.dfs_reveal
      rw [if_pos hg]
    · next hg =>
      split at h
      · next hbnd =>
        injection h with h
        injection h with h
        rw [Prod.mk.injEq] at h
        obtain ⟨hb, -⟩ := h
        subst hb
        unfold dfs.dfs_reveal
        rw [if_neg hg, if_pos hbnd]
      · next hbnd =>
        split at h
        · next hfl =>
          injection h with h
          injection h with h
          rw [Prod.mk.injEq] at h
          obtain ⟨hb, -⟩ := h
          subst hb
          unfold dfs.dfs_reveal
          rw [if_neg hg, if_neg hbnd, if_pos hfl]
        · next hfl =>
          split at h
          · next ht =>
            injection h with h
            injection h with h
            rw [Prod.mk.injEq] at h
            obtain ⟨hb, -⟩ := h
            subst hb
            unfold dfs.dfs_reveal
            rw [if_neg hg, if_neg hbnd, if_neg hfl, if_pos ht]
          · next ht =>
            have ht0 : b.get_tile i j = 0 := not_not.mp ht
            have hbnd' : i < b.rows ∧ j < b.cols := not_not.mp hbnd
            simp only [bind, Except.bind] at h
            split at h
            · next hnr =>
              exfalso
              apply hnr
              simp [Board.is_revealed, ht0, FLAGGED]
            · simp only [pure, Except.pure] at h
              have hv0 : ∀ v ∈ ({(i, j)} : Finset Cell),
                  ¬(b.is_unknown v.1 v.2 = true) := by
                intro v hv
                rw [Finset.mem_singleton] at hv
                subst hv
                rw [is_unknown_iff, ht0]
                decide
              obtain ⟨n1, hn1⟩ : ∃ n, b.rows * b.cols + 2 = n + 1 :=
                ⟨b.rows * b.cols + 1, rfl⟩
              rw [hn1] at h
              rw [dfs.loop] at h
              dsimp only at h
              rw [if_neg hg] at h
              simp only [bind, Except.bind] at h
              cases hrv : dfs.visitNbrs smp (b.neighbors i j) b {(i, j)} [] [] with
              | error e =>
                rw [hrv] at h
                simp at h
              | ok st1 =>
                rw [hrv] at h
                dsimp only at h
                obtain ⟨hwfS, hrS, hcS, hpS⟩ := visitNbrs_pres smp _ _ _ _ _ _ hwf hrv
                have hproc := visitNbrs_processed smp _ b {(i, j)} [] [] st1 hwf
                  (fun n hn => (mem_neighbors_spec hn).1) hv0 hrv
                obtain ⟨hwf1, hr1, hc1, hp1⟩ := dfs_loop_pres smp n1 st1 b1 l1 hwfS h
                have hrb : b1.rows = b.rows := hr1.trans hrS
                have hcb : b1.cols = b.cols := hc1.trans hcS
                have hpres : ∀ x y, b.get_tile x y ≠ UNKNOWN →
                    b1.get_tile x y = b.get_tile x y := by
                  intro x y hxy
                  have hmid := hpS x y hxy
                  rw [hp1 x y (by rw [hmid]; exact hxy), hmid]
                have hallb1 : ∀ n ∈ b.neighbors i j,
                    ¬(b1.is_unknown n.1 n.2 = true) := by
                  intro n hn he
                  have h1 := hproc n hn
                  have hk : st1.b.get_tile n.1 n.2 ≠ UNKNOWN :=
                    fun hk => h1 (is_unknown_iff.mpr hk)
                  rw [is_unknown_iff, hp1 n.1 n.2 hk] at he
                  exact hk he
                by_cases hgo1 : b1.game_over = true
                · unfold dfs.dfs_reveal
                  rw [if_pos hgo1]
                · have htile1 : b1.get_tile i j = 0 := by
                    rw [hpres i j (by rw [ht0]; decide), ht0]
                  unfold dfs.dfs_reveal
                  rw [if_neg hgo1, if_neg (not_not_intro
                    ⟨by rw [hrb]; exact hbnd'.1, by rw [hcb]; exact hbnd'.2⟩)]
                  rw [if_neg (show ¬(b1.is_flagged i j = true) from by
                    simp [Board.is_flagged, htile1, FLAGGED])]
                  rw [if_neg (not_not_intro htile1)]
                  simp only [bind, Except.bind]
                  rw [if_neg (not_not_intro (show b1.is_revealed i j = true from by
                    simp [Board.is_revealed, htile1, FLAGGED]))]
                  simp only [pure, Except.pure]
                  obtain ⟨m, hm⟩ : ∃ m, b1.rows * b1.cols + 2 = m + 1 :=
                    ⟨b1.rows * b1.cols + 1, rfl⟩
                  rw [hm, dfs.loop]
                  dsimp only
                  rw [if_neg hgo1]
                  simp only [bind, Except.bind]
                  obtain ⟨v', hvn⟩ := visitNbrs_noop smp (b1.neighbors i j) b1
                    {(i, j)} [] [] (by
                      intro n hn
                      rw [neighbors_congr hrb hcb i j] at hn
                      exact hallb1 n hn)
                  rw [hvn]
                  dsimp only
                  exact dfs_loop_nil smp m b1 v' [] (by omega)

set_option maxRecDepth 1000000 in
theorem C10_witness :
    bfs.bfs_reveal takeSampler bC10bfsB 1 1 = .ok (some (bC10bfsB, [])) ∧
    dfs.dfs_reveal takeSampler bC10dfsB 1 1 = .ok (some (bC10dfsB, [])) :=
  ⟨C10_theorem.1 takeSampler bC10 1 1 bC10bfsB bC10bfsL ⟨by decide, by decide⟩ rfl,
   C10_theorem.2 takeSampler bC10 1 1 bC10dfsB bC10dfsL ⟨by decide, by decide⟩ rfl⟩

theorem C5_witness :
    (WF bC5 ∧ (∀ c ∈ bC5bfsL, bC5bfsB.get_tile c.1 c.2 ≠ 9)) ∧
    (bC5.game_over = false ∧ bC5dfsB.game_over = true ∧
      ∃ c ∈ bC5dfsL, bC5dfsB.get_tile c.1 c.2 = 9) :=
  ⟨⟨⟨by decide, by decide⟩,
     C5_theorem.1 takeSampler bC5 0 0 bC5bfsB bC5bfsL ⟨by decide, by decide⟩ rfl⟩,
   ⟨by decide, by decide,
     C5_theorem.2 takeSampler bC5 0 0 bC5dfsB bC5dfsL ⟨by decide, by decide⟩
       (by decide) rfl (by decide)⟩⟩

/-! ## Claim C6: SAT output versus CSP output -/

theorem mineCount_nonneg (f : Cell → Bool) (U : Finset Cell) : 0 ≤ mineCount f U :=
  Int.ofNat_nonneg _

theorem mineCount_congr {f g : Cell → Bool} {U : Finset Cell}
    (h : ∀ c ∈ U, f c = g c) : mineCount f U = mineCount g U := by
  unfold mineCount
  congr 1
  exact congrArg _ (Finset.filter_congr (fun c hc => by rw [h c hc]))

theorem mineCount_eq_zero {f : Cell → Bool} {U : Finset Cell}
    (h : mineCount f U = 0) : ∀ x ∈ U, f x = false := by
  unfold mineCount at h
  rw [Int.natCast_eq_zero, Finset.card_eq_zero] at h
  intro x hx
  cases hfx : f x with
  | false => rfl
  | true =>
    exfalso
    have : x ∈ U.filter (fun c => f c = true) := Finset.mem_filter.mpr ⟨hx, hfx⟩
    rw [h] at this
    exact Finset.not_mem_empty x this

theorem mineCount_eq_card {f : Cell → Bool} {U : Finset Cell}
    (h : mineCount f U = (U.card : Int)) : ∀ x ∈ U, f x = true := by
  unfold mineCount at h
  rw [Int.natCast_inj] at h
  have hsub : U.filter (fun c => f c = true) = U :=
    Finset.eq_of_subset_of_card_le (Finset.filter_subset _ U) (le_of_eq h.symm)
  intro x hx
  rw [← hsub] at hx
  exact (Finset.mem_filter.mp hx).2

theorem mineCount_sdiff {f : Cell → Bool} {S L : Finset Cell} (h : S ⊆ L) :
    mineCount f (L \ S) = mineCount f L - mineCount f S := by
  unfold mineCount
  have hfs : (L \ S).filter (fun c => f c = true)
      = L.filter (fun c => f c = true) \ S.filter (fun c => f c = true) := by
    ext c
    simp only [Finset.mem_filter, Finset.mem_sdiff]
    tauto
  rw [hfs, Finset.card_sdiff (Finset.filter_subset_filter _ h)]
  rw [Nat.cast_sub (Finset.card_le_card (Finset.filter_subset_filter _ h))]

theorem mem_foldl_union (x : Cell) :
    ∀ (l : List (Finset Cell × Finset Cell)) (init : Finset Cell × Finset Cell),
      (x ∈ (l.foldl (fun acc pr => (acc.1 ∪ pr.1, acc.2 ∪ pr.2)) init).1 ↔
        x ∈ init.1 ∨ ∃ pr ∈ l, x ∈ pr.1) ∧
      (x ∈ (l.foldl (fun acc pr => (acc.1 ∪ pr.1, acc.2 ∪ pr.2)) init).2 ↔
        x ∈ init.2 ∨ ∃ pr ∈ l, x ∈ pr.2) := by
  intro l
  induction l with
  | nil =>
    intro init
    simp
  | cons pr rest ih =>
    intro init
    rw [List.foldl_cons]
    refine ⟨((ih _).1).trans ?_, ((ih _).2).trans ?_⟩
    · constructor
      · rintro (h | ⟨pr', hpr', hx⟩)
        · rcases Finset.mem_union.mp h with h | h
          · exact Or.inl h
          · exact Or.inr ⟨pr, List.mem_cons_self pr rest, h⟩
        · exact Or.inr ⟨pr', List.mem_cons_of_mem pr hpr', hx⟩
      · rintro (h | ⟨pr', hpr', hx⟩)
        · exact Or.inl (Finset.mem_union_left _ h)
        · rcases List.mem_cons.mp hpr' with rfl | hpr'
          · exact Or.inl (Finset.mem_union_right _ hx)
          · exact Or.inr ⟨pr', hpr', hx⟩
    · constructor
      · rintro (h | ⟨pr', hpr', hx⟩)
        · rcases Finset.mem_union.mp h with h | h
          · exact Or.inl h
          · exact Or.inr ⟨pr, List.mem_cons_self pr rest, h⟩
        · exact Or.inr ⟨pr', List.mem_cons_of_mem pr hpr', hx⟩
      · rintro (h | ⟨pr', hpr', hx⟩)
        · exact Or.inl (Finset.mem_union_left _ h)
        · rcases List.mem_cons.mp hpr' with rfl | hpr'
          · exact Or.inl (Finset.mem_union_right _ hx)
          · exact Or.inr ⟨pr', hpr', hx⟩

theorem subimp_subset (p q : csp.Constraint) :
    (csp.subset_implications p q).1 ⊆ q.unknown_neighbors ∧
    (csp.subset_implications p q).2 ⊆ q.unknown_neighbors := by
  unfold csp.subset_implications
  dsimp only
  split
  · exact ⟨Finset.empty_subset _, Finset.empty_subset _⟩
  · split
    · split
      · exact ⟨Finset.empty_subset _, Finset.empty_subset _⟩
      · split
        · exact ⟨Finset.empty_subset _, Finset.empty_subset _⟩
        · split
          · exact ⟨Finset.sdiff_subset, Finset.empty_subset _⟩
          · split
            · exact ⟨Finset.empty_subset _, Finset.sdiff_subset⟩
            · exact ⟨Finset.empty_subset _, Finset.empty_subset _⟩
    · exact ⟨Finset.empty_subset _, Finset.empty_subset _⟩

theorem subimp_sound (p q : csp.Constraint) (g : Cell → Bool)
    (hp : mineCount g p.unknown_neighbors = p.required_mines)
    (hq : mineCount g q.unknown_neighbors = q.required_mines) :
    (∀ x ∈ (csp.subset_implications p q).1, g x = false) ∧
    (∀ x ∈ (csp.subset_implications p q).2, g x = true) := by
  unfold csp.subset_implications
  dsimp only
  split
  · exact ⟨fun x hx => absurd hx (Finset.not_mem_empty x),
      fun x hx => absurd hx (Finset.not_mem_empty x)⟩
  · split
    · next hsub =>
      split
      · exact ⟨fun x hx => absurd hx (Finset.not_mem_empty x),
          fun x hx => absurd hx (Finset.not_mem_empty x)⟩
      · have hdiff : mineCount g (q.unknown_neighbors \ p.unknown_neighbors)
            = q.required_mines - p.required_mines := by
          rw [mineCount_sdiff hsub, hp, hq]
        split
        · exact ⟨fun x hx => absurd hx (Finset.not_mem_empty x),
            fun x hx => absurd hx (Finset.not_mem_empty x)⟩
        · split
          · next h0 =>
            refine ⟨?_, fun x hx => absurd hx (Finset.not_mem_empty x)⟩
            exact mineCount_eq_zero (by rw [hdiff, h0])
          · split
            · next hcard =>
              refine ⟨fun x hx => absurd hx (Finset.not_mem_empty x), ?_⟩
              exact mineCount_eq_card (by rw [hdiff, hcard])
            · exact ⟨fun x hx => absurd hx (Finset.not_mem_empty x),
                fun x hx => absurd hx (Finset.not_mem_empty x)⟩
    · exact ⟨fun x hx => absurd hx (Finset.not_mem_empty x),
        fun x hx => absurd hx (Finset.not_mem_empty x)⟩

/-- Soundness of the CSP engine: under any assignment that satisfies every
extracted constraint exactly, the cells CSP lists as safe carry no mine and
the cells it lists as mines do; moreover each listed cell occurs in some
constraint. -/
theorem csp_infer_sound (b : Board) (g : Cell → Bool)
    (hg : ∀ C ∈ csp.extract_constraints b,
      mineCount g C.unknown_neighbors = C.required_mines) :
    (∀ x ∈ (csp.infer b).1,
      (∃ C ∈ csp.extract_constraints b, x ∈ C.unknown_neighbors) ∧ g x = false) ∧
    (∀ x ∈ (csp.infer b).2,
      (∃ C ∈ csp.extract_constraints b, x ∈ C.unknown_neighbors) ∧ g x = true) := by
  rw [csp.infer]
  dsimp only
  constructor
  · intro x hx
    rw [List.mem_dedup, List.mem_append] at hx
    rcases hx with hx | hx
    · rw [List.mem_flatMap] at hx
      obtain ⟨C, hC, hxC⟩ := hx
      by_cases h1 : C.unknown_neighbors = ∅
      · rw [if_pos h1] at hxC
        cases hxC
      · rw [if_neg h1] at hxC
        by_cases h2 : C.required_mines = 0
        · rw [if_pos h2] at hxC
          rw [mem_toCellList] at hxC
          exact ⟨⟨C, hC, hxC⟩, mineCount_eq_zero (by rw [hg C hC, h2]) x hxC⟩
        · rw [if_neg h2] at hxC
          cases hxC
    · rw [mem_toCellList] at hx
      rw [csp.infer_from_subset_relationships] at hx
      rcases ((mem_foldl_union x _ _).1.mp hx) with hx | ⟨pr, hpr, hxpr⟩
      · exact absurd hx (Finset.not_mem_empty x)
      · rw [List.mem_flatMap] at hpr
        obtain ⟨p, hp, hpr⟩ := hpr
        rw [List.mem_map] at hpr
        obtain ⟨q, hq, rfl⟩ := hpr
        have hpc := (List.mem_filter.mp hp).1
        have hqc := (List.mem_filter.mp hq).1
        exact ⟨⟨q, hqc, (subimp_subset p q).1 hxpr⟩,
          (subimp_sound p q g (hg p hpc) (hg q hqc)).1 x hxpr⟩
  · intro x hx
    rw [List.mem_dedup, List.mem_append] at hx
    rcases hx with hx | hx
    · rw [List.mem_flatMap] at hx
      obtain ⟨C, hC, hxC⟩ := hx
      by_cases h1 : C.unknown_neighbors = ∅
      · rw [if_pos h1] at hxC
        cases hxC
      · rw [if_neg h1] at hxC
        by_cases h2 : C.required_mines = 0
        · rw [if_pos h2] at hxC
          cases hxC
        · rw [if_neg h2] at hxC
          by_cases h3 : C.required_mines = (C.unknown_neighbors.card : Int)
          · rw [if_pos h3] at hxC
            rw [mem_toCellList] at hxC
            exact ⟨⟨C, hC, hxC⟩, mineCount_eq_card (by rw [hg C hC, h3]) x hxC⟩
          · rw [if_neg h3] at hxC
            cases hxC
    · rw [mem_toCellList] at hx
      rw [csp.infer_from_subset_relationships] at hx
      rcases ((mem_foldl_union x _ _).2.mp hx) with hx | ⟨pr, hpr, hxpr⟩
      · exact absurd hx (Finset.not_mem_empty x)
      · rw [List.mem_flatMap] at hpr
        obtain ⟨p, hp, hpr⟩ := hpr
        rw [List.mem_map] at hpr
        obtain ⟨q, hq, rfl⟩ := hpr
        have hpc := (List.mem_filter.mp hp).1
        have hqc := (List.mem_filter.mp hq).1
        exact ⟨⟨q, hqc, (subimp_subset p q).2 hxpr⟩,
          (subimp_sound p q g (hg p hpc) (hg q hqc)).2 x hxpr⟩

theorem filterMap_congr_mem {α β : Type} {f g : α → Option β} :
    ∀ {l : List α}, (∀ a ∈ l, f a = g a) → l.filterMap f = l.filterMap g := by
  intro l
  induction l with
  | nil => intro _; rfl
  | cons a rest ih =>
    intro h
    rw [List.filterMap_cons, List.filterMap_cons, h a (List.mem_cons_self a rest),
      ih (fun a' ha' => h a' (List.mem_cons_of_mem a ha'))]

/-- When no revealed zero has unknown neighbours, the SAT extraction is the
CSP extraction with the centres dropped. -/
theorem extract_map (b : Board)
    (hz : ∀ c ∈ b.revealed_cells, b.get_tile c.1 c.2 = 0 →
      (b.neighbors c.1 c.2).filter (fun n => b.is_unknown n.1 n.2) = []) :
    sat.extract_constraints b = (csp.extract_constraints b).map
      (fun C => (C.unknown_neighbors, C.required_mines)) := by
  rw [sat.extract_constraints, csp.extract_constraints, List.map_filterMap]
  apply filterMap_congr_mem
  intro c hc
  dsimp only
  simp only [ne_eq]
  by_cases hv9 : b.get_tile c.1 c.2 = 9
  · rw [if_pos (Or.inr hv9), if_pos (Or.inr hv9)]
    rfl
  · by_cases hvneg : b.get_tile c.1 c.2 < 0
    · rw [if_pos (Or.inl (le_of_lt hvneg)), if_pos (Or.inl hvneg)]
      rfl
    · by_cases hv0 : b.get_tile c.1 c.2 = 0
      · have hUz : ((b.neighbors c.1 c.2).filter
            (fun n => b.is_unknown n.1 n.2)).toFinset = ∅ := by
          rw [hz c hc hv0]
          exact List.toFinset_nil
        have hneg : ¬(b.get_tile c.1 c.2 < 0 ∨ b.get_tile c.1 c.2 = 9) := by
          rintro (h | h)
          · exact hvneg h
          · exact hv9 h
        rw [if_pos (Or.inl (le_of_eq hv0)), if_neg hneg]
        rw [if_neg (not_not_intro hUz)]
        rfl
      · have hpos : 0 < b.get_tile c.1 c.2 :=
          lt_of_le_of_ne (not_lt.mp hvneg) (Ne.symm hv0)
        have hneg1 : ¬(b.get_tile c.1 c.2 ≤ 0 ∨ b.get_tile c.1 c.2 = 9) := by
          rintro (h | h)
          · exact absurd hpos (not_lt.mpr h)
          · exact hv9 h
        have hneg2 : ¬(b.get_tile c.1 c.2 < 0 ∨ b.get_tile c.1 c.2 = 9) := by
          rintro (h | h)
          · exact absurd hpos (lt_asymm h)
          · exact hv9 h
        rw [if_neg hneg1, if_neg hneg2]
        by_cases hU : ((b.neighbors c.1 c.2).filter
            (fun n => b.is_unknown n.1 n.2)).toFinset = ∅
        · rw [if_pos hU, if_neg (not_not_intro hU)]
          rfl
        · rw [if_neg hU, if_pos hU]
          have hcard : (0 : Int) ≤ (((b.neighbors c.1 c.2).filter
              (fun n => b.is_unknown n.1 n.2)).toFinset.card : Int) :=
            Int.ofNat_nonneg _
          rw [Option.map_some']
          congr 1
          rw [csp.mkConstraint]
          dsimp only
          congr 1
          omega

/-- The exact-satisfaction predicates of the two extractions coincide. -/
theorem sat_csp_assign (b : Board)
    (hz : ∀ c ∈ b.revealed_cells, b.get_tile c.1 c.2 = 0 →
      (b.neighbors c.1 c.2).filter (fun n => b.is_unknown n.1 n.2) = [])
    (g : Cell → Bool) :
    (∀ s ∈ sat.extract_constraints b, mineCount g s.1 = s.2) ↔
    (∀ C ∈ csp.extract_constraints b,
      mineCount g C.unknown_neighbors = C.required_mines) := by
  rw [extract_map b hz]
  constructor
  · intro h C hC
    exact h (C.unknown_neighbors, C.required_mines) (List.mem_map.mpr ⟨C, hC, rfl⟩)
  · intro h s hs
    rw [List.mem_map] at hs
    obtain ⟨C, hC, rfl⟩ := hs
    exact h C hC

/-- Bounds the SAT extraction guarantees for each constraint. -/
theorem sat_extract_spec (b : Board) : ∀ s ∈ sat.extract_constraints b,
    0 ≤ s.2 ∧ s.2 ≤ (s.1.card : Int) ∧ s.1 ≠ ∅ := by
  intro s hs
  rw [sat.extract_constraints, List.mem_filterMap] at hs
  obtain ⟨c, hc, hf⟩ := hs
  dsimp only at hf
  split at hf
  · cases hf
  · split at hf
    · cases hf
    · next hU =>
      injection hf with hf
      subst hf
      refine ⟨?_, ?_, hU⟩
      · exact le_max_left 0 _
      · have hcard : (0 : Int) ≤ (((b.neighbors c.1 c.2).filter
            (fun n => b.is_unknown n.1 n.2)).toFinset.card : Int) :=
          Int.ofNat_nonneg _
        dsimp only
        omega

theorem mem_adjacency (cs : List sat.SConstraint) (x y : Cell) :
    y ∈ sat.adjacency cs x ↔ ∃ c ∈ cs, x ∈ c.1 ∧ y ∈ c.1.erase x := by
  unfold sat.adjacency
  suffices h : ∀ acc : Finset Cell,
      (y ∈ cs.foldl (fun acc c => if x ∈ c.1 then acc ∪ c.1.erase x else acc) acc ↔
        y ∈ acc ∨ ∃ c ∈ cs, x ∈ c.1 ∧ y ∈ c.1.erase x) by
    rw [h ∅]
    simp
  intro acc
  induction cs generalizing acc with
  | nil => simp
  | cons c rest ih =>
    rw [List.foldl_cons]
    by_cases hx : x ∈ c.1
    · rw [if_pos hx, ih]
      constructor
      · rintro (h | ⟨c', hc', hx', hy'⟩)
        · rcases Finset.mem_union.mp h with h | h
          · exact Or.inl h
          · exact Or.inr ⟨c, List.mem_cons_self c rest, hx, h⟩
        · exact Or.inr ⟨c', List.mem_cons_of_mem c hc', hx', hy'⟩
      · rintro (h | ⟨c', hc', hx', hy'⟩)
        · exact Or.inl (Finset.mem_union_left _ h)
        · rcases List.mem_cons.mp hc' with rfl | hc'
          · exact Or.inl (Finset.mem_union_right _ hy')
          · exact Or.inr ⟨c', hc', hx', hy'⟩
    · rw [if_neg hx, ih]
      constructor
      · rintro (h | ⟨c', hc', hx', hy'⟩)
        · exact Or.inl h
        · exact Or.inr ⟨c', List.mem_cons_of_mem c hc', hx', hy'⟩
      · rintro (h | ⟨c', hc', hx', hy'⟩)
        · exact Or.inl h
        · rcases List.mem_cons.mp hc' with rfl | hc'
          · exact absurd hx' hx
          · exact Or.inr ⟨c', hc', hx', hy'⟩

theorem adjacency_symm {cs : List sat.SConstraint} {x y : Cell}
    (h : y ∈ sat.adjacency cs x) : x ∈ sat.adjacency cs y := by
  rw [mem_adjacency] at h ⊢
  obtain ⟨c, hc, hx, hy⟩ := h
  have hyne := Finset.mem_erase.mp hy
  exact ⟨c, hc, hyne.2, Finset.mem_erase.mpr ⟨fun he => hyne.1 he.symm, hx⟩⟩

theorem mem_allConstraintCells {cs : List sat.SConstraint} {x : Cell} :
    x ∈ (sat.allConstraintCells cs).toFinset ↔ ∃ c ∈ cs, x ∈ c.1 := by
  unfold sat.allConstraintCells
  rw [List.mem_toFinset, List.mem_dedup, List.mem_flatMap]
  constructor
  · rintro ⟨c, hc, hx⟩
    exact ⟨c, hc, mem_toCellList.mp hx⟩
  · rintro ⟨c, hc, hx⟩
    exact ⟨c, hc, mem_toCellList.mpr hx⟩

theorem adjacency_subset (cs : List sat.SConstraint) (x : Cell) :
    sat.adjacency cs x ⊆ (sat.allConstraintCells cs).toFinset := by
  intro y hy
  rw [mem_adjacency] at hy
  obtain ⟨c, hc, _, hy⟩ := hy
  exact mem_allConstraintCells.mpr ⟨c, hc, (Finset.mem_erase.mp hy).2⟩

theorem adjKeys_subset (cs : List sat.SConstraint) :
    ∀ k ∈ sat.adjKeys cs, k ∈ (sat.allConstraintCells cs).toFinset := by
  intro k hk
  unfold sat.adjKeys at hk
  rw [List.mem_dedup, List.mem_flatMap] at hk
  obtain ⟨c, hc, hkc⟩ := hk
  by_cases h2 : 2 ≤ c.1.card
  · rw [if_pos h2] at hkc
    exact mem_allConstraintCells.mpr ⟨c, hc, mem_toCellList.mp hkc⟩
  · rw [if_neg h2] at hkc
    cases hkc

theorem mem_adjKeys {cs : List sat.SConstraint} {x : Cell} (c : sat.SConstraint)
    (hc : c ∈ cs) (hx : x ∈ c.1) (h2 : 2 ≤ c.1.card) : x ∈ sat.adjKeys cs := by
  unfold sat.adjKeys
  rw [List.mem_dedup, List.mem_flatMap]
  exact ⟨c, hc, by rw [if_pos h2]; exact mem_toCellList.mpr hx⟩

/-- Full description of a drained flood run: `visited` gains exactly the new
block, the block is closed under adjacency, the start cells end up visited,
and everything stays inside the universe `S`.  The fuel hypothesis (the
potential is below the fuel) guarantees the queue drains. -/
theorem flood_full (adj : Cell → Finset Cell) (S : Finset Cell)
    (hadjS : ∀ x, adj x ⊆ S) :
    ∀ (fuel : Nat) (q : List Cell) (v bl : Finset Cell),
      (∀ c ∈ q, c ∈ S) → v ⊆ S → bl ⊆ S →
      (S.card - v.card) * (S.card + 1) + q.length < fuel →
      (∀ x ∈ bl, ∀ y ∈ adj x, y ∈ v ∨ y ∈ q) →
      v ⊆ (sat.flood adj fuel q v bl).1 ∧
      (sat.flood adj fuel q v bl).1 ⊆ v ∪ (sat.flood adj fuel q v bl).2 ∧
      bl ⊆ (sat.flood adj fuel q v bl).2 ∧
      (sat.flood adj fuel q v bl).2 ⊆ bl ∪ ((sat.flood adj fuel q v bl).1 \ v) ∧
      (∀ x ∈ (sat.flood adj fuel q v bl).2, ∀ y ∈ adj x,
        y ∈ (sat.flood adj fuel q v bl).1) ∧
      (sat.flood adj fuel q v bl).1 ⊆ S ∧
      (∀ c ∈ q, c ∈ (sat.flood adj fuel q v bl).1) := by
  intro fuel
  induction fuel with
  | zero =>
    intro q v bl _ _ _ hf _
    exact absurd hf (by omega)
  | succ n ih =>
    intro q v bl hq hv hbl hf hI
    cases q with
    | nil =>
      rw [sat.flood]
      refine ⟨Finset.Subset.refl v, Finset.subset_union_left, Finset.Subset.refl bl,
        Finset.subset_union_left, ?_, hv, fun c hc => absurd hc (List.not_mem_nil c)⟩
      intro x hx y hy
      rcases hI x hx y hy with h | h
      · exact h
      · exact absurd h (List.not_mem_nil y)
    | cons c rest =>
      rw [sat.flood]
      have hcS : c ∈ S := hq c (List.mem_cons_self c rest)
      by_cases hc : c ∈ v
      · rw [if_pos hc]
        have hf' : (S.card - v.card) * (S.card + 1) + rest.length < n := by
          rw [List.length_cons] at hf
          omega
        obtain ⟨A1, A2, A3, A4, A5, A6, A8⟩ := ih rest v bl
          (fun c' hc' => hq c' (List.mem_cons_of_mem c hc')) hv hbl hf'
          (by
            intro x hx y hy
            rcases hI x hx y hy with h | h
            · exact Or.inl h
            · rcases List.mem_cons.mp h with rfl | h
              · exact Or.inl hc
              · exact Or.inr h)
        refine ⟨A1, A2, A3, A4, A5, A6, ?_⟩
        intro c' hc'
        rcases List.mem_cons.mp hc' with rfl | hc'
        · exact A1 hc
        · exact A8 c' hc'
      · rw [if_neg hc]
        have hvins : insert c v ⊆ S := Finset.insert_subset hcS hv
        have hcard1 : (insert c v).card = v.card + 1 := Finset.card_insert_of_not_mem hc
        have hvlt : v.card + 1 ≤ S.card := by
          rw [← hcard1]
          exact Finset.card_le_card hvins
        have hflen : ((toCellList (adj c)).filter
            (fun n => decide (n ∉ v))).length ≤ S.card := by
          calc ((toCellList (adj c)).filter (fun n => decide (n ∉ v))).length
              ≤ (toCellList (adj c)).length := List.length_filter_le _ _
            _ = (adj c).card := toCellList_length (adj c)
            _ ≤ S.card := Finset.card_le_card (hadjS c)
        have hf' : (S.card - (insert c v).card) * (S.card + 1)
            + (rest ++ (toCellList (adj c)).filter (fun n => decide (n ∉ v))).length
            < n := by
          obtain ⟨a, ha⟩ : ∃ a, S.card - v.card = a + 1 := ⟨S.card - v.card - 1, by omega⟩
          have ha2 : S.card - (insert c v).card = a := by
            rw [hcard1]
            omega
          have hexp : (a + 1) * (S.card + 1) = a * (S.card + 1) + (S.card + 1) := by
            ring
          rw [ha2, List.length_append]
          rw [List.length_cons, ha, hexp] at hf
          omega
        have hqS : ∀ c' ∈ rest ++ (toCellList (adj c)).filter
            (fun n => decide (n ∉ v)), c' ∈ S := by
          intro c' hc'
          rcases List.mem_append.mp hc' with hc' | hc'
          · exact hq c' (List.mem_cons_of_mem c hc')
          · exact hadjS c (mem_toCellList.mp (List.mem_filter.mp hc').1)
        have hI' : ∀ x ∈ insert c bl, ∀ y ∈ adj x,
            y ∈ insert c v ∨ y ∈ rest ++ (toCellList (adj c)).filter
              (fun n => decide (n ∉ v)) := by
          intro x hx y hy
          rcases Finset.mem_insert.mp hx with rfl | hx
          · by_cases hyv : y ∈ v
            · exact Or.inl (Finset.mem_insert_of_mem hyv)
            · refine Or.inr (List.mem_append_right _ ?_)
              rw [List.mem_filter]
              exact ⟨mem_toCellList.mpr hy, by
                rw [decide_eq_true_eq]
                exact hyv⟩
          · rcases hI x hx y hy with h | h
            · exact Or.inl (Finset.mem_insert_of_mem h)
            · rcases List.mem_cons.mp h with rfl | h
              · exact Or.inl (Finset.mem_insert_self y v)
              · exact Or.inr (List.mem_append_left _ h)
        obtain ⟨A1, A2, A3, A4, A5, A6, A8⟩ := ih _ (insert c v) (insert c bl)
          hqS hvins (Finset.insert_subset hcS hbl) hf' hI'
        have hcr2 : c ∈ (sat.flood adj n _ (insert c v) (insert c bl)).2 :=
          A3 (Finset.mem_insert_self c bl)
        refine ⟨(Finset.subset_insert c v).trans A1, ?_, ?_, ?_, A5, A6, ?_⟩
        · intro z hz
          rcases Finset.mem_union.mp (A2 hz) with hz' | hz'
          · rcases Finset.mem_insert.mp hz' with rfl | hz'
            · exact Finset.mem_union_right _ hcr2
            · exact Finset.mem_union_left _ hz'
          · exact Finset.mem_union_right _ hz'
        · exact (Finset.subset_insert c bl).trans A3
        · intro z hz
          rcases Finset.mem_union.mp (A4 hz) with hz' | hz'
          · rcases Finset.mem_insert.mp hz' with rfl | hz'
            · refine Finset.mem_union_right _ (Finset.mem_sdiff.mpr ⟨?_, hc⟩)
              exact A1 (Finset.mem_insert_self z v)
            · exact Finset.mem_union_left _ hz'
          · refine Finset.mem_union_right _ ?_
            rw [Finset.mem_sdiff] at hz' ⊢
            exact ⟨hz'.1, fun hzz => hz'.2 (Finset.mem_insert_of_mem hzz)⟩
        · intro c' hc'
          rcases List.mem_cons.mp hc' with rfl | hc'
          · exact A1 (Finset.mem_insert_self c' v)
          · exact A8 c' (List.mem_append_left _ hc')

/-- The component loop: every produced block is closed under adjacency, and
every key lands in some block. -/
theorem buildLoop_closed (adj : Cell → Finset Cell) (S : Finset Cell)
    (hadjS : ∀ x, adj x ⊆ S) (hsym : ∀ x y, y ∈ adj x → x ∈ adj y)
    (fuel : Nat) (hfuel : S.Nonempty → S.card * (S.card + 1) + 1 < fuel) :
    ∀ (keys : List Cell) (v : Finset Cell) (acc : List (Finset Cell)),
      (∀ k ∈ keys, k ∈ S) → v ⊆ S →
      (∀ s ∈ acc, s ⊆ v) → (∀ x ∈ v, ∃ s ∈ acc, x ∈ s) →
      (∀ s ∈ acc, ∀ x ∈ s, adj x ⊆ s) →
      (∀ s ∈ sat.buildLoop adj fuel keys v acc, ∀ x ∈ s, adj x ⊆ s) ∧
      (∀ k ∈ keys, ∃ s ∈ sat.buildLoop adj fuel keys v acc, k ∈ s) ∧
      (∀ s ∈ acc, s ∈ sat.buildLoop adj fuel keys v acc) := by
  intro keys
  induction keys with
  | nil =>
    intro v acc _ _ _ _ h3
    rw [sat.buildLoop]
    exact ⟨h3, fun k hk => absurd hk (List.not_mem_nil k), fun s hs => hs⟩
  | cons k rest ih =>
    intro v acc hkeys hv h1 h2 h3
    rw [sat.buildLoop]
    by_cases hkv : k ∈ v
    · rw [if_pos hkv]
      obtain ⟨ihA, ihB, ihC⟩ := ih v acc
        (fun k' hk' => hkeys k' (List.mem_cons_of_mem k hk')) hv h1 h2 h3
      refine ⟨ihA, ?_, ihC⟩
      intro k' hk'
      rcases List.mem_cons.mp hk' with rfl | hk'
      · obtain ⟨s, hs, hks⟩ := h2 k' hkv
        exact ⟨s, ihC s hs, hks⟩
      · exact ihB k' hk'
    · rw [if_neg hkv]
      dsimp only
      have hkS : k ∈ S := hkeys k (List.mem_cons_self k rest)
      have hpot : (S.card - v.card) * (S.card + 1) + ([k] : List Cell).length < fuel := by
        have hb := hfuel ⟨k, hkS⟩
        have hm : (S.card - v.card) * (S.card + 1) ≤ S.card * (S.card + 1) :=
          Nat.mul_le_mul_right _ (Nat.sub_le _ _)
        rw [List.length_singleton]
        omega
      obtain ⟨A1, A2, A3, A4, A5, A6, A8⟩ := flood_full adj S hadjS fuel [k] v ∅
        (by
          intro c hc
          rw [List.mem_singleton] at hc
          subst hc
          exact hkS)
        hv (Finset.empty_subset S) hpot
        (fun x hx => absurd hx (Finset.not_mem_empty x))
      have hclosed : ∀ x ∈ (sat.flood adj fuel [k] v ∅).2,
          adj x ⊆ (sat.flood adj fuel [k] v ∅).2 := by
        intro x hx y hy
        have hyv : y ∈ (sat.flood adj fuel [k] v ∅).1 := A5 x hx y hy
        rcases Finset.mem_union.mp (A2 hyv) with hyv' | hyb
        · exfalso
          obtain ⟨s0, hs0, hys0⟩ := h2 y hyv'
          have hxs0 : x ∈ s0 := h3 s0 hs0 y hys0 (hsym x y hy)
          have hxv : x ∈ v := h1 s0 hs0 hxs0
          rcases Finset.mem_union.mp (A4 hx) with hx0 | hxd
          · exact Finset.not_mem_empty x hx0
          · exact (Finset.mem_sdiff.mp hxd).2 hxv
        · exact hyb
      have h1' : ∀ s ∈ acc ++ [(sat.flood adj fuel [k] v ∅).2],
          s ⊆ (sat.flood adj fuel [k] v ∅).1 := by
        intro s hs
        rcases List.mem_append.mp hs with hs | hs
        · exact (h1 s hs).trans A1
        · rw [List.mem_singleton] at hs
          subst hs
          intro z hz
          rcases Finset.mem_union.mp (A4 hz) with hz0 | hzd
          · exact absurd hz0 (Finset.not_mem_empty z)
          · exact (Finset.mem_sdiff.mp hzd).1
      have h2' : ∀ x ∈ (sat.flood adj fuel [k] v ∅).1,
          ∃ s ∈ acc ++ [(sat.flood adj fuel [k] v ∅).2], x ∈ s := by
        intro x hx
        rcases Finset.mem_union.mp (A2 hx) with hx' | hx'
        · obtain ⟨s, hs, hxs⟩ := h2 x hx'
          exact ⟨s, List.mem_append_left _ hs, hxs⟩
        · exact ⟨_, List.mem_append_right _ (List.mem_singleton_self _), hx'⟩
      have h3' : ∀ s ∈ acc ++ [(sat.flood adj fuel [k] v ∅).2],
          ∀ x ∈ s, adj x ⊆ s := by
        intro s hs
        rcases List.mem_append.mp hs with hs | hs
        · exact h3 s hs
        · rw [List.mem_singleton] at hs
          subst hs
          exact hclosed
      obtain ⟨ihA, ihB, ihC⟩ := ih (sat.flood adj fuel [k] v ∅).1
        (acc ++ [(sat.flood adj fuel [k] v ∅).2])
        (fun k' hk' => hkeys k' (List.mem_cons_of_mem k hk')) A6 h1' h2' h3'
      refine ⟨ihA, ?_, fun s hs => ihC s (List.mem_append_left _ hs)⟩
      intro k' hk'
      rcases List.mem_cons.mp hk' with rfl | hk'
      · have hk1 : k' ∈ (sat.flood adj fuel [k'] v ∅).1 :=
          A8 k' (List.mem_singleton_self k')
        rcases Finset.mem_union.mp (A2 hk1) with hkv' | hkb
        · exact absurd hkv' hkv
        · exact ⟨_, ihC _ (List.mem_append_right _ (List.mem_singleton_self _)), hkb⟩
      · exact ihB k' hk'

/-- The components of `_build_components` are closed under the constraint
adjacency; every adjacency key lies in one of them. -/
theorem build_components_spec (cs : List sat.SConstraint) :
    (∀ comp ∈ sat.build_components cs, ∀ x ∈ comp, sat.adjacency cs x ⊆ comp) ∧
    (∀ k ∈ sat.adjKeys cs, ∃ comp ∈ sat.build_components cs, k ∈ comp) := by
  rw [sat.build_components]
  have hfuel : (sat.allConstraintCells cs).toFinset.Nonempty →
      (sat.allConstraintCells cs).toFinset.card
        * ((sat.allConstraintCells cs).toFinset.card + 1) + 1
      < ((sat.allConstraintCells cs).length + 1)
        * ((sat.allConstraintCells cs).length + 1) := by
    intro hne
    have hc : (sat.allConstraintCells cs).toFinset.card
        = (sat.allConstraintCells cs).length :=
      List.toFinset_card_of_nodup (List.nodup_dedup _)
    have hpos : 0 < (sat.allConstraintCells cs).toFinset.card :=
      Finset.card_pos.mpr hne
    rw [hc] at hpos ⊢
    have hexp : ((sat.allConstraintCells cs).length + 1)
        * ((sat.allConstraintCells cs).length + 1)
        = (sat.allConstraintCells cs).length
            * ((sat.allConstraintCells cs).length + 1)
          + ((sat.allConstraintCells cs).length + 1) := by
      ring
    omega
  obtain ⟨hA, hB, -⟩ := buildLoop_closed (sat.adjacency cs)
    (sat.allConstraintCells cs).toFinset (adjacency_subset cs)
    (fun x y h => adjacency_symm h)
    (((sat.allConstraintCells cs).length + 1) * ((sat.allConstraintCells cs).length + 1))
    hfuel (sat.adjKeys cs) ∅ [] (adjKeys_subset cs)
    (Finset.empty_subset _)
    (fun s hs => absurd hs (List.not_mem_nil s))
    (fun x hx => absurd hx (Finset.not_mem_empty x))
    (fun s hs => absurd hs (List.not_mem_nil s))
  exact ⟨hA, hB⟩

theorem minesIn_append (l1 l2 : List (Cell × Bool)) (U : Finset Cell) :
    minesIn (l1 ++ l2) U = minesIn l1 U + minesIn l2 U := by
  unfold minesIn
  rw [List.filter_append, List.length_append]
  push_cast
  ring

theorem assignedIn_append (l1 l2 : List (Cell × Bool)) (U : Finset Cell) :
    assignedIn (l1 ++ l2) U = assignedIn l1 U + assignedIn l2 U := by
  unfold assignedIn
  rw [List.filter_append, List.length_append]
  push_cast
  ring

theorem minesIn_single (c : Cell) (v : Bool) (U : Finset Cell) :
    minesIn [(c, v)] U = if v = true ∧ c ∈ U then 1 else 0 := by
  by_cases h1 : v = true <;> by_cases h2 : c ∈ U <;>
    simp [minesIn, h1, h2]

theorem assignedIn_single (c : Cell) (v : Bool) (U : Finset Cell) :
    assignedIn [(c, v)] U = if c ∈ U then 1 else 0 := by
  by_cases h : c ∈ U <;> simp [assignedIn, h]

theorem minesIn_nonneg (l : List (Cell × Bool)) (U : Finset Cell) :
    0 ≤ minesIn l U :=
  Int.ofNat_nonneg _

theorem minesIn_le_assignedIn (l : List (Cell × Bool)) (U : Finset Cell) :
    minesIn l U ≤ assignedIn l U := by
  unfold minesIn assignedIn
  rw [Int.ofNat_le]
  rw [← List.countP_eq_length_filter, ← List.countP_eq_length_filter]
  apply List.countP_mono_left
  intro p _ hp
  rw [Bool.and_eq_true] at hp
  exact hp.2

theorem zip_snoc {done : List Cell} {cur : List Bool} (h : cur.length = done.length)
    (cell : Cell) (v : Bool) :
    (done ++ [cell]).zip (cur ++ [v]) = done.zip cur ++ [(cell, v)] := by
  rw [List.zip_append h.symm]
  rfl

theorem zip_filter_fst (U : Finset Cell) :
    ∀ (cells : List Cell) (vals : List Bool), vals.length = cells.length →
      ((cells.zip vals).filter (fun p => decide (p.1 ∈ U))).length
        = (cells.filter (fun c => decide (c ∈ U))).length := by
  intro cells
  induction cells with
  | nil =>
    intro vals _
    rfl
  | cons c cs ih =>
    intro vals hlen
    cases vals with
    | nil => simp at hlen
    | cons v vs =>
      rw [List.zip_cons_cons]
      by_cases h : c ∈ U
      · rw [List.filter_cons_of_pos (by rw [decide_eq_true_eq]; exact h),
          List.filter_cons_of_pos (by rw [decide_eq_true_eq]; exact h)]
        rw [List.length_cons, List.length_cons]
        rw [ih vs (by simpa using hlen)]
      · rw [List.filter_cons_of_neg (by rw [decide_eq_true_eq]; exact h),
          List.filter_cons_of_neg (by rw [decide_eq_true_eq]; exact h)]
        rw [ih vs (by simpa using hlen)]

theorem assignedIn_full {cells : List Cell} (hnd : cells.Nodup) {U : Finset Cell}
    (hU : U ⊆ cells.toFinset) (vals : List Bool) (hlen : vals.length = cells.length) :
    assignedIn (cells.zip vals) U = (U.card : Int) := by
  unfold assignedIn
  rw [zip_filter_fst U cells vals hlen]
  congr 1
  have hft : (cells.filter (fun c => decide (c ∈ U))).toFinset = U := by
    ext x
    rw [List.mem_toFinset, List.mem_filter, decide_eq_true_eq]
    constructor
    · rintro ⟨_, hx⟩
      exact hx
    · intro hx
      exact ⟨List.mem_toFinset.mp (hU hx), hx⟩
  rw [← List.toFinset_card_of_nodup (hnd.filter (fun c => decide (c ∈ U))), hft]

theorem minesIn_congr_erase {l : List (Cell × Bool)} {U : Finset Cell} {c : Cell}
    (h : ∀ p ∈ l, p.1 ≠ c) : minesIn l U = minesIn l (U.erase c) := by
  unfold minesIn
  congr 2
  apply List.filter_congr
  intro p hp
  have hne := h p hp
  by_cases hm : p.1 ∈ U
  · simp [hm, Finset.mem_erase, hne]
  · simp [hm]

theorem mineCount_erase (f : Cell → Bool) (U : Finset Cell) (c : Cell) (hc : c ∈ U) :
    mineCount f U = mineCount f (U.erase c) + (if f c = true then 1 else 0) := by
  unfold mineCount
  rw [Finset.filter_erase]
  by_cases hf : f c = true
  · rw [if_pos hf]
    have hcf : c ∈ U.filter (fun x => f x = true) := Finset.mem_filter.mpr ⟨hc, hf⟩
    rw [Finset.card_erase_of_mem hcf]
    have hpos : 1 ≤ (U.filter (fun x => f x = true)).card := Finset.card_pos.mpr ⟨c, hcf⟩
    push_cast
    omega
  · rw [if_neg hf]
    rw [Finset.erase_eq_of_not_mem
      (show c ∉ U.filter (fun x => f x = true) from
        fun hm => hf (Finset.mem_filter.mp hm).2)]
    ring

theorem minesIn_eq_mineCount :
    ∀ (cells : List Cell) (vals : List Bool) (U : Finset Cell), cells.Nodup →
      U ⊆ cells.toFinset → vals.length = cells.length →
      minesIn (cells.zip vals) U = mineCount (valAt cells vals) U := by
  intro cells
  induction cells with
  | nil =>
    intro vals U _ hU _
    have hUe : U = ∅ := Finset.subset_empty.mp (by simpa using hU)
    subst hUe
    rfl
  | cons c cs ih =>
    intro vals U hnd hU hlen
    cases vals with
    | nil => simp at hlen
    | cons v vs =>
      rw [List.zip_cons_cons]
      have hznc : ((c, v) :: cs.zip vs) = [(c, v)] ++ cs.zip vs := rfl
      rw [hznc, minesIn_append, minesIn_single]
      have hcnotcs : c ∉ cs := (List.nodup_cons.mp hnd).1
      have htail : ∀ p ∈ cs.zip vs, p.1 ≠ c := by
        intro p hp he
        exact hcnotcs (he ▸ (List.mem_zip hp).1)
      have hvs : vs.length = cs.length := by simpa using hlen
      by_cases hc : c ∈ U
      · have hU' : U.erase c ⊆ cs.toFinset := by
          intro x hx
          have hx' := Finset.mem_erase.mp hx
          have := hU hx'.2
          rw [List.toFinset_cons, Finset.mem_insert] at this
          rcases this with h | h
          · exact absurd h hx'.1
          · exact h
        rw [minesIn_congr_erase htail,
          ih vs (U.erase c) (List.nodup_cons.mp hnd).2 hU' hvs]
        rw [mineCount_erase (valAt (c :: cs) (v :: vs)) U c hc]
        have hfc : valAt (c :: cs) (v :: vs) c = v := by
          show (if c = c then v else valAt cs vs c) = v
          rw [if_pos rfl]
        have hcongr : mineCount (valAt (c :: cs) (v :: vs)) (U.erase c)
            = mineCount (valAt cs vs) (U.erase c) := by
          apply mineCount_congr
          intro x hx
          have hxne := (Finset.mem_erase.mp hx).1
          show (if x = c then v else valAt cs vs x) = valAt cs vs x
          rw [if_neg hxne]
        rw [hcongr, hfc]
        by_cases hv : v = true
        · rw [if_pos ⟨hv, hc⟩, if_pos hv]
          ring
        · rw [if_neg (fun h => hv h.1), if_neg hv]
          ring
      · have hU' : U ⊆ cs.toFinset := by
          intro x hx
          have := hU hx
          rw [List.toFinset_cons, Finset.mem_insert] at this
          rcases this with h | h
          · exact absurd (h ▸ hx) hc
          · exact h
        rw [if_neg (fun h => hc h.2)]
        rw [ih vs U (List.nodup_cons.mp hnd).2 hU' hvs]
        have hcongr : mineCount (valAt (c :: cs) (v :: vs)) U
            = mineCount (valAt cs vs) U := by
          apply mineCount_congr
          intro x hx
          have hxne : x ≠ c := fun he => hc (he ▸ hx)
          show (if x = c then v else valAt cs vs x) = valAt cs vs x
          rw [if_neg hxne]
        rw [hcongr]
        ring

theorem valAt_getElem :
    ∀ (cells : List Cell) (vals : List Bool), cells.Nodup →
      vals.length = cells.length → ∀ (idx : Nat) (h : idx < cells.length),
      valAt cells vals (cells.get ⟨idx, h⟩) = vals.getD idx false := by
  intro cells
  induction cells with
  | nil =>
    intro vals _ _ idx h
    exact absurd h (by simp)
  | cons c cs ih =>
    intro vals hnd hlen idx h
    cases vals with
    | nil => simp at hlen
    | cons v vs =>
      cases idx with
      | zero =>
        show (if c = c then v else valAt cs vs c) = v
        rw [if_pos rfl]
      | succ n =>
        have hn : n < cs.length := by simpa using h
        show (if cs.get ⟨n, hn⟩ = c then v else valAt cs vs (cs.get ⟨n, hn⟩))
          = vs.getD n false
        rw [if_neg (show ¬(cs.get ⟨n, hn⟩ = c) from
          fun he => (List.nodup_cons.mp hnd).1 (he ▸ List.get_mem cs n hn))]
        exact ih vs (List.nodup_cons.mp hnd).2 (by simpa using hlen) n hn

theorem getDI_set_self (l : List Int) (i : Nat) (x : Int) (h : i < l.length) :
    (l.set i x).getD i 0 = x := by
  rw [List.getD_eq_getElem _ _ (by rw [List.length_set]; exact h)]
  exact List.getElem_set_self _

theorem getDI_set_ne (l : List Int) {i j : Nat} (x : Int) (h : i ≠ j) :
    (l.set i x).getD j 0 = l.getD j 0 := by
  rw [List.getD_eq_getElem?_getD, List.getD_eq_getElem?_getD,
    List.getElem?_set_ne h]

/-- What a successful counter update does, index by index, and the checks it
verified along the way. -/
theorem updateCounters_spec (v : Bool) :
    ∀ (part : List Nat) (req unas : List Int),
      part.Nodup → (∀ k ∈ part, k < req.length ∧ k < unas.length) →
      ∀ (r' u' : List Int), sat.updateCounters v part req unas = some (r', u') →
      r'.length = req.length ∧ u'.length = unas.length ∧
      (∀ k, k ∉ part → r'.getD k 0 = req.getD k 0 ∧ u'.getD k 0 = unas.getD k 0) ∧
      (∀ k ∈ part,
        r'.getD k 0 = req.getD k 0 - (if v then 1 else 0) ∧
        u'.getD k 0 = unas.getD k 0 - 1 ∧
        0 ≤ r'.getD k 0 ∧ r'.getD k 0 ≤ u'.getD k 0) := by
  intro part
  induction part with
  | nil =>
    intro req unas _ _ r' u' h
    rw [sat.updateCounters] at h
    injection h with h
    rw [Prod.mk.injEq] at h
    obtain ⟨h1, h2⟩ := h
    subst h1
    subst h2
    exact ⟨rfl, rfl, fun k _ => ⟨rfl, rfl⟩,
      fun k hk => absurd hk (List.not_mem_nil k)⟩
  | cons ci restp ih =>
    intro req unas hnd hbnd r' u' h
    rw [sat.updateCounters] at h
    by_cases hchk : ((if v then req.set ci (req.getD ci 0 - 1) else req).getD ci 0 < 0
        ∨ (unas.set ci (unas.getD ci 0 - 1)).getD ci 0
            < (if v then req.set ci (req.getD ci 0 - 1) else req).getD ci 0)
    · rw [if_pos hchk] at h
      cases h
    · rw [if_neg hchk] at h
      have hci : ci < req.length ∧ ci < unas.length :=
        hbnd ci (List.mem_cons_self ci restp)
      have hcirest : ci ∉ restp := (List.nodup_cons.mp hnd).1
      have hR1len : (if v then req.set ci (req.getD ci 0 - 1) else req).length
          = req.length := by
        split
        · exact List.length_set _ _ _
        · rfl
      have hU1len : (unas.set ci (unas.getD ci 0 - 1)).length = unas.length :=
        List.length_set _ _ _
      have hR1ci : (if v then req.set ci (req.getD ci 0 - 1) else req).getD ci 0
          = req.getD ci 0 - (if v then 1 else 0) := by
        split
        · exact getDI_set_self req ci _ hci.1
        · ring
      have hR1ne : ∀ k, k ≠ ci →
          (if v then req.set ci (req.getD ci 0 - 1) else req).getD k 0
            = req.getD k 0 := by
        intro k hk
        split
        · exact getDI_set_ne req _ (fun he => hk he.symm)
        · rfl
      have hU1ci : (unas.set ci (unas.getD ci 0 - 1)).getD ci 0
          = unas.getD ci 0 - 1 := getDI_set_self unas ci _ hci.2
      have hU1ne : ∀ k, k ≠ ci →
          (unas.set ci (unas.getD ci 0 - 1)).getD k 0 = unas.getD k 0 := by
        intro k hk
        exact getDI_set_ne unas _ (fun he => hk he.symm)
      obtain ⟨L1, L2, Hout, Hin⟩ := ih _ _ (List.nodup_cons.mp hnd).2
        (by
          intro k hk
          have := hbnd k (List.mem_cons_of_mem ci hk)
          rw [hR1len, hU1len]
          exact this)
        r' u' h
      push_neg at hchk
      refine ⟨L1.trans hR1len, L2.trans hU1len, ?_, ?_⟩
      · intro k hk
        have hkci : k ≠ ci := fun he => hk (he ▸ List.mem_cons_self ci restp)
        have hkrest : k ∉ restp := fun hr => hk (List.mem_cons_of_mem ci hr)
        obtain ⟨ho1, ho2⟩ := Hout k hkrest
        rw [ho1, ho2, hR1ne k hkci, hU1ne k hkci]
        exact ⟨rfl, rfl⟩
      · intro k hk
        rcases List.mem_cons.mp hk with rfl | hk
        · obtain ⟨ho1, ho2⟩ := Hout k hcirest
          rw [ho1, ho2, hR1ci, hU1ci]
          refine ⟨rfl, rfl, ?_, ?_⟩
          · rw [← hR1ci]
            exact hchk.1
          · rw [← hR1ci, ← hU1ci]
            exact hchk.2
        · obtain ⟨hi1, hi2, hi3, hi4⟩ := Hin k hk
          have hkci : k ≠ ci := fun he => hcirest (he ▸ hk)
          exact ⟨hi1.trans (by rw [hR1ne k hkci]),
            hi2.trans (by rw [hU1ne k hkci]), hi3, hi4⟩

/-- The counter update succeeds whenever the post-update checks would pass. -/
theorem updateCounters_complete (v : Bool) :
    ∀ (part : List Nat) (req unas : List Int),
      (∀ k ∈ part, 0 ≤ req.getD k 0 - (if v then 1 else 0) ∧
        req.getD k 0 - (if v then 1 else 0) ≤ unas.getD k 0 - 1) →
      part.Nodup → (∀ k ∈ part, k < req.length ∧ k < unas.length) →
      ∃ p, sat.updateCounters v part req unas = some p := by
  intro part
  induction part with
  | nil =>
    intro req unas _ _ _
    exact ⟨(req, unas), by rw [sat.updateCounters]⟩
  | cons ci restp ih =>
    intro req unas hfeas hnd hbnd
    rw [sat.updateCounters]
    have hci : ci < req.length ∧ ci < unas.length :=
      hbnd ci (List.mem_cons_self ci restp)
    have hcirest : ci ∉ restp := (List.nodup_cons.mp hnd).1
    have hR1ci : (if v then req.set ci (req.getD ci 0 - 1) else req).getD ci 0
        = req.getD ci 0 - (if v then 1 else 0) := by
      split
      · exact getDI_set_self req ci _ hci.1
      · ring
    have hU1ci : (unas.set ci (unas.getD ci 0 - 1)).getD ci 0
        = unas.getD ci 0 - 1 := getDI_set_self unas ci _ hci.2
    have hf := hfeas ci (List.mem_cons_self ci restp)
    rw [if_neg (show ¬((if v then req.set ci (req.getD ci 0 - 1) else req).getD ci 0 < 0
        ∨ (unas.set ci (unas.getD ci 0 - 1)).getD ci 0
            < (if v then req.set ci (req.getD ci 0 - 1) else req).getD ci 0) from by
      rw [hR1ci, hU1ci]
      push_neg
      exact hf)]
    apply ih
    · intro k hk
      have hkci : k ≠ ci := fun he => hcirest (he ▸ hk)
      have h1 : (if v then req.set ci (req.getD ci 0 - 1) else req).getD k 0
          = req.getD k 0 := by
        split
        · exact getDI_set_ne req _ (fun he => hkci he.symm)
        · rfl
      have h2 : (unas.set ci (unas.getD ci 0 - 1)).getD k 0 = unas.getD k 0 :=
        getDI_set_ne unas _ (fun he => hkci he.symm)
      rw [h1, h2]
      exact hfeas k (List.mem_cons_of_mem ci hk)
    · exact (List.nodup_cons.mp hnd).2
    · intro k hk
      have := hbnd k (List.mem_cons_of_mem ci hk)
      constructor
      · split
        · rw [List.length_set]
          exact this.1
        · exact this.1
      · rw [List.length_set]
        exact this.2

theorem mem_memFn (rel : List sat.SConstraint) (cell : Cell) (k : Nat) :
    k ∈ (List.range rel.length).filter
      (fun idx => decide (cell ∈ (rel.getD idx ((∅ : Finset Cell), (0 : Int))).1)) ↔
    k < rel.length ∧ cell ∈ (rel.getD k ((∅ : Finset Cell), (0 : Int))).1 := by
  rw [List.mem_filter, List.mem_range, decide_eq_true_eq]

/-- One assignment step keeps the counters coherent with the grown prefix and
re-establishes the pinning property. -/
theorem ctr_step (rel : List sat.SConstraint) (mem : Cell → List Nat)
    (hmem : ∀ cell, mem cell = (List.range rel.length).filter
      (fun idx => decide (cell ∈ (rel.getD idx ((∅ : Finset Cell), (0 : Int))).1)))
    {done : List Cell} {cur : List Bool} {req unas : List Int}
    (hlen : cur.length = done.length)
    (hctr : CtrOK rel (done.zip cur) req unas) (hpin : PIN rel req unas)
    (cell : Cell) (v : Bool) {ru : List Int × List Int}
    (hupd : sat.updateCounters v (mem cell) req unas = some ru) :
    CtrOK rel ((done ++ [cell]).zip (cur ++ [v])) ru.1 ru.2 ∧ PIN rel ru.1 ru.2 := by
  obtain ⟨hL1, hL2, hK⟩ := hctr
  have hnd : (mem cell).Nodup := by
    rw [hmem]
    exact (List.nodup_range _).filter _
  have hbnd : ∀ k ∈ mem cell, k < req.length ∧ k < unas.length := by
    intro k hk
    rw [hmem, mem_memFn] at hk
    rw [hL1, hL2]
    exact ⟨hk.1, hk.1⟩
  obtain ⟨L1, L2, Hout, Hin⟩ :=
    updateCounters_spec v (mem cell) req unas hnd hbnd ru.1 ru.2 hupd
  rw [zip_snoc hlen]
  constructor
  · refine ⟨L1.trans hL1, L2.trans hL2, ?_⟩
    intro k hk
    rw [minesIn_append, assignedIn_append, minesIn_single, assignedIn_single]
    by_cases hkc : cell ∈ (rel.getD k ((∅ : Finset Cell), (0 : Int))).1
    · have hkmem : k ∈ mem cell := by
        rw [hmem, mem_memFn]
        exact ⟨hk, hkc⟩
      obtain ⟨hi1, hi2, -, -⟩ := Hin k hkmem
      obtain ⟨ho1, ho2⟩ := hK k hk
      rw [hi1, hi2, ho1, ho2, if_pos hkc]
      constructor
      · by_cases hv : v = true
        · rw [if_pos hv, if_pos ⟨hv, hkc⟩]
          ring
        · rw [if_neg hv, if_neg (fun hh => hv hh.1)]
          ring
      · ring
    · have hkmem : k ∉ mem cell := by
        rw [hmem, mem_memFn]
        exact fun hh => hkc hh.2
      obtain ⟨ho1, ho2⟩ := Hout k hkmem
      obtain ⟨hc1, hc2⟩ := hK k hk
      rw [ho1, ho2, hc1, hc2, if_neg (fun hh : v = true ∧ _ => hkc hh.2),
        if_neg hkc]
      constructor <;> ring
  · intro k hk hzero
    by_cases hkc : k ∈ mem cell
    · obtain ⟨-, -, h3, h4⟩ := Hin k hkc
      omega
    · obtain ⟨ho1, ho2⟩ := Hout k hkc
      rw [ho1]
      rw [ho2] at hzero
      exact hpin k hk hzero

theorem recordLeaf_getD {cv : List (Bool × Bool)} {cur : List Bool} {idx : Nat}
    (h1 : idx < cv.length) (h2 : idx < cur.length) :
    (sat.recordLeaf cv cur).getD idx (false, false)
      = if cur.getD idx false = true
        then ((cv.getD idx (false, false)).1, true)
        else (true, (cv.getD idx (false, false)).2) := by
  unfold sat.recordLeaf
  have hlen : idx < (List.zipWith
      (fun p v => if v then (p.1, true) else (true, p.2)) cv cur).length := by
    rw [List.length_zipWith]
    omega
  have e0 : (List.zipWith (fun (p : Bool × Bool) (v : Bool) =>
      if v then (p.1, true) else (true, p.2)) cv cur).getD idx (false, false)
      = (List.zipWith (fun (p : Bool × Bool) (v : Bool) =>
      if v then (p.1, true) else (true, p.2)) cv cur)[idx] := by
    rw [List.getD_eq_getElem?_getD, List.getElem?_eq_getElem hlen]
    rfl
  have e1 : cv.getD idx (false, false) = cv[idx] := by
    rw [List.getD_eq_getElem?_getD, List.getElem?_eq_getElem h1]
    rfl
  have e2 : cur.getD idx false = cur[idx] := by
    rw [List.getD_eq_getElem?_getD, List.getElem?_eq_getElem h2]
    rfl
  rw [e0, e1, e2, List.getElem_zipWith]

theorem recordLeaf_length (cv : List (Bool × Bool)) (cur : List Bool) :
    (sat.recordLeaf cv cur).length = min cv.length cur.length := by
  unfold sat.recordLeaf
  exact List.length_zipWith _ _ _

/-- The enumeration count never decreases, and an abort always witnesses at
least one recorded assignment. -/
theorem dfsEnum_mono (mem : Cell → List Nat) :
    ∀ (cells : List Cell) (req unas : List Int) (cur : List Bool)
      (st : sat.EnumState),
      st.2.1 ≤ (sat.dfsEnum mem cells req unas cur st).2.1 ∧
      (GoodE st → GoodE (sat.dfsEnum mem cells req unas cur st)) := by
  intro cells
  induction cells with
  | nil =>
    intro req unas cur st
    rw [sat.dfsEnum]
    by_cases hab : st.2.2 = true
    · rw [if_pos hab]
      exact ⟨le_refl _, fun h => h⟩
    · rw [if_neg hab]
      dsimp only
      exact ⟨Nat.le_succ _, fun _ _ => Nat.le_add_left 1 st.2.1⟩
  | cons cell rest ih =>
    intro req unas cur st
    rw [sat.dfsEnum]
    by_cases hab : st.2.2 = true
    · rw [if_pos hab]
      exact ⟨le_refl _, fun h => h⟩
    · rw [if_neg hab]
      dsimp only
      cases h0 : sat.updateCounters false (mem cell) req unas with
      | none =>
        dsimp only
        rw [if_neg hab]
        cases h2 : sat.updateCounters true (mem cell) req unas with
        | none =>
          exact ⟨le_refl _, fun h => h⟩
        | some ru =>
          exact ih ru.1 ru.2 (cur ++ [true]) st
      | some ru =>
        dsimp only
        obtain ⟨m1, g1⟩ := ih ru.1 ru.2 (cur ++ [false]) st
        by_cases h1 : (sat.dfsEnum mem rest ru.1 ru.2 (cur ++ [false]) st).2.2 = true
        · rw [if_pos h1]
          exact ⟨m1, g1⟩
        · rw [if_neg h1]
          cases h2 : sat.updateCounters true (mem cell) req unas with
          | none =>
            exact ⟨m1, g1⟩
          | some ru2 =>
            obtain ⟨m2, g2⟩ := ih ru2.1 ru2.2 (cur ++ [true])
              (sat.dfsEnum mem rest ru.1 ru.2 (cur ++ [false]) st)
            exact ⟨m1.trans m2, fun h => g2 (g1 h)⟩

/-- Soundness of the enumeration: every seen value in the record list comes
from a full assignment that satisfies all constraints exactly, and once one
assignment is recorded every position has seen some value. -/
theorem dfsEnum_sound (rel : List sat.SConstraint) (mem : Cell → List Nat)
    (hmem : ∀ cell, mem cell = (List.range rel.length).filter
      (fun idx => decide (cell ∈ (rel.getD idx ((∅ : Finset Cell), (0 : Int))).1)))
    (ordered : List Cell) (hnd : ordered.Nodup)
    (hUsub : ∀ k, k < rel.length →
      (rel.getD k ((∅ : Finset Cell), (0 : Int))).1 ⊆ ordered.toFinset) :
    ∀ (cells done : List Cell) (cur : List Bool) (req unas : List Int)
      (st : sat.EnumState),
      ordered = done ++ cells → cur.length = done.length →
      CtrOK rel (done.zip cur) req unas →
      PIN rel req unas →
      st.1.length = ordered.length →
      SeenOK rel ordered st.1 →
      AllSeen ordered st →
      (sat.dfsEnum mem cells req unas cur st).1.length = ordered.length ∧
      SeenOK rel ordered (sat.dfsEnum mem cells req unas cur st).1 ∧
      AllSeen ordered (sat.dfsEnum mem cells req unas cur st) := by
  intro cells
  induction cells with
  | nil =>
    intro done cur req unas st hsplit hlen hctr hpin hstlen hseen hAS
    rw [List.append_nil] at hsplit
    subst hsplit
    rw [sat.dfsEnum]
    by_cases hab : st.2.2 = true
    · rw [if_pos hab]
      exact ⟨hstlen, hseen, hAS⟩
    · rw [if_neg hab]
      dsimp only
      have hcvlen : (sat.recordLeaf st.1 cur).length = ordered.length := by
        rw [recordLeaf_length, hstlen, hlen]
        exact Nat.min_self _
      have hsat : SatL rel (ordered.zip cur) := by
        intro k hk
        obtain ⟨hr, hu⟩ := hctr.2.2 k hk
        have hass : assignedIn (ordered.zip cur)
            (rel.getD k ((∅ : Finset Cell), (0 : Int))).1
            = (((rel.getD k ((∅ : Finset Cell), (0 : Int))).1.card : Nat) : Int) :=
          assignedIn_full hnd (hUsub k hk) cur hlen
        have hu0 : unas.getD k 0 ≤ 0 := by
          rw [hu, hass]
          omega
        have hr0 : req.getD k 0 = 0 := hpin k hk hu0
        rw [hr] at hr0
        omega
      refine ⟨hcvlen, ?_, ?_⟩
      · intro idx hidx
        have h1 : idx < st.1.length := by
          rw [hstlen]
          exact hidx
        have h2 : idx < cur.length := by
          rw [hlen]
          exact hidx
        rw [recordLeaf_getD h1 h2]
        have hgd : cur.getD idx true = cur.getD idx false := by
          rw [List.getD_eq_getElem?_getD, List.getD_eq_getElem?_getD,
            List.getElem?_eq_getElem h2]
          rfl
        by_cases hv : cur.getD idx false = true
        · rw [if_pos hv]
          constructor
          · intro h
            exact (hseen idx hidx).1 h
          · intro _
            exact ⟨cur, by rw [hlen], hsat, hv⟩
        · rw [if_neg hv]
          constructor
          · intro _
            refine ⟨cur, by rw [hlen], hsat, ?_⟩
            rw [hgd]
            exact Bool.eq_false_iff.mpr hv
          · intro h
            exact (hseen idx hidx).2 h
      · intro _ idx hidx
        have h1 : idx < st.1.length := by
          rw [hstlen]
          exact hidx
        have h2 : idx < cur.length := by
          rw [hlen]
          exact hidx
        show ((sat.recordLeaf st.1 cur).getD idx (false, false)).1 = true ∨
          ((sat.recordLeaf st.1 cur).getD idx (false, false)).2 = true
        rw [recordLeaf_getD h1 h2]
        by_cases hv : cur.getD idx false = true
        · rw [if_pos hv]
          exact Or.inr rfl
        · rw [if_neg hv]
          exact Or.inl rfl
  | cons cell rest ih =>
    intro done cur req unas st hsplit hlen hctr hpin hstlen hseen hAS
    have hsplit' : ordered = (done ++ [cell]) ++ rest := by
      rw [hsplit, List.append_assoc]
      rfl
    rw [sat.dfsEnum]
    by_cases hab : st.2.2 = true
    · rw [if_pos hab]
      exact ⟨hstlen, hseen, hAS⟩
    · rw [if_neg hab]
      dsimp only
      cases h0 : sat.updateCounters false (mem cell) req unas with
      | none =>
        dsimp only
        rw [if_neg hab]
        cases h2 : sat.updateCounters true (mem cell) req unas with
        | none =>
          exact ⟨hstlen, hseen, hAS⟩
        | some ru =>
          obtain ⟨hc', hp'⟩ := ctr_step rel mem hmem hlen hctr hpin cell true h2
          exact ih (done ++ [cell]) (cur ++ [true]) ru.1 ru.2 st hsplit'
            (by simp [hlen]) hc' hp' hstlen hseen hAS
      | some ru =>
        dsimp only
        obtain ⟨hc', hp'⟩ := ctr_step rel mem hmem hlen hctr hpin cell false h0
        obtain ⟨f1, f2, f3⟩ := ih (done ++ [cell]) (cur ++ [false]) ru.1 ru.2 st
          hsplit' (by simp [hlen]) hc' hp' hstlen hseen hAS
        by_cases h1 : (sat.dfsEnum mem rest ru.1 ru.2 (cur ++ [false]) st).2.2 = true
        · rw [if_pos h1]
          exact ⟨f1, f2, f3⟩
        · rw [if_neg h1]
          cases h2 : sat.updateCounters true (mem cell) req unas with
          | none =>
            exact ⟨f1, f2, f3⟩
          | some ru2 =>
            obtain ⟨hc2, hp2⟩ := ctr_step rel mem hmem hlen hctr hpin cell true h2
            exact ih (done ++ [cell]) (cur ++ [true]) ru2.1 ru2.2
              (sat.dfsEnum mem rest ru.1 ru.2 (cur ++ [false]) st) hsplit'
              (by simp [hlen]) hc2 hp2 f1 f2 f3

/-- Completeness of the enumeration: when some extension of the current
partial assignment satisfies every constraint exactly, the pruning never cuts
that branch, so at least one full assignment gets recorded. -/
theorem dfsEnum_complete (rel : List sat.SConstraint) (mem : Cell → List Nat)
    (hmem : ∀ cell, mem cell = (List.range rel.length).filter
      (fun idx => decide (cell ∈ (rel.getD idx ((∅ : Finset Cell), (0 : Int))).1)))
    (ordered : List Cell) (hnd : ordered.Nodup)
    (hUsub : ∀ k, k < rel.length →
      (rel.getD k ((∅ : Finset Cell), (0 : Int))).1 ⊆ ordered.toFinset) :
    ∀ (cells done : List Cell) (cur tgt : List Bool) (req unas : List Int)
      (st : sat.EnumState),
      ordered = done ++ cells → cur.length = done.length →
      tgt.length = cells.length →
      CtrOK rel (done.zip cur) req unas →
      PIN rel req unas →
      SatL rel (ordered.zip (cur ++ tgt)) →
      GoodE st →
      1 ≤ (sat.dfsEnum mem cells req unas cur st).2.1 := by
  intro cells
  induction cells with
  | nil =>
    intro done cur tgt req unas st _ _ _ _ _ _ hg
    rw [sat.dfsEnum]
    by_cases hab : st.2.2 = true
    · rw [if_pos hab]
      exact hg hab
    · rw [if_neg hab]
      dsimp only
      exact Nat.le_add_left 1 st.2.1
  | cons cell rest ih =>
    intro done cur tgt req unas st hsplit hlen htlen hctr hpin hsat hg
    cases tgt with
    | nil => simp at htlen
    | cons vstar tgt' =>
    have htlen' : tgt'.length = rest.length := by simpa using htlen
    have hsplit' : ordered = (done ++ [cell]) ++ rest := by
      rw [hsplit, List.append_assoc]
      rfl
    have hflen : (cur ++ vstar :: tgt').length = ordered.length := by
      rw [hsplit]
      simp [hlen, htlen']
    have hdecomp : ordered.zip (cur ++ vstar :: tgt')
        = done.zip cur ++ [(cell, vstar)] ++ rest.zip tgt' := by
      rw [hsplit,
        show cur ++ vstar :: tgt' = (cur ++ [vstar]) ++ tgt' by simp,
        show done ++ cell :: rest = (done ++ [cell]) ++ rest by simp,
        List.zip_append (by simp [hlen]), zip_snoc hlen]
    have hfeas : ∀ k ∈ mem cell, 0 ≤ req.getD k 0 - (if vstar then 1 else 0) ∧
        req.getD k 0 - (if vstar then 1 else 0) ≤ unas.getD k 0 - 1 := by
      intro k hk
      rw [hmem, mem_memFn] at hk
      obtain ⟨hk1, hk2⟩ := hk
      obtain ⟨hr, hu⟩ := hctr.2.2 k hk1
      have hs := hsat k hk1
      rw [hdecomp, minesIn_append, minesIn_append, minesIn_single] at hs
      have hAfull := assignedIn_full hnd (hUsub k hk1) (cur ++ vstar :: tgt') hflen
      rw [hdecomp, assignedIn_append, assignedIn_append, assignedIn_single,
        if_pos hk2] at hAfull
      have hmr := minesIn_nonneg (rest.zip tgt')
        (rel.getD k ((∅ : Finset Cell), (0 : Int))).1
      have hle := minesIn_le_assignedIn (rest.zip tgt')
        (rel.getD k ((∅ : Finset Cell), (0 : Int))).1
      rw [hr, hu]
      by_cases hv : vstar = true
      · rw [if_pos ⟨hv, hk2⟩] at hs
        rw [if_pos hv]
        omega
      · rw [if_neg (fun hh : vstar = true ∧ _ => hv hh.1)] at hs
        rw [if_neg hv]
        omega
    have hbnd : ∀ k ∈ mem cell, k < req.length ∧ k < unas.length := by
      intro k hk
      rw [hmem, mem_memFn] at hk
      rw [hctr.1, hctr.2.1]
      exact ⟨hk.1, hk.1⟩
    have hndm : (mem cell).Nodup := by
      rw [hmem]
      exact (List.nodup_range _).filter _
    obtain ⟨ru, hru⟩ := updateCounters_complete vstar (mem cell) req unas
      hfeas hndm hbnd
    rw [sat.dfsEnum]
    by_cases hab : st.2.2 = true
    · rw [if_pos hab]
      exact hg hab
    · rw [if_neg hab]
      dsimp only
      by_cases hv : vstar = true
      · rw [hv] at hru hsat
        cases h0 : sat.updateCounters false (mem cell) req unas with
        | none =>
          dsimp only
          rw [if_neg hab, hru]
          dsimp only
          obtain ⟨hc', hp'⟩ := ctr_step rel mem hmem hlen hctr hpin cell true hru
          exact ih (done ++ [cell]) (cur ++ [true]) tgt' ru.1 ru.2 st hsplit'
            (by simp [hlen]) htlen' hc' hp'
            (by rw [List.append_assoc]; exact hsat) hg
        | some ru0 =>
          dsimp only
          have hg1 : GoodE (sat.dfsEnum mem rest ru0.1 ru0.2 (cur ++ [false]) st) :=
            (dfsEnum_mono mem rest ru0.1 ru0.2 (cur ++ [false]) st).2 hg
          by_cases h1ab :
              (sat.dfsEnum mem rest ru0.1 ru0.2 (cur ++ [false]) st).2.2 = true
          · rw [if_pos h1ab]
            exact hg1 h1ab
          · rw [if_neg h1ab, hru]
            dsimp only
            obtain ⟨hc', hp'⟩ := ctr_step rel mem hmem hlen hctr hpin cell true hru
            exact ih (done ++ [cell]) (cur ++ [true]) tgt' ru.1 ru.2
              (sat.dfsEnum mem rest ru0.1 ru0.2 (cur ++ [false]) st) hsplit'
              (by simp [hlen]) htlen' hc' hp'
              (by rw [List.append_assoc]; exact hsat) hg1
      · have hv' : vstar = false := Bool.eq_false_iff.mpr hv
        rw [hv'] at hru hsat
        rw [hru]
        dsimp only
        obtain ⟨hc', hp'⟩ := ctr_step rel mem hmem hlen hctr hpin cell false hru
        have hcount1 : 1 ≤ (sat.dfsEnum mem rest ru.1 ru.2 (cur ++ [false]) st).2.1 :=
          ih (done ++ [cell]) (cur ++ [false]) tgt' ru.1 ru.2 st hsplit'
            (by simp [hlen]) htlen' hc' hp'
            (by rw [List.append_assoc]; exact hsat) hg
        by_cases h1ab :
            (sat.dfsEnum mem rest ru.1 ru.2 (cur ++ [false]) st).2.2 = true
        · rw [if_pos h1ab]
          exact hcount1
        · rw [if_neg h1ab]
          cases h2 : sat.updateCounters true (mem cell) req unas with
          | none =>
            exact hcount1
          | some ru2 =>
            exact hcount1.trans (dfsEnum_mono mem rest ru2.1 ru2.2 (cur ++ [true])
              (sat.dfsEnum mem rest ru.1 ru.2 (cur ++ [false]) st)).1

theorem valAt_map (f : Cell → Bool) :
    ∀ (cells : List Cell) (x : Cell), x ∈ cells →
      valAt cells (cells.map f) x = f x := by
  intro cells
  induction cells with
  | nil =>
    intro x hx
    cases hx
  | cons c cs ih =>
    intro x hx
    show (if x = c then f c else valAt cs (cs.map f) x) = f x
    by_cases he : x = c
    · rw [if_pos he, he]
    · rw [if_neg he]
      rcases List.mem_cons.mp hx with h | h
      · exact absurd h he
      · exact ih x h

/-- When some assignment `f` satisfies every constraint exactly and the value
of position `idx` is forced to `v` by the constraints, the enumeration records
at least one assignment and position `idx` sees exactly the value `v`. -/
theorem enum_forced (rel : List sat.SConstraint) (mem : Cell → List Nat)
    (hmem : ∀ cell, mem cell = (List.range rel.length).filter
      (fun idx => decide (cell ∈ (rel.getD idx ((∅ : Finset Cell), (0 : Int))).1)))
    (req unas : List Int)
    (hreq : req = rel.map (fun c => max 0 (min c.2 (c.1.card : Int))))
    (hunas : unas = rel.map (fun c => ((c.1.card : Nat) : Int)))
    (ordered : List Cell) (hnd : ordered.Nodup)
    (hUsub : ∀ k, k < rel.length →
      (rel.getD k ((∅ : Finset Cell), (0 : Int))).1 ⊆ ordered.toFinset)
    (hbounds : ∀ e ∈ rel, 0 ≤ e.2 ∧ e.2 ≤ (e.1.card : Int))
    (f : Cell → Bool) (hsatf : ∀ e ∈ rel, mineCount f e.1 = e.2)
    (idx : Nat) (hidx : idx < ordered.length) (v : Bool)
    (hforce : ∀ vals : List Bool, vals.length = ordered.length →
      SatL rel (ordered.zip vals) → vals.getD idx false = v) :
    1 ≤ (sat.dfsEnum mem ordered req unas []
        (List.replicate ordered.length (false, false), 0, false)).2.1 ∧
    (sat.dfsEnum mem ordered req unas []
        (List.replicate ordered.length (false, false), 0, false)).1.length
      = ordered.length ∧
    (sat.dfsEnum mem ordered req unas []
        (List.replicate ordered.length (false, false), 0, false)).1.getD idx
        (false, false)
      = (if v = true then (false, true) else (true, false)) := by
  have hgetD : ∀ (g : sat.SConstraint → Int) (k : Nat), k < rel.length →
      (rel.map g).getD k 0 = g (rel.getD k ((∅ : Finset Cell), (0 : Int))) := by
    intro g k hk
    rw [List.getD_eq_getElem _ _ (by rw [List.length_map]; exact hk),
      List.getElem_map, List.getD_eq_getElem _ _ hk]
  have hentry : ∀ k, k < rel.length →
      rel.getD k ((∅ : Finset Cell), (0 : Int)) ∈ rel := by
    intro k hk
    rw [List.getD_eq_getElem _ _ hk]
    exact List.getElem_mem _
  have hm0 : ∀ U : Finset Cell, minesIn ([] : List (Cell × Bool)) U = 0 := by
    intro U
    simp [minesIn]
  have ha0 : ∀ U : Finset Cell, assignedIn ([] : List (Cell × Bool)) U = 0 := by
    intro U
    simp [assignedIn]
  have hctr0 : CtrOK rel ([] : List (Cell × Bool)) req unas := by
    refine ⟨by rw [hreq, List.length_map], by rw [hunas, List.length_map], ?_⟩
    intro k hk
    obtain ⟨hb1, hb2⟩ := hbounds _ (hentry k hk)
    rw [hreq, hunas, hgetD _ k hk, hgetD _ k hk, hm0, ha0]
    constructor
    · omega
    · omega
  have hpin0 : PIN rel req unas := by
    intro k hk hle
    obtain ⟨hb1, hb2⟩ := hbounds _ (hentry k hk)
    rw [hunas, hgetD _ k hk] at hle
    rw [hreq, hgetD _ k hk]
    omega
  have hst0len : (List.replicate ordered.length
      ((false : Bool), (false : Bool))).length = ordered.length :=
    List.length_replicate _ _
  have hseen0 : SeenOK rel ordered (List.replicate ordered.length (false, false)) := by
    intro j hj
    have hgd : (List.replicate ordered.length
        ((false : Bool), (false : Bool))).getD j (false, false) = (false, false) := by
      rw [List.getD_eq_getElem _ _ (by rw [List.length_replicate]; exact hj)]
      exact List.getElem_replicate _ _
    rw [hgd]
    exact ⟨fun h => absurd h Bool.false_ne_true,
      fun h => absurd h Bool.false_ne_true⟩
  have hAS0 : AllSeen ordered
      (List.replicate ordered.length (false, false), 0, false) := by
    intro h
    exact absurd h (Nat.not_succ_le_zero 0)
  have hG0 : GoodE (List.replicate ordered.length (false, false), 0, false) := by
    intro h
    exact absurd h Bool.false_ne_true
  obtain ⟨hlenR, hseenR, hASR⟩ := dfsEnum_sound rel mem hmem ordered hnd hUsub
    ordered [] [] req unas
    (List.replicate ordered.length (false, false), 0, false)
    rfl rfl hctr0 hpin0 hst0len hseen0 hAS0
  have hsatL : SatL rel (ordered.zip (ordered.map f)) := by
    intro k hk
    rw [minesIn_eq_mineCount ordered (ordered.map f) _ hnd (hUsub k hk)
      (by rw [List.length_map])]
    rw [mineCount_congr (fun c hc => valAt_map f ordered c
      (List.mem_toFinset.mp (hUsub k hk hc)))]
    exact hsatf _ (hentry k hk)
  have hcnt : 1 ≤ (sat.dfsEnum mem ordered req unas []
      (List.replicate ordered.length (false, false), 0, false)).2.1 :=
    dfsEnum_complete rel mem hmem ordered hnd hUsub ordered [] [] (ordered.map f)
      req unas (List.replicate ordered.length (false, false), 0, false)
      rfl rfl (by rw [List.length_map]) hctr0 hpin0 hsatL hG0
  refine ⟨hcnt, hlenR, ?_⟩
  have hOr := hASR hcnt idx hidx
  have hbridge : ∀ (vals : List Bool), vals.length = ordered.length →
      vals.getD idx true = vals.getD idx false := by
    intro vals hvl
    rw [List.getD_eq_getElem _ _ (by rw [hvl]; exact hidx),
      List.getD_eq_getElem _ _ (by rw [hvl]; exact hidx)]
  obtain ⟨hS1, hS2⟩ := hseenR idx hidx
  by_cases hv : v = true
  · rw [if_pos hv]
    have hp1 : ((sat.dfsEnum mem ordered req unas []
        (List.replicate ordered.length (false, false), 0, false)).1.getD idx
        (false, false)).1 ≠ true := by
      intro h
      obtain ⟨vals, hvl, hvs, hv0⟩ := hS1 h
      have h1 := hforce vals hvl hvs
      have h2 : vals.getD idx false = false := by
        rw [← hbridge vals hvl]
        exact hv0
      rw [h2, hv] at h1
      exact absurd h1 (by decide)
    have hp2 := hOr.resolve_left hp1
    exact Prod.ext (Bool.eq_false_iff.mpr hp1) hp2
  · rw [if_neg hv]
    have hvf : v = false := Bool.eq_false_iff.mpr hv
    have hp2 : ((sat.dfsEnum mem ordered req unas []
        (List.replicate ordered.length (false, false), 0, false)).1.getD idx
        (false, false)).2 ≠ true := by
      intro h
      obtain ⟨vals, hvl, hvs, hv1⟩ := hS2 h
      have h1 := hforce vals hvl hvs
      rw [hv1, hvf] at h1
      exact absurd h1 (by decide)
    have hp1 := hOr.resolve_right hp2
    exact Prod.ext hp1 (Bool.eq_false_iff.mpr hp2)

/-- When every constraint touching the component is contained in it, each
entry of the `relevant` list of `_solve_component` is an original constraint
whose cell set lies inside the component. -/
theorem relevant_entry_mem {comp : Finset Cell} {cs : List sat.SConstraint}
    (htouch : ∀ c ∈ cs, c.1 ∩ comp ≠ ∅ → c.1 ⊆ comp) {e : sat.SConstraint}
    (he : e ∈ cs.filterMap (fun c =>
      if c.1 ∩ comp = ∅ then none else some (c.1 ∩ comp, c.2))) :
    e ∈ cs ∧ e.1 ⊆ comp ∧ e.1 ≠ ∅ := by
  rw [List.mem_filterMap] at he
  obtain ⟨c, hc, hsome⟩ := he
  by_cases hov : c.1 ∩ comp = ∅
  · rw [if_pos hov] at hsome
    cases hsome
  · rw [if_neg hov] at hsome
    have hsub : c.1 ⊆ comp := htouch c hc hov
    have hint : c.1 ∩ comp = c.1 := Finset.inter_eq_left.mpr hsub
    rw [hint] at hsome hov
    have he' : e = c := by
      have h1 := Option.some.inj hsome
      rw [← h1, Prod.mk.eta]
    subst he'
    exact ⟨hc, hsub, hov⟩

/-- Conversely, a constraint contained in the component appears unchanged in
the `relevant` list. -/
theorem relevant_entry_intro {comp : Finset Cell} {cs : List sat.SConstraint}
    {c : sat.SConstraint} (hc : c ∈ cs) (hsub : c.1 ⊆ comp) (hne : c.1 ≠ ∅) :
    c ∈ cs.filterMap (fun c =>
      if c.1 ∩ comp = ∅ then none else some (c.1 ∩ comp, c.2)) := by
  rw [List.mem_filterMap]
  refine ⟨c, hc, ?_⟩
  have hint : c.1 ∩ comp = c.1 := Finset.inter_eq_left.mpr hsub
  rw [hint, if_neg hne, Prod.mk.eta]

/-- The heart of the containment: on a component that every touching
constraint is contained in, a cell whose value is forced by the global
constraint system is classified accordingly by `_solve_component`. -/
theorem solve_component_forced (comp : Finset Cell) (cs : List sat.SConstraint)
    (hsize : comp.card ≤ sat.MAX_COMPONENT_SIZE)
    (htouch : ∀ c ∈ cs, c.1 ∩ comp ≠ ∅ → c.1 ⊆ comp)
    (hbounds : ∀ c ∈ cs, 0 ≤ c.2 ∧ c.2 ≤ (c.1.card : Int))
    (f : Cell → Bool) (hsatf : ∀ c ∈ cs, mineCount f c.1 = c.2)
    (x : Cell) (hx : x ∈ comp)
    (cx : sat.SConstraint) (hcx : cx ∈ cs) (hxcx : x ∈ cx.1)
    (v : Bool)
    (hforce : ∀ g : Cell → Bool, (∀ c ∈ cs, mineCount g c.1 = c.2) → g x = v) :
    (v = false → x ∈ (sat.solve_component (toCellList comp) cs).1) ∧
    (v = true → x ∈ (sat.solve_component (toCellList comp) cs).2) := by
  have hndc : (toCellList comp).Nodup := toCellList_nodup comp
  have htf : (toCellList comp).toFinset = comp := toCellList_toFinset comp
  have hlenc : (toCellList comp).length = comp.card := by
    conv_rhs => rw [← htf]
    exact (List.toFinset_card_of_nodup hndc).symm
  have hg1 : ¬(toCellList comp = [] ∨
      sat.MAX_COMPONENT_SIZE < (toCellList comp).length) := by
    push_neg
    refine ⟨?_, ?_⟩
    · intro he
      have hxl : x ∈ toCellList comp := mem_toCellList.mpr hx
      rw [he] at hxl
      cases hxl
    · rw [hlenc]
      exact hsize
  rw [sat.solve_component, if_neg hg1]
  dsimp only
  rw [htf]
  set rel : List sat.SConstraint := cs.filterMap (fun c =>
    if c.1 ∩ comp = ∅ then none else some (c.1 ∩ comp, c.2)) with hrel
  set ordered : List Cell := sat.sortDesc (fun cell =>
    ((List.range rel.length).filter (fun idx =>
      decide (cell ∈ (rel.getD idx ((∅ : Finset Cell), (0 : Int))).1))).length)
    (toCellList comp) with hord
  set res : sat.EnumState := sat.dfsEnum (fun cell =>
      (List.range rel.length).filter (fun idx =>
        decide (cell ∈ (rel.getD idx ((∅ : Finset Cell), (0 : Int))).1)))
    ordered (rel.map (fun c => max 0 (min c.2 (c.1.card : Int))))
    (rel.map (fun c => (c.1.card : Int))) []
    (List.replicate ordered.length (false, false), 0, false) with hres
  have hndo : ordered.Nodup := by
    rw [hord]
    exact ((sortDesc_perm _ _).nodup_iff).mpr hndc
  have htfo : ordered.toFinset = comp := by
    rw [hord]
    ext y
    rw [List.mem_toFinset, List.Perm.mem_iff (sortDesc_perm _ _)]
    exact mem_toCellList
  have hcxint : cx.1 ∩ comp ≠ ∅ :=
    Finset.ne_empty_of_mem (Finset.mem_inter.mpr ⟨hxcx, hx⟩)
  have hcxsub : cx.1 ⊆ comp := htouch cx hcx hcxint
  have hg2 : ¬(rel = []) := by
    rw [hrel]
    exact List.ne_nil_of_mem (relevant_entry_intro hcx hcxsub
      (Finset.ne_empty_of_mem hxcx))
  have hrelmem : ∀ e ∈ rel, e ∈ cs ∧ e.1 ⊆ comp ∧ e.1 ≠ ∅ := by
    intro e hee
    rw [hrel] at hee
    exact relevant_entry_mem htouch hee
  have hUsub' : ∀ k, k < rel.length →
      (rel.getD k ((∅ : Finset Cell), (0 : Int))).1 ⊆ ordered.toFinset := by
    intro k hk
    have hemem : rel.getD k ((∅ : Finset Cell), (0 : Int)) ∈ rel := by
      rw [List.getD_eq_getElem _ _ hk]
      exact List.getElem_mem _
    rw [htfo]
    exact (hrelmem _ hemem).2.1
  have hbounds' : ∀ e ∈ rel, 0 ≤ e.2 ∧ e.2 ≤ (e.1.card : Int) := by
    intro e hee
    exact hbounds e (hrelmem e hee).1
  have hsatf' : ∀ e ∈ rel, mineCount f e.1 = e.2 := by
    intro e hee
    exact hsatf e (hrelmem e hee).1
  have hxo : x ∈ ordered := by
    rw [← List.mem_toFinset, htfo]
    exact hx
  obtain ⟨idx, hidxlt, hgetx⟩ := List.mem_iff_getElem.mp hxo
  have hforce' : ∀ vals : List Bool, vals.length = ordered.length →
      SatL rel (ordered.zip vals) → vals.getD idx false = v := by
    intro vals hvl hvs
    have hgsat : ∀ c0 ∈ cs, mineCount
        (fun c => if c ∈ comp then valAt ordered vals c else f c) c0.1 = c0.2 := by
      intro c0 hc0
      by_cases hov : c0.1 ∩ comp = ∅
      · have hagree : ∀ c ∈ c0.1,
            (fun c => if c ∈ comp then valAt ordered vals c else f c) c = f c := by
          intro c hc
          have hnc : c ∉ comp := fun hcc =>
            Finset.eq_empty_iff_forall_not_mem.mp hov c
              (Finset.mem_inter.mpr ⟨hc, hcc⟩)
          show (if c ∈ comp then valAt ordered vals c else f c) = f c
          rw [if_neg hnc]
        rw [mineCount_congr hagree]
        exact hsatf c0 hc0
      · have hsub : c0.1 ⊆ comp := htouch c0 hc0 hov
        have hne0 : c0.1 ≠ ∅ := by
          intro he
          rw [he] at hov
          exact hov (Finset.empty_inter comp)
        have hmemrel : c0 ∈ rel := by
          rw [hrel]
          exact relevant_entry_intro hc0 hsub hne0
        obtain ⟨k0, hk0, hk0get⟩ := List.mem_iff_getElem.mp hmemrel
        have hks := hvs k0 hk0
        have hgd0 : rel.getD k0 ((∅ : Finset Cell), (0 : Int)) = c0 := by
          rw [List.getD_eq_getElem _ _ hk0]
          exact hk0get
        rw [hgd0] at hks
        rw [minesIn_eq_mineCount ordered vals _ hndo
          (by rw [htfo]; exact hsub) hvl] at hks
        have hagree : ∀ c ∈ c0.1,
            (fun c => if c ∈ comp then valAt ordered vals c else f c) c
              = valAt ordered vals c := by
          intro c hc
          show (if c ∈ comp then valAt ordered vals c else f c)
            = valAt ordered vals c
          rw [if_pos (hsub hc)]
        rw [mineCount_congr hagree]
        exact hks
    have hgx : (if x ∈ comp then valAt ordered vals x else f x) = v :=
      hforce _ hgsat
    rw [if_pos hx] at hgx
    rw [← hgetx] at hgx
    have hgx2 : valAt ordered vals (ordered.get ⟨idx, hidxlt⟩) = v := hgx
    rw [valAt_getElem ordered vals hndo hvl idx hidxlt] at hgx2
    exact hgx2
  obtain ⟨hcnt, hlenR, hpair⟩ := enum_forced rel
    (fun cell => (List.range rel.length).filter (fun idx =>
      decide (cell ∈ (rel.getD idx ((∅ : Finset Cell), (0 : Int))).1)))
    (fun _ => rfl)
    (rel.map (fun c => max 0 (min c.2 (c.1.card : Int))))
    (rel.map (fun c => (c.1.card : Int))) rfl rfl
    ordered hndo hUsub' hbounds' f hsatf' idx hidxlt v hforce'
  rw [← hres] at hcnt hlenR hpair
  have hg3 : ¬(res.2.1 = 0) := by omega
  rw [if_neg hg2, if_neg hg3]
  dsimp only
  have hzlen2 : idx < res.1.length := by
    rw [hlenR]
    exact hidxlt
  have hzm : (x, res.1.getD idx (false, false)) ∈ ordered.zip res.1 := by
    have h1 : idx < (ordered.zip res.1).length := by
      rw [List.length_zip]
      omega
    have h2 : (ordered.zip res.1)[idx] = (x, res.1.getD idx (false, false)) := by
      rw [List.getElem_zip, hgetx, List.getD_eq_getElem _ _ hzlen2]
    rw [← h2]
    exact List.getElem_mem _
  constructor
  · intro hvf
    refine (mem_foldl_insert (fun p : Cell × (Bool × Bool) =>
      p.2 = (true, false)) _ _ x).mpr (Or.inr
      ⟨(x, res.1.getD idx (false, false)), hzm, ?_, rfl⟩)
    show res.1.getD idx (false, false) = (true, false)
    rw [hpair, hvf]
    rfl
  · intro hvt
    refine (mem_foldl_insert (fun p : Cell × (Bool × Bool) =>
      p.2 = (false, true)) _ _ x).mpr (Or.inr
      ⟨(x, res.1.getD idx (false, false)), hzm, ?_, rfl⟩)
    show res.1.getD idx (false, false) = (false, true)
    rw [hpair, hvt]
    rfl

/-- Membership in the component fold of `sat.infer`. -/
theorem mem_infer_fold (cs : List sat.SConstraint) (x : Cell) :
    ∀ (comps : List (Finset Cell)) (acc : Finset Cell × Finset Cell),
      (x ∈ (comps.foldl (fun acc comp =>
          (acc.1 ∪ (sat.solve_component (toCellList comp) cs).1,
           acc.2 ∪ (sat.solve_component (toCellList comp) cs).2)) acc).1 ↔
        x ∈ acc.1 ∨ ∃ comp ∈ comps,
          x ∈ (sat.solve_component (toCellList comp) cs).1) ∧
      (x ∈ (comps.foldl (fun acc comp =>
          (acc.1 ∪ (sat.solve_component (toCellList comp) cs).1,
           acc.2 ∪ (sat.solve_component (toCellList comp) cs).2)) acc).2 ↔
        x ∈ acc.2 ∨ ∃ comp ∈ comps,
          x ∈ (sat.solve_component (toCellList comp) cs).2) := by
  intro comps
  induction comps with
  | nil =>
    intro acc
    simp
  | cons comp0 rest ih =>
    intro acc
    rw [List.foldl_cons]
    refine ⟨((ih _).1).trans ?_, ((ih _).2).trans ?_⟩
    · constructor
      · rintro (h | ⟨c', hc', hx⟩)
        · rcases Finset.mem_union.mp h with h | h
          · exact Or.inl h
          · exact Or.inr ⟨comp0, List.mem_cons_self comp0 rest, h⟩
        · exact Or.inr ⟨c', List.mem_cons_of_mem comp0 hc', hx⟩
      · rintro (h | ⟨c', hc', hx⟩)
        · exact Or.inl (Finset.mem_union_left _ h)
        · rcases List.mem_cons.mp hc' with rfl | hc'
          · exact Or.inl (Finset.mem_union_right _ hx)
          · exact Or.inr ⟨c', hc', hx⟩
    · constructor
      · rintro (h | ⟨c', hc', hx⟩)
        · rcases Finset.mem_union.mp h with h | h
          · exact Or.inl h
          · exact Or.inr ⟨comp0, List.mem_cons_self comp0 rest, h⟩
        · exact Or.inr ⟨c', List.mem_cons_of_mem comp0 hc', hx⟩
      · rintro (h | ⟨c', hc', hx⟩)
        · exact Or.inl (Finset.mem_union_left _ h)
        · rcases List.mem_cons.mp hc' with rfl | hc'
          · exact Or.inl (Finset.mem_union_right _ hx)
          · exact Or.inr ⟨c', hc', hx⟩

/-- C6 counterexample: on the reachable board `bC6` every component is within
the SAT bound (there are no components: the lone constraint `({(0,2)}, 1)` is
a singleton and builds none), the CSP engine flags `(0,2)` as a mine, yet the
SAT engine's mine list does not contain it. -/
theorem C6_counterexample :
    Reachable bC6 ∧
    (∀ comp ∈ sat.build_components (sat.extract_constraints bC6),
      comp.card ≤ sat.MAX_COMPONENT_SIZE) ∧
    (0, 2) ∈ (csp.infer bC6).2 ∧ (0, 2) ∉ (sat.infer bC6).2 :=
  ⟨reachable_revealB (reachable_revealB
      (Reachable.init 1 3 (some {(0, 2)}) none true) 0 0) 0 1,
    by decide, by decide, by decide⟩

/-- C6 amended: the SAT output contains the CSP output on boards where, in
addition to the component-size bound, (i) no revealed zero has unknown
neighbours (otherwise CSP extracts a constraint from the zero that SAT
skips), (ii) every SAT constraint has at least two cells (a singleton
constraint builds no component, so its cell is never solved by SAT), and
(iii) the constraints are satisfiable (otherwise the CSP unit rules can fire
on inconsistent counts that make the SAT enumeration record nothing).  Every
cell CSP lists as safe is then in SAT's safe list, and every cell CSP lists
as a mine is in SAT's mine list. -/
theorem C6_theorem (b : Board)
    (hz : ∀ c ∈ b.revealed_cells, b.get_tile c.1 c.2 = 0 →
      (b.neighbors c.1 c.2).filter (fun n => b.is_unknown n.1 n.2) = [])
    (hcard : ∀ c ∈ sat.extract_constraints b, 2 ≤ c.1.card)
    (hbound : ∀ comp ∈ sat.build_components (sat.extract_constraints b),
      comp.card ≤ sat.MAX_COMPONENT_SIZE)
    (hsat : ∃ f : Cell → Bool, ∀ c ∈ sat.extract_constraints b,
      mineCount f c.1 = c.2) :
    (∀ x ∈ (csp.infer b).1, x ∈ (sat.infer b).1) ∧
    (∀ x ∈ (csp.infer b).2, x ∈ (sat.infer b).2) := by
  obtain ⟨f, hf⟩ := hsat
  have hfc : ∀ C ∈ csp.extract_constraints b,
      mineCount f C.unknown_neighbors = C.required_mines :=
    (sat_csp_assign b hz f).mp hf
  obtain ⟨hsound1, hsound2⟩ := csp_infer_sound b f hfc
  have hmain : ∀ (x : Cell) (v : Bool),
      (∃ C ∈ csp.extract_constraints b, x ∈ C.unknown_neighbors) →
      (∀ g : Cell → Bool,
        (∀ c ∈ sat.extract_constraints b, mineCount g c.1 = c.2) → g x = v) →
      (v = false → x ∈ (sat.infer b).1) ∧ (v = true → x ∈ (sat.infer b).2) := by
    intro x v hexC hforce
    obtain ⟨C, hC, hxC⟩ := hexC
    have hcs : ((C.unknown_neighbors, C.required_mines) : sat.SConstraint)
        ∈ sat.extract_constraints b := by
      rw [extract_map b hz]
      exact List.mem_map.mpr ⟨C, hC, rfl⟩
    have hxkey : x ∈ sat.adjKeys (sat.extract_constraints b) :=
      mem_adjKeys (C.unknown_neighbors, C.required_mines) hcs hxC (hcard _ hcs)
    obtain ⟨comp, hcomp, hxcomp⟩ :=
      (build_components_spec (sat.extract_constraints b)).2 x hxkey
    have hclosed := (build_components_spec (sat.extract_constraints b)).1
    have htouch : ∀ c ∈ sat.extract_constraints b,
        c.1 ∩ comp ≠ ∅ → c.1 ⊆ comp := by
      intro c hc hov
      obtain ⟨y, hy⟩ := Finset.nonempty_iff_ne_empty.mpr hov
      have hy1 : y ∈ c.1 := (Finset.mem_inter.mp hy).1
      have hy2 : y ∈ comp := (Finset.mem_inter.mp hy).2
      intro z hz1
      by_cases hzy : z = y
      · rw [hzy]
        exact hy2
      · exact hclosed comp hcomp y hy2
          ((mem_adjacency _ y z).mpr
            ⟨c, hc, hy1, Finset.mem_erase.mpr ⟨hzy, hz1⟩⟩)
    have hbounds : ∀ c ∈ sat.extract_constraints b,
        0 ≤ c.2 ∧ c.2 ≤ (c.1.card : Int) := by
      intro c hc
      obtain ⟨h1, h2, -⟩ := sat_extract_spec b c hc
      exact ⟨h1, h2⟩
    obtain ⟨hres1, hres2⟩ := solve_component_forced comp (sat.extract_constraints b)
      (hbound comp hcomp) htouch hbounds f hf x hxcomp
      (C.unknown_neighbors, C.required_mines) hcs hxC v hforce
    have hcsne : ¬(sat.extract_constraints b = []) := List.ne_nil_of_mem hcs
    rw [sat.infer]
    dsimp only
    rw [if_neg hcsne]
    dsimp only
    constructor
    · intro hvf
      rw [mem_toCellList]
      exact ((mem_infer_fold (sat.extract_constraints b) x
        (sat.build_components (sat.extract_constraints b)) (∅, ∅)).1).mpr
        (Or.inr ⟨comp, hcomp, hres1 hvf⟩)
    · intro hvt
      rw [mem_toCellList]
      exact ((mem_infer_fold (sat.extract_constraints b) x
        (sat.build_components (sat.extract_constraints b)) (∅, ∅)).2).mpr
        (Or.inr ⟨comp, hcomp, hres2 hvt⟩)
  constructor
  · intro x hx
    exact (hmain x false ((hsound1 x hx).1) (fun g hg =>
      ((csp_infer_sound b g ((sat_csp_assign b hz g).mp hg)).1 x hx).2)).1 rfl
  · intro x hx
    exact (hmain x true ((hsound2 x hx).1) (fun g hg =>
      ((csp_infer_sound b g ((sat_csp_assign b hz g).mp hg)).2 x hx).2)).2 rfl

/-- C6 witness: the amended containment applied to the concrete board `bC6w`
(1×3, mine at `(0,0)`, `(0,1)` revealed showing 1), whose lone constraint has
two cells, no revealed zero, and the satisfying assignment putting the mine
at `(0,0)`. -/
theorem C6_witness :
    (∀ x ∈ (csp.infer bC6w).1, x ∈ (sat.infer bC6w).1) ∧
    (∀ x ∈ (csp.infer bC6w).2, x ∈ (sat.infer bC6w).2) :=
  C6_theorem bC6w (by decide) (by decide) (by decide)
    ⟨fun c => decide (c = (0, 0)), by decide⟩

end MS

